import Mathlib

/-!
# HTHSM: a hierarchical state machine engine

A shallow embedding of `src/HTHSM.h` and `src/HTHSM.c`, followed by theorems about the
lowest-common-superstate resolver, the dispatch walk and the transition engine.

Modelling conventions.

* A `const HTHSM_State *` is an address (`StateId`), `NULL` is `none`, and the state objects live
  in a read-only memory `Mem`.  A function pointer is an address `FnId` into a table `Code` of
  handler bodies.
* A `HTHSM_Event *` is an `EventPtr`: one of the three static events of `HTHSM.c` or an event
  object owned by the host.
* A handler body reads the machine, the event and the application state; it answers with a return
  code, a new application state and the targets of the `HTHSM_Transition` calls it made, in order
  (the header allows a handler to touch the machine only through `HTHSM_Transition`).  The engine
  applies those calls with the embedded `HTHSM_Transition`.
* Pointer-chasing loops take a fuel argument; one unit is spent per loop iteration and per nested
  call of `__Dispatch` / `__Transition`.
* Every handler call is appended to a ghost `trace`.
-/

namespace HTHSM

/-! ## Data model (`HTHSM.h`) -/

/-- Address of a `HTHSM_State` object. -/
abbrev StateId := Nat

/-- Address of a handler function. -/
abbrev FnId := Nat

/-- Size of the static `stateList` buffer of `__Dispatch` (the header's default). -/
def HTHSM_MAX_HIERARCHY_DEPTH : Nat := 5

/-- Return codes of a state handler. -/
inductive HTHSM_return_t where
  | HTHSM_CONTINUE
  | HTHSM_SUPPRESS_SUPERSTATES
  | HTHSM_SUPPRESS_IMMEDIATE_SUPERSTATE
  deriving DecidableEq, Repr

open HTHSM_return_t

/-- Signals are C `short` values; no arithmetic is done on them. -/
abbrev HTHSM_Signal := Int

def HTHSM_SIG_INIT : HTHSM_Signal := 1
def HTHSM_SIG_ENTRY : HTHSM_Signal := 2
def HTHSM_SIG_EXIT : HTHSM_Signal := 3
def HTHSM_SIG_USER_START : HTHSM_Signal := 4

/-- The `HTHSM_Event` struct. -/
structure HTHSM_Event where
  sig : HTHSM_Signal
  param : Nat
  deriving DecidableEq, Repr

def initEvt : HTHSM_Event := { sig := HTHSM_SIG_INIT, param := 0 }
def entryEvt : HTHSM_Event := { sig := HTHSM_SIG_ENTRY, param := 0 }
def exitEvt : HTHSM_Event := { sig := HTHSM_SIG_EXIT, param := 0 }

/-- A pointer to an event: the address of one of the three static events of `HTHSM.c`, or of an
event object supplied by the host. -/
inductive EventPtr where
  | init
  | entry
  | exit
  | host (e : HTHSM_Event)
  deriving DecidableEq, Repr

/-- The event a pointer points to. -/
def EventPtr.deref : EventPtr → HTHSM_Event
  | .init => initEvt
  | .entry => entryEvt
  | .exit => exitEvt
  | .host e => e

/-- The `HTHSM_State` struct. -/
structure HTHSM_State where
  handlerFn : FnId
  superState : Option StateId
  identifier : Nat
  deriving DecidableEq, Repr

/-- The `HTHSM_Fsm` struct. -/
structure HTHSM_Fsm where
  pState__ : Option StateId
  pTransitionTarget : Option StateId
  pLatestEvent : Option EventPtr
  fnGenericEvtHandler : Option FnId
  deriving DecidableEq, Repr

/-- The read-only memory holding the state objects. -/
abbrev Mem := StateId → HTHSM_State

/-- What one run of a handler body does: its return code, the targets of its
`HTHSM_Transition` calls in program order, and the application state it leaves. -/
structure Outcome (σ : Type) where
  ret : HTHSM_return_t
  requests : List (Option StateId)
  app : σ

/-- A handler body (`HTHSM_State_fn`). -/
abbrev HTHSM_State_fn (σ : Type) := HTHSM_Fsm → σ → HTHSM_Event → Outcome σ

/-- The handler functions of the application, by address. -/
abbrev Code (σ : Type) := FnId → HTHSM_State_fn σ

/-- Who is called: the generic handler of the machine, or the handler of a state. -/
inductive Callee where
  | generic
  | state (s : StateId)
  deriving DecidableEq, Repr

/-- One handler call, as recorded in the trace: who was called, with which event, the machine as
the handler found it, the code it returned, and the targets of the `HTHSM_Transition` calls it
made. -/
structure Invocation where
  callee : Callee
  e : EventPtr
  me : HTHSM_Fsm
  ret : HTHSM_return_t
  requests : List (Option StateId)
  deriving DecidableEq, Repr

/-- Ways a run can go wrong: the fuel of the model ran out, a null pointer was dereferenced, or
`stateList` was accessed at an index outside the buffer. -/
inductive Fault where
  | outOfFuel
  | nullDeref
  | outOfBounds (i : Nat)
  deriving DecidableEq, Repr

/-- The mutable world: the machine, the application state, the static `stateList` buffer of
`__Dispatch`, and the trace of handler calls. -/
structure Sys (σ : Type) where
  me : HTHSM_Fsm
  app : σ
  stateList : Nat → Option StateId
  trace : List Invocation

/-! ## The engine (`HTHSM.c`) -/

/-- `HTHSM_FsmCtor`. -/
def HTHSM_FsmCtor (initialState : Option StateId) (fnGenericEvtHandler : Option FnId) :
    HTHSM_Fsm :=
  { pState__ := initialState
    pTransitionTarget := none
    pLatestEvent := none
    fnGenericEvtHandler := fnGenericEvtHandler }

/-- `HTHSM_Transition`: record the target when an event other than ENTRY and EXIT is being
handled. -/
def HTHSM_Transition (me : HTHSM_Fsm) (target : Option StateId) : HTHSM_Fsm :=
  match me.pLatestEvent with
  | none => me
  | some p =>
    if p.deref.sig ≠ HTHSM_SIG_ENTRY ∧ p.deref.sig ≠ HTHSM_SIG_EXIT then
      { me with pTransitionTarget := target }
    else me

/-- The inner `for` loop of `__lowestCommonSuperstate`: is `p1` met while walking up from
`p2`? -/
def lcsInner (mem : Mem) (p1 : StateId) : Nat → Option StateId → Except Fault Bool
  | _, none => .ok false
  | 0, some _ => .error .outOfFuel
  | fuel + 1, some p2 =>
    if p1 = p2 then .ok true else lcsInner mem p1 fuel (mem p2).superState

/-- The outer `for` loop of `__lowestCommonSuperstate`. -/
def lcsOuter (mem : Mem) (inner : Nat) (state2 : Option StateId) :
    Nat → Option StateId → Except Fault (Option StateId)
  | _, none => .ok none
  | 0, some _ => .error .outOfFuel
  | fuel + 1, some p1 =>
    match lcsInner mem p1 inner state2 with
    | .error f => .error f
    | .ok true => .ok (some p1)
    | .ok false => lcsOuter mem inner state2 fuel (mem p1).superState

/-- `__lowestCommonSuperstate`. -/
def __lowestCommonSuperstate (mem : Mem) (fuel : Nat) (state1 state2 : Option StateId) :
    Except Fault (Option StateId) :=
  lcsOuter mem fuel state2 fuel state1

/-- One handler call `(fn)(me, e)`: run the body, apply its `HTHSM_Transition` calls to the
machine, keep its application state, and log the call. -/
def callHandler {σ : Type} (code : Code σ) (callee : Callee) (fn : FnId) (e : EventPtr)
    (w : Sys σ) : HTHSM_return_t × Sys σ :=
  let r := code fn w.me w.app e.deref
  (r.ret,
    { w with
      me := r.requests.foldl HTHSM_Transition w.me
      app := r.app
      trace := w.trace ++
        [{ callee := callee, e := e, me := w.me, ret := r.ret, requests := r.requests }] })

/-- The first `for` loop of `__Dispatch`, from `pState` on, with `stateListIndex = idx`.  It
returns the final `stateListIndex` and world. -/
def dispatchLoop {σ : Type} (mem : Mem) (code : Code σ) (e : EventPtr)
    (superstateToStopBefore : Option StateId) (descending : Bool) :
    Nat → Option StateId → Nat → Sys σ → Except Fault (Nat × Sys σ)
  | _, none, idx, w => .ok (idx, w)
  | 0, some s, idx, w =>
    if some s = superstateToStopBefore then .ok (idx, w) else .error .outOfFuel
  | fuel + 1, some s, idx, w =>
    if some s = superstateToStopBefore then .ok (idx, w)
    else if descending then
      if idx < HTHSM_MAX_HIERARCHY_DEPTH then
        dispatchLoop mem code e superstateToStopBefore descending fuel (mem s).superState
          (idx + 1) { w with stateList := Function.update w.stateList idx (some s) }
      else .error (.outOfBounds idx)
    else
      match callHandler code (.state s) (mem s).handlerFn e w with
      | (HTHSM_SUPPRESS_SUPERSTATES, w1) => .ok (idx, w1)
      | (HTHSM_SUPPRESS_IMMEDIATE_SUPERSTATE, w1) =>
        match (mem s).superState with
        | some p =>
          dispatchLoop mem code e superstateToStopBefore descending fuel (mem p).superState idx w1
        | none => dispatchLoop mem code e superstateToStopBefore descending fuel none idx w1
      | (HTHSM_CONTINUE, w1) =>
        dispatchLoop mem code e superstateToStopBefore descending fuel (mem s).superState idx w1

/-- The second `for` loop of `__Dispatch`, entered after `stateListIndex--`: `n` is
`stateListIndex + 1`, so the loop runs over the indices `n - 1, …, 0`. -/
def descendLoop {σ : Type} (mem : Mem) (code : Code σ) (e : EventPtr) :
    Nat → Sys σ → Except Fault (Sys σ)
  | 0, w => .ok w
  | idx + 1, w =>
    if idx < HTHSM_MAX_HIERARCHY_DEPTH then
      match w.stateList idx with
      | none => .error .nullDeref
      | some s => descendLoop mem code e idx (callHandler code (.state s) (mem s).handlerFn e w).2
    else .error (.outOfBounds idx)

/-- The call of the generic handler at the head of `__Dispatch`, made when one is configured;
its return value is dropped. -/
def callGeneric {σ : Type} (code : Code σ) (e : EventPtr) (w : Sys σ) : Sys σ :=
  match w.me.fnGenericEvtHandler with
  | some fn => (callHandler code .generic fn e w).2
  | none => w

mutual

/-- `__Dispatch`. -/
def __Dispatch {σ : Type} (mem : Mem) (code : Code σ) :
    Nat → Sys σ → EventPtr → Option StateId → Bool → Except Fault (Sys σ)
  | 0, _, _, _, _ => .error .outOfFuel
  | fuel + 1, w, e, superstateToStopBefore, descending =>
    let w0 : Sys σ := { w with me := { w.me with pLatestEvent := some e } }
    let w1 : Sys σ := callGeneric code e w0
    match dispatchLoop mem code e superstateToStopBefore descending (fuel + 1) w1.me.pState__ 0 w1
      with
    | .error f => .error f
    | .ok (stateListIndex, w2) =>
      match (if descending then descendLoop mem code e stateListIndex w2 else .ok w2) with
      | .error f => .error f
      | .ok w3 =>
        match w3.me.pTransitionTarget with
        | none => .ok w3
        | some t =>
          __Transition mem code fuel { w3 with me := { w3.me with pTransitionTarget := none } }
            (some t)

/-- `__Transition`. -/
def __Transition {σ : Type} (mem : Mem) (code : Code σ) :
    Nat → Sys σ → Option StateId → Except Fault (Sys σ)
  | 0, _, _ => .error .outOfFuel
  | fuel + 1, w, target =>
    match __lowestCommonSuperstate mem (fuel + 1) w.me.pState__ target with
    | .error f => .error f
    | .ok lowestCommonSuperstate =>
      match __Dispatch mem code fuel w .exit lowestCommonSuperstate false with
      | .error f => .error f
      | .ok w1 =>
        __Dispatch mem code fuel { w1 with me := { w1.me with pState__ := target } } .entry
          lowestCommonSuperstate true

end

/-- `HTHSM_Dispatch`. -/
def HTHSM_Dispatch {σ : Type} (mem : Mem) (code : Code σ) (fuel : Nat) (w : Sys σ)
    (e : HTHSM_Event) : Except Fault (Sys σ) :=
  __Dispatch mem code fuel w (.host e) none false

/-- `HTHSM_FsmInit`. -/
def HTHSM_FsmInit {σ : Type} (mem : Mem) (code : Code σ) (fuel : Nat) (w : Sys σ) :
    Except Fault (Sys σ) :=
  match w.me.pState__ with
  | none => .error .nullDeref
  | some s =>
    match __Dispatch mem code fuel w .init (mem s).superState false with
    | .error f => .error f
    | .ok w1 => __Dispatch mem code fuel w1 .entry none true

/-! ## The test fixture of `test/TestHTHSM.c` -/

def stateA : StateId := 0
def stateB : StateId := 1
def stateC : StateId := 2
def stateD : StateId := 3
def stateE : StateId := 4

/-- The five states of the test file; the handler of state `i` is function `i`.  Addresses
beyond the fixture hold parentless states. -/
def testMem : Mem
  | 0 => { handlerFn := 0, superState := none, identifier := 0 }
  | 1 => { handlerFn := 1, superState := some 0, identifier := 1 }
  | 2 => { handlerFn := 2, superState := some 0, identifier := 2 }
  | 3 => { handlerFn := 3, superState := some 2, identifier := 3 }
  | 4 => { handlerFn := 4, superState := none, identifier := 4 }
  | n + 5 => { handlerFn := n + 5, superState := none, identifier := n + 5 }

/-- The handlers of the test file (`stateD_fxn` switches on the signal, the others continue). -/
def testCode : Code Unit := fun fn _ _ e =>
  if fn = 3 then
    if e.sig = 5 then { ret := HTHSM_SUPPRESS_SUPERSTATES, requests := [], app := () }
    else if e.sig = 6 then
      { ret := HTHSM_SUPPRESS_IMMEDIATE_SUPERSTATE, requests := [], app := () }
    else if e.sig = 7 then { ret := HTHSM_CONTINUE, requests := [some stateB], app := () }
    else if e.sig = 8 then { ret := HTHSM_CONTINUE, requests := [some stateE], app := () }
    else if e.sig = 9 then { ret := HTHSM_CONTINUE, requests := [some stateA], app := () }
    else { ret := HTHSM_CONTINUE, requests := [], app := () }
  else { ret := HTHSM_CONTINUE, requests := [], app := () }

/-- A fresh world around a machine. -/
def Sys.start {σ : Type} (me : HTHSM_Fsm) (app : σ) : Sys σ :=
  { me := me, app := app, stateList := fun _ => none, trace := [] }

/-- The machine of the tests, constructed on `stateD` without a generic handler. -/
def testStart : Sys Unit :=
  Sys.start (HTHSM_FsmCtor (some stateD) none) ()

/-- The events `SIG_1`, `SIG_2`, `SIG_3` of the tests. -/
def sig1Evt : HTHSM_Event := { sig := 4, param := 0 }
def sig2Evt : HTHSM_Event := { sig := 5, param := 0 }
def sig3Evt : HTHSM_Event := { sig := 6, param := 0 }

/-- The event `SIG_4` of the tests, on which `stateD_fxn` requests a transition to `stateB`. -/
def sig4Evt : HTHSM_Event := { sig := 7, param := 0 }

/-- Handlers that all continue, except that the handler of `stateD` suppresses its superstates
when it receives EXIT. -/
def exitSuppressCode : Code Unit := fun fn _ _ e =>
  if fn = 3 ∧ e.sig = HTHSM_SIG_EXIT then
    { ret := HTHSM_SUPPRESS_SUPERSTATES, requests := [], app := () }
  else { ret := HTHSM_CONTINUE, requests := [], app := () }

/-- Handlers that all continue, except that the handler of `stateD` suppresses its immediate
superstate when it receives EXIT. -/
def exitSkipCode : Code Unit := fun fn _ _ e =>
  if fn = 3 ∧ e.sig = HTHSM_SIG_EXIT then
    { ret := HTHSM_SUPPRESS_IMMEDIATE_SUPERSTATE, requests := [], app := () }
  else { ret := HTHSM_CONTINUE, requests := [], app := () }

/-- Handlers that all continue, except that the handler of `stateD` suppresses its immediate
superstate when it receives INIT. -/
def initSkipCode : Code Unit := fun fn _ _ e =>
  if fn = 3 ∧ e.sig = HTHSM_SIG_INIT then
    { ret := HTHSM_SUPPRESS_IMMEDIATE_SUPERSTATE, requests := [], app := () }
  else { ret := HTHSM_CONTINUE, requests := [], app := () }

/-- Handlers that continue and request nothing. -/
def idleCode : Code Unit := fun _ _ _ _ =>
  { ret := HTHSM_CONTINUE, requests := [], app := () }

/-- One long line of states: state `0` is a root and the parent of state `n + 1` is state `n`,
so that state `n` has `n` proper ancestors. -/
def lineMem : Mem
  | 0 => { handlerFn := 0, superState := none, identifier := 0 }
  | n + 1 => { handlerFn := n + 1, superState := some n, identifier := n + 1 }

/-- Handlers that all continue; the handler of `stateD` requests a transition to `stateB` on
`SIG_4`, and the handler of `stateB` requests a transition to `stateE` when it receives
ENTRY. -/
def entryRequestCode : Code Unit := fun fn _ _ e =>
  if fn = 3 ∧ e.sig = 7 then { ret := HTHSM_CONTINUE, requests := [some stateB], app := () }
  else if fn = 1 ∧ e.sig = HTHSM_SIG_ENTRY then
    { ret := HTHSM_CONTINUE, requests := [some stateE], app := () }
  else { ret := HTHSM_CONTINUE, requests := [], app := () }

/-- Handlers that all continue; the handler of `stateD` requests a transition to `stateB` when
it receives INIT. -/
def initRequestCode : Code Unit := fun fn _ _ e =>
  if fn = 3 ∧ e.sig = HTHSM_SIG_INIT then
    { ret := HTHSM_CONTINUE, requests := [some stateB], app := () }
  else { ret := HTHSM_CONTINUE, requests := [], app := () }

/-- The handlers of the tests, with a function `9` added that serves as generic handler and
returns `HTHSM_CONTINUE`. -/
def tracedCode : Code Unit := fun fn me app e =>
  if fn = 9 then { ret := HTHSM_CONTINUE, requests := [], app := () } else testCode fn me app e

/-- The same handlers, with a generic handler that returns `HTHSM_SUPPRESS_SUPERSTATES`. -/
def tracedCode2 : Code Unit := fun fn me app e =>
  if fn = 9 then { ret := HTHSM_SUPPRESS_SUPERSTATES, requests := [], app := () }
  else testCode fn me app e

/-- The graph of the tests, for a machine whose generic handler is function `9`: the five
states of the tests, and at every other address a root state handled by function `0`, so that
function `9` is the handler of no state. -/
def tracedMem : Mem
  | 0 => { handlerFn := 0, superState := none, identifier := 0 }
  | 1 => { handlerFn := 1, superState := some 0, identifier := 1 }
  | 2 => { handlerFn := 2, superState := some 0, identifier := 2 }
  | 3 => { handlerFn := 3, superState := some 2, identifier := 3 }
  | 4 => { handlerFn := 4, superState := none, identifier := 4 }
  | n + 5 => { handlerFn := 0, superState := none, identifier := n + 5 }

/-- The machine of the tests with function `9` as generic handler. -/
def tracedStart : Sys Unit :=
  Sys.start (HTHSM_FsmCtor (some stateD) (some 9)) ()

/-! ## Vocabulary of the statements -/

/-- The superstate reached from pointer `p` after `n` steps along `superState` (`NULL` stays
`NULL`). -/
def superN (mem : Mem) : Nat → Option StateId → Option StateId
  | 0, p => p
  | _ + 1, none => none
  | n + 1, some s => superN mem n (mem s).superState

/-- State `t` is `p` or one of its superstates (an inclusive ancestor of `p`). -/
def IsSuperOf (mem : Mem) (t : StateId) (p : Option StateId) : Prop :=
  ∃ k, superN mem k p = some t

/-- The first `n` states of the chain `p, p->superState, …`. -/
def ancestors (mem : Mem) : Nat → Option StateId → List StateId
  | 0, _ => []
  | _ + 1, none => []
  | n + 1, some s => s :: ancestors mem n (mem s).superState

/-- What the resolver answers from `p1` against the chain of `b`: nothing when the chains share
no state, otherwise the state of the chain of `p1` nearest to `p1` that lies on the chain of
`b`. -/
def LcsAnswer (mem : Mem) (p1 b r : Option StateId) : Prop :=
  (r = none ∧ ∀ t, IsSuperOf mem t p1 → ¬ IsSuperOf mem t b) ∨
  ∃ s k, r = some s ∧ superN mem k p1 = some s ∧ IsSuperOf mem s b ∧
    ∀ j, j < k → ∀ t, superN mem j p1 = some t → ¬ IsSuperOf mem t b

/-- Every chain of the graph ends in a root within `HTHSM_MAX_HIERARCHY_DEPTH` states. -/
def WellFormed (mem : Mem) : Prop :=
  ∀ s, superN mem HTHSM_MAX_HIERARCHY_DEPTH (some s) = none

/-- State `t` is a proper ancestor of state `s`. -/
def IsProperSuperOf (mem : Mem) (t s : StateId) : Prop :=
  ∃ k, superN mem (k + 1) (some s) = some t

/-- The states from `p` outward, up to but excluding `stop` (the whole chain when `stop` is not
on it), read off the first `n` states of the chain. -/
def chainBelow (mem : Mem) (stop : Option StateId) (n : Nat) (p : Option StateId) :
    List StateId :=
  (ancestors mem n p).takeWhile fun s => decide (some s ≠ stop)

/-- The calls a run added to the trace. -/
def newTrace {σ : Type} (w w' : Sys σ) : List Invocation :=
  w'.trace.drop w.trace.length

/-- The new calls of a run that returned, and nothing for a run that faulted. -/
def callsOfRun {σ : Type} (w : Sys σ) (r : Except Fault (Sys σ)) : List Invocation :=
  match r with
  | .ok w' => newTrace w w'
  | .error _ => []

/-- The states whose handlers were called with the event object `ev`, in call order. -/
def receivers (ev : EventPtr) (tr : List Invocation) : List StateId :=
  tr.filterMap fun i =>
    match i.callee with
    | .state s => if i.e = ev then some s else none
    | .generic => none

/-- The machine `b` differs from `a` at most in its pending transition target. -/
def SameFrame (a b : HTHSM_Fsm) : Prop :=
  b.pState__ = a.pState__ ∧ b.pLatestEvent = a.pLatestEvent ∧
    b.fnGenericEvtHandler = a.fnGenericEvtHandler

/-- The machine is handling ENTRY or EXIT, so that `HTHSM_Transition` records nothing. -/
def Gated (me : HTHSM_Fsm) : Prop :=
  ∃ p, me.pLatestEvent = some p ∧
    (p.deref.sig = HTHSM_SIG_ENTRY ∨ p.deref.sig = HTHSM_SIG_EXIT)

/-- The shape of the calls made by the ascending walk of `__Dispatch` from pointer `p`: the walk
is over at `NULL` and at the stop state; otherwise the state at hand is called, and its return
code decides whether the walk goes on at the parent, ends, or goes on at the grandparent. -/
inductive Walk (mem : Mem) (stop : Option StateId) : Option StateId → List Invocation → Prop
  | null : Walk mem stop none []
  | stop (s : StateId) : some s = stop → Walk mem stop (some s) []
  | next (s : StateId) (i : Invocation) (l : List Invocation) :
      some s ≠ stop → i.callee = .state s → i.ret = HTHSM_CONTINUE →
      Walk mem stop (mem s).superState l → Walk mem stop (some s) (i :: l)
  | last (s : StateId) (i : Invocation) :
      some s ≠ stop → i.callee = .state s → i.ret = HTHSM_SUPPRESS_SUPERSTATES →
      Walk mem stop (some s) [i]
  | skip (s : StateId) (i : Invocation) (l : List Invocation) :
      some s ≠ stop → i.callee = .state s → i.ret = HTHSM_SUPPRESS_IMMEDIATE_SUPERSTATE →
      Walk mem stop (superN mem 2 (some s)) l → Walk mem stop (some s) (i :: l)

/-- The calls of the generic handler made by one `__Dispatch` of `e` on machine `me`: none
without a generic handler, otherwise one call, with `e`, that finds the machine `me`. -/
def GenericCalls (e : EventPtr) (me : HTHSM_Fsm) (g : List Invocation) : Prop :=
  match me.fnGenericEvtHandler with
  | none => g = []
  | some _ => ∃ r q, g = [{ callee := .generic, e := e, me := me, ret := r, requests := q }]

/-- The calls made by one `__Transition` to state `Y`, started on machine `me`, with `lca` the
lowest common superstate of the active state and `Y`: the EXIT dispatch (generic handler, then
the ascending walk from the active state, stopping before `lca`), then the ENTRY dispatch
(generic handler, then the states from `Y` up to but excluding `lca`, outermost first).  The
active state is switched to `Y` in between. -/
def TransitionCalls (mem : Mem) (me : HTHSM_Fsm) (Y : StateId) (lca : Option StateId)
    (t : List Invocation) : Prop :=
  ∃ gx x gn en, t = (gx ++ x) ++ (gn ++ en) ∧
    GenericCalls .exit { me with pLatestEvent := some .exit } gx ∧
    Walk mem lca me.pState__ x ∧
    (∀ i ∈ x, i.e = .exit ∧ i.me = { me with pLatestEvent := some .exit }) ∧
    GenericCalls .entry { me with pState__ := some Y, pLatestEvent := some .entry } gn ∧
    en.map (fun i => i.callee) =
      (chainBelow mem lca HTHSM_MAX_HIERARCHY_DEPTH (some Y)).reverse.map Callee.state ∧
    (∀ i ∈ en, i.e = .entry ∧ i.me = { me with pState__ := some Y, pLatestEvent := some .entry })

/-- The calls of state handlers in a trace (the calls of the generic handler left out). -/
def stateHandlerCalls (tr : List Invocation) : List Invocation :=
  tr.filter fun i => decide (i.callee ≠ .generic)

/-- The calls of state handlers with the event object `ev`, in call order. -/
def callsOf (ev : EventPtr) (tr : List Invocation) : List Invocation :=
  tr.filter fun i => decide (i.e = ev ∧ i.callee ≠ .generic)

/-- The walk of the active-state query: is `state` met while walking up from `p`? -/
def stateIsActiveFrom (mem : Mem) (state : StateId) : Nat → Option StateId → Except Fault Bool
  | _, none => .ok false
  | 0, some _ => .error .outOfFuel
  | fuel + 1, some p => if p = state then .ok true else stateIsActiveFrom mem state fuel (mem p).superState

/-- Modelled from the spec: `HTHSM_StateIsActive(me, state)` is called by `test/TestHTHSM.c`, but
its definition is not among the sources.  Spec 4.5: true iff the candidate equals the machine's
current active state or any ancestor of it.  The model walks up from the active state and
compares each state met with the candidate. -/
def HTHSM_StateIsActive (mem : Mem) (fuel : Nat) (me : HTHSM_Fsm) (state : StateId) :
    Except Fault Bool :=
  stateIsActiveFrom mem state fuel me.pState__

/-- The targets of the `HTHSM_Transition` calls made in the calls of a trace, in order. -/
def requestsOf : List Invocation → List (Option StateId)
  | [] => []
  | i :: tr => i.requests ++ requestsOf tr

/-- What a run of handler calls `l` with event `e` does to the machine: `me1` is `me0` after
the `HTHSM_Transition` calls of `l`, every call of `l` is made with `e` on a machine that
differs from `me0` at most in the pending target, and on `me0` itself while ENTRY or EXIT is
handled. -/
def Effect (e : EventPtr) (me0 me1 : HTHSM_Fsm) (l : List Invocation) : Prop :=
  me1 = (requestsOf l).foldl HTHSM_Transition me0 ∧
    (∀ i ∈ l, i.e = e ∧ SameFrame me0 i.me) ∧ (Gated me0 → ∀ i ∈ l, i.me = me0)

/-- The body of `__Dispatch` up to the check for a pending transition (`HTHSM.c`, lines 65 to
97): the latest event is set, the generic handler is called, then the walk runs, and in
descending mode the collected handlers are called. -/
def dispatchWalk {σ : Type} (mem : Mem) (code : Code σ) :
    Nat → Sys σ → EventPtr → Option StateId → Bool → Except Fault (Sys σ)
  | 0, _, _, _, _ => .error .outOfFuel
  | fuel + 1, w, e, superstateToStopBefore, descending =>
    let w0 : Sys σ := { w with me := { w.me with pLatestEvent := some e } }
    let w1 : Sys σ := callGeneric code e w0
    match dispatchLoop mem code e superstateToStopBefore descending (fuel + 1) w1.me.pState__ 0 w1
      with
    | .error f => .error f
    | .ok (stateListIndex, w2) =>
      if descending then descendLoop mem code e stateListIndex w2 else .ok w2

/-- The body of `__Transition` with its two dispatches cut down to `dispatchWalk`: a transition
whose EXIT and ENTRY dispatches start no further transition. -/
def transitionOnce {σ : Type} (mem : Mem) (code : Code σ) :
    Nat → Sys σ → Option StateId → Except Fault (Sys σ)
  | 0, _, _ => .error .outOfFuel
  | fuel + 1, w, target =>
    match __lowestCommonSuperstate mem (fuel + 1) w.me.pState__ target with
    | .error f => .error f
    | .ok lowestCommonSuperstate =>
      match dispatchWalk mem code fuel w .exit lowestCommonSuperstate false with
      | .error f => .error f
      | .ok w1 =>
        dispatchWalk mem code fuel { w1 with me := { w1.me with pState__ := target } } .entry
          lowestCommonSuperstate true

/-- The machine is handling an event other than ENTRY and EXIT, so that `HTHSM_Transition`
records its target. -/
def GateOpen (me : HTHSM_Fsm) : Prop :=
  ∃ p, me.pLatestEvent = some p ∧
    p.deref.sig ≠ HTHSM_SIG_ENTRY ∧ p.deref.sig ≠ HTHSM_SIG_EXIT

/-- The calls of a `transitionOnce` to `target` started on machine `me`: calls with EXIT, which
find the machine `me` with EXIT as latest event, then calls with ENTRY, which find it with
`target` as active state and ENTRY as latest event. -/
def OnceCalls (me : HTHSM_Fsm) (target : Option StateId) (t : List Invocation) : Prop :=
  ∃ tx tn, t = tx ++ tn ∧
    (∀ i ∈ tx, i.e = .exit ∧ i.me = { me with pLatestEvent := some .exit }) ∧
    (∀ i ∈ tn, i.e = .entry ∧ i.me = { me with pState__ := target, pLatestEvent := some .entry })

/-- The machine a run returned with, and nothing for a run that faulted. -/
def machineOfRun {σ : Type} (r : Except Fault (Sys σ)) : Option HTHSM_Fsm :=
  match r with
  | .ok w' => some w'.me
  | .error _ => none

/-- The calls, of the generic handler and of state handlers, made with the event object
`ev`. -/
def callsWith (ev : EventPtr) (tr : List Invocation) : List Invocation :=
  tr.filter fun i => decide (i.e = ev)

/-- A top-level dispatch that runs at most one transition: `dispatchWalk`, then, when a target is
pending, one `transitionOnce` to it. -/
def dispatchOnce {σ : Type} (mem : Mem) (code : Code σ) :
    Nat → Sys σ → EventPtr → Option StateId → Bool → Except Fault (Sys σ)
  | 0, _, _, _, _ => .error .outOfFuel
  | fuel + 1, w, e, superstateToStopBefore, descending =>
    match dispatchWalk mem code (fuel + 1) w e superstateToStopBefore descending with
    | .error f => .error f
    | .ok w3 =>
      match w3.me.pTransitionTarget with
      | none => .ok w3
      | some t =>
        transitionOnce mem code fuel { w3 with me := { w3.me with pTransitionTarget := none } }
          (some t)

/-- `HTHSM_FsmInit` with its dispatches cut down: the INIT dispatch runs at most one transition,
the ENTRY dispatch none. -/
def fsmInitOnce {σ : Type} (mem : Mem) (code : Code σ) (fuel : Nat) (w : Sys σ) :
    Except Fault (Sys σ) :=
  match w.me.pState__ with
  | none => .error .nullDeref
  | some s =>
    match dispatchOnce mem code fuel w .init (mem s).superState false with
    | .error f => .error f
    | .ok w1 => dispatchWalk mem code fuel w1 .entry none true

/-- A call of the host on the machine: `HTHSM_FsmInit`, `HTHSM_Dispatch` or
`HTHSM_Transition`. -/
inductive HostCall where
  | init
  | dispatch (e : HTHSM_Event)
  | transition (target : Option StateId)
  deriving DecidableEq, Repr

/-- One call of the host. -/
def hostCall {σ : Type} (mem : Mem) (code : Code σ) (fuel : Nat) (w : Sys σ) :
    HostCall → Except Fault (Sys σ)
  | .init => HTHSM_FsmInit mem code fuel w
  | .dispatch e => HTHSM_Dispatch mem code fuel w e
  | .transition target => .ok { w with me := HTHSM_Transition w.me target }

/-- A sequence of calls of the host, in order. -/
def hostCalls {σ : Type} (mem : Mem) (code : Code σ) (fuel : Nat) :
    List HostCall → Sys σ → Except Fault (Sys σ)
  | [], w => .ok w
  | c :: cs, w =>
    match hostCall mem code fuel w c with
    | .error f => .error f
    | .ok w1 => hostCalls mem code fuel cs w1

/-- The test of `HTHSM_Transition`: an event is being handled and it is neither ENTRY nor
EXIT. -/
def gateIsOpen (me : HTHSM_Fsm) : Bool :=
  match me.pLatestEvent with
  | none => false
  | some p => decide (p.deref.sig ≠ HTHSM_SIG_ENTRY ∧ p.deref.sig ≠ HTHSM_SIG_EXIT)

/-- The targets of the honoured `HTHSM_Transition` calls that the host makes itself in a
sequence of calls started on `w`. -/
def hostHonoured {σ : Type} (mem : Mem) (code : Code σ) (fuel : Nat) :
    List HostCall → Sys σ → List (Option StateId)
  | [], _ => []
  | c :: cs, w =>
    (match c with
      | .transition target => if gateIsOpen w.me then [target] else []
      | _ => []) ++
    (match hostCall mem code fuel w c with
      | .error _ => []
      | .ok w1 => hostHonoured mem code fuel cs w1)

/-- Pointer `x` is the target of an honoured `HTHSM_Transition` call made by a handler in the
trace: the handler was called on a machine handling an event other than ENTRY and EXIT. -/
def HandlerHonoured (tr : List Invocation) (x : Option StateId) : Prop :=
  ∃ i ∈ tr, GateOpen i.me ∧ x ∈ i.requests

/-- Pointer `x` is the initial state `S` or the target of an honoured `HTHSM_Transition` call,
made by the host (`H`) or by a handler of the trace. -/
def Reached (S : StateId) (H : List (Option StateId)) (tr : List Invocation)
    (x : Option StateId) : Prop :=
  x = some S ∨ x ∈ H ∨ HandlerHonoured tr x

/-- The invariant of C19: the active state, the pending target if any, and the active state
found by every handler call of the trace are non-null and reached. -/
def ActiveOk {σ : Type} (S : StateId) (H : List (Option StateId)) (w : Sys σ) : Prop :=
  (∃ X, w.me.pState__ = some X ∧ Reached S H w.trace (some X)) ∧
  (w.me.pTransitionTarget = none ∨ Reached S H w.trace w.me.pTransitionTarget) ∧
  ∀ i ∈ w.trace, ∃ X, i.me.pState__ = some X ∧ Reached S H w.trace (some X)

/-- The handler tables `code` and `code2` differ at most in the return values of function
`gen`: all functions make the same `HTHSM_Transition` calls and leave the same application
state, and all functions but `gen` return the same codes. -/
def Agree {σ : Type} (gen : FnId) (code code2 : Code σ) : Prop :=
  ∀ fn me app e, (code2 fn me app e).requests = (code fn me app e).requests ∧
    (code2 fn me app e).app = (code fn me app e).app ∧
    (fn ≠ gen → (code2 fn me app e).ret = (code fn me app e).ret)

/-- Two worlds with the same machine, application state and buffer, and the same calls of state
handlers in their traces. -/
def SameRun {σ : Type} (w w2 : Sys σ) : Prop :=
  w2.me = w.me ∧ w2.app = w.app ∧ w2.stateList = w.stateList ∧
    stateHandlerCalls w2.trace = stateHandlerCalls w.trace

/-- Two runs that fault alike or return worlds that are the same in the sense of `SameRun`. -/
def SameResult {σ : Type} : Except Fault (Sys σ) → Except Fault (Sys σ) → Prop
  | .ok w, .ok w2 => SameRun w w2
  | .error f, .error f2 => f = f2
  | _, _ => False

/-- Two runs of the first loop of `__Dispatch` that fault alike or return the same index and
worlds that are the same in the sense of `SameRun`. -/
def SameLoop {σ : Type} : Except Fault (Nat × Sys σ) → Except Fault (Nat × Sys σ) → Prop
  | .ok r, .ok r2 => r2.1 = r.1 ∧ SameRun r.2 r2.2
  | .error f, .error f2 => f = f2
  | _, _ => False

/-- The calls of one dispatch of `ev` when a generic handler is configured: first one call of
the generic handler, then calls of state handlers only, all with `ev`. -/
def Block (ev : EventPtr) (b : List Invocation) : Prop :=
  ∃ g l, b = g :: l ∧ g.callee = .generic ∧ g.e = ev ∧
    ∀ i ∈ l, i.callee ≠ .generic ∧ i.e = ev

/-- The calls of at most one transition when a generic handler is configured: nothing, or the
calls of the EXIT dispatch followed by the calls of the ENTRY dispatch. -/
def TransitionBlocks (t : List Invocation) : Prop :=
  t = [] ∨ ∃ bx bn, t = bx ++ bn ∧ Block .exit bx ∧ Block .entry bn

/-! ## Superstate chains -/

@[simp] theorem superN_none (mem : Mem) (n : Nat) : superN mem n none = none := by
  cases n <;> rfl

theorem superN_add (mem : Mem) (a : Nat) : ∀ (b : Nat) (p : Option StateId),
    superN mem (a + b) p = superN mem a (superN mem b p)
  | 0, p => rfl
  | b + 1, none => by simp
  | b + 1, some s => by
    have h := superN_add mem a b (mem s).superState
    simpa [superN, ← Nat.add_assoc] using h

theorem superN_mono (mem : Mem) {n m : Nat} {p : Option StateId} (h : superN mem n p = none)
    (hnm : n ≤ m) : superN mem m p = none := by
  obtain ⟨d, rfl⟩ := Nat.exists_eq_add_of_le hnm
  rw [Nat.add_comm, superN_add, h, superN_none]

/-- A state that is its own strict superstate has an endless chain. -/
theorem superN_cycle_ne_none (mem : Mem) {s : StateId} {k : Nat}
    (hc : superN mem (k + 1) (some s) = some s) : ∀ m, superN mem m (some s) ≠ none := by
  intro m
  induction m using Nat.strong_induction_on with
  | _ m ih =>
    by_cases hm : m < k + 1
    · intro h0
      have := superN_mono mem h0 (Nat.le_of_lt hm)
      rw [hc] at this
      exact Option.noConfusion this
    · have hle : k + 1 ≤ m := Nat.le_of_not_lt hm
      obtain ⟨d, rfl⟩ := Nat.exists_eq_add_of_le hle
      rw [Nat.add_comm, superN_add, hc]
      exact ih d (by omega)

/-- On a chain that ends, being a superstate is antisymmetric. -/
theorem IsSuperOf_antisymm (mem : Mem) {s t : StateId} {n : Nat}
    (hn : superN mem n (some s) = none)
    (hst : IsSuperOf mem t (some s)) (hts : IsSuperOf mem s (some t)) : s = t := by
  obtain ⟨k, hk⟩ := hst
  obtain ⟨j, hj⟩ := hts
  cases k with
  | zero => simpa [superN] using hk
  | succ k =>
    have hc : superN mem (j + k + 1) (some s) = some s := by
      rw [Nat.add_assoc, superN_add, hk, hj]
    exact absurd hn (superN_cycle_ne_none mem hc n)

theorem IsSuperOf_none (mem : Mem) (t : StateId) : ¬ IsSuperOf mem t none := by
  rintro ⟨k, hk⟩
  simp at hk

theorem IsSuperOf_trans (mem : Mem) {s t : StateId} {p : Option StateId}
    (h1 : IsSuperOf mem t (some s)) (h2 : IsSuperOf mem s p) : IsSuperOf mem t p := by
  obtain ⟨k, hk⟩ := h1
  obtain ⟨j, hj⟩ := h2
  exact ⟨k + j, by rw [superN_add, hj, hk]⟩

/-! ## The lowest common superstate -/

theorem lcsInner_spec (mem : Mem) (p1 : StateId) : ∀ (n : Nat) (p2 : Option StateId),
    superN mem n p2 = none →
    ∃ b, lcsInner mem p1 n p2 = .ok b ∧ (b = true ↔ IsSuperOf mem p1 p2)
  | n, none, _ => ⟨false, by cases n <;> rfl, by simp [IsSuperOf_none]⟩
  | 0, some s, h => by simp [superN] at h
  | n + 1, some s, h => by
    by_cases hp : p1 = s
    · exact ⟨true, by simp [lcsInner, hp], by simpa using ⟨0, by simp [superN, hp]⟩⟩
    · obtain ⟨b, hb, hiff⟩ := lcsInner_spec mem p1 n (mem s).superState (by simpa [superN] using h)
      refine ⟨b, by simp [lcsInner, hp, hb], hiff.trans ?_⟩
      constructor
      · rintro ⟨k, hk⟩
        exact ⟨k + 1, by simpa [superN] using hk⟩
      · rintro ⟨k, hk⟩
        cases k with
        | zero => exact absurd (by simpa [superN] using hk.symm) hp
        | succ k => exact ⟨k, by simpa [superN] using hk⟩

theorem lcsOuter_spec (mem : Mem) (m : Nat) (b : Option StateId) (hb : superN mem m b = none) :
    ∀ (n : Nat) (p1 : Option StateId), superN mem n p1 = none →
    ∃ r, lcsOuter mem m b n p1 = .ok r ∧ LcsAnswer mem p1 b r
  | n, none, _ =>
    ⟨none, by cases n <;> rfl, Or.inl ⟨rfl, fun t ht => absurd ht (IsSuperOf_none mem t)⟩⟩
  | 0, some s, h => by simp [superN] at h
  | n + 1, some s, h => by
    obtain ⟨found, hf, hiff⟩ := lcsInner_spec mem s m b hb
    cases found with
    | true =>
      refine ⟨some s, by simp [lcsOuter, hf], Or.inr ⟨s, 0, rfl, rfl, hiff.mp rfl, ?_⟩⟩
      intro j hj
      exact absurd hj (Nat.not_lt_zero j)
    | false =>
      have hs : ¬ IsSuperOf mem s b := fun hc => by simpa using hiff.mpr hc
      obtain ⟨r, hr, hans⟩ := lcsOuter_spec mem m b hb n (mem s).superState
        (by simpa [superN] using h)
      refine ⟨r, by simp [lcsOuter, hf, hr], ?_⟩
      rcases hans with ⟨rfl, hnone⟩ | ⟨t, k, rfl, hk, htb, hmin⟩
      · refine Or.inl ⟨rfl, ?_⟩
        rintro t ⟨k, hk⟩
        cases k with
        | zero =>
          have : s = t := by simpa [superN] using hk
          exact this ▸ hs
        | succ k => exact hnone t ⟨k, by simpa [superN] using hk⟩
      · refine Or.inr ⟨t, k + 1, rfl, by simpa [superN] using hk, htb, ?_⟩
        intro j hj u hu
        cases j with
        | zero =>
          have : s = u := by simpa [superN] using hu
          exact this ▸ hs
        | succ j => exact hmin j (by omega) u (by simpa [superN] using hu)

theorem lcs_spec (mem : Mem) (fuel : Nat) (a b : Option StateId)
    (ha : superN mem fuel a = none) (hb : superN mem fuel b = none) :
    ∃ r, __lowestCommonSuperstate mem fuel a b = .ok r ∧ LcsAnswer mem a b r :=
  lcsOuter_spec mem fuel b hb fuel a ha

/-- Every state on both chains lies at or above the state the resolver answers. -/
theorem LcsAnswer_least (mem : Mem) {a b : Option StateId} {s u : StateId}
    (h : LcsAnswer mem a b (some s)) (hua : IsSuperOf mem u a) (hub : IsSuperOf mem u b) :
    IsSuperOf mem u (some s) := by
  rcases h with ⟨h, _⟩ | ⟨s1, k, hs, hk, _, hmin⟩
  · exact Option.noConfusion h
  · obtain rfl : s = s1 := by simpa using hs
    obtain ⟨j, hj⟩ := hua
    by_cases hjk : j < k
    · exact absurd hub (hmin j hjk u hj)
    · obtain ⟨d, rfl⟩ := Nat.exists_eq_add_of_le (Nat.le_of_not_lt hjk)
      exact ⟨d, by rw [← hk, ← superN_add, Nat.add_comm]; exact hj⟩

theorem LcsAnswer_common (mem : Mem) {a b : Option StateId} {s : StateId}
    (h : LcsAnswer mem a b (some s)) : IsSuperOf mem s a ∧ IsSuperOf mem s b := by
  rcases h with ⟨h, _⟩ | ⟨s1, k, hs, hk, hb, _⟩
  · exact Option.noConfusion h
  · obtain rfl : s = s1 := by simpa using hs
    exact ⟨⟨k, hk⟩, hb⟩

theorem LcsAnswer_none (mem : Mem) {a b : Option StateId} (h : LcsAnswer mem a b none) :
    ∀ t, IsSuperOf mem t a → ¬ IsSuperOf mem t b := by
  rcases h with ⟨_, h⟩ | ⟨s1, k, hs, _⟩
  · exact h
  · exact Option.noConfusion hs

theorem IsSuperOf_chain_ends (mem : Mem) {n : Nat} {a : Option StateId} {s : StateId}
    (ha : superN mem n a = none) (hs : IsSuperOf mem s a) : superN mem n (some s) = none := by
  obtain ⟨k, hk⟩ := hs
  have := superN_mono mem ha (Nat.le_add_right n k)
  rwa [superN_add, hk] at this

/-- The answer of the resolver does not depend on the order of its arguments. -/
theorem LcsAnswer_symm (mem : Mem) {n : Nat} {a b r1 r2 : Option StateId}
    (ha : superN mem n a = none)
    (h1 : LcsAnswer mem a b r1) (h2 : LcsAnswer mem b a r2) : r1 = r2 := by
  cases r1 with
  | none =>
    cases r2 with
    | none => rfl
    | some t =>
      obtain ⟨htb, hta⟩ := LcsAnswer_common mem h2
      exact absurd htb (LcsAnswer_none mem h1 t hta)
  | some s =>
    obtain ⟨hsa, hsb⟩ := LcsAnswer_common mem h1
    cases r2 with
    | none => exact absurd hsa (LcsAnswer_none mem h2 s hsb)
    | some t =>
      obtain ⟨htb, hta⟩ := LcsAnswer_common mem h2
      have hts : IsSuperOf mem t (some s) := LcsAnswer_least mem h1 hta htb
      have hst : IsSuperOf mem s (some t) := LcsAnswer_least mem h2 hsb hsa
      rw [IsSuperOf_antisymm mem (IsSuperOf_chain_ends mem ha hsa) hts hst]

/-! ### Claims on `__lowestCommonSuperstate` -/

/-- C1: on chains that end, `__lowestCommonSuperstate(a, b)` returns, and when it returns a
state `s`, then `s` is an inclusive ancestor of `a` and of `b`, and no inclusive ancestor of `a`
strictly closer to `a` than `s` is an inclusive ancestor of `b`. -/
theorem lowestCommonSuperstate_closest (mem : Mem) (fuel : Nat) (a b : StateId)
    (ha : superN mem fuel (some a) = none) (hb : superN mem fuel (some b) = none) :
    ∃ r, __lowestCommonSuperstate mem fuel (some a) (some b) = .ok r ∧
      ∀ s, r = some s →
        ∃ k, superN mem k (some a) = some s ∧ IsSuperOf mem s (some b) ∧
          ∀ j, j < k → ∀ t, superN mem j (some a) = some t → ¬ IsSuperOf mem t (some b) := by
  obtain ⟨r, hr, hans⟩ := lcs_spec mem fuel (some a) (some b) ha hb
  refine ⟨r, hr, ?_⟩
  rintro s rfl
  rcases hans with ⟨h, _⟩ | ⟨s1, k, hs, hk, hsb, hmin⟩
  · exact Option.noConfusion h
  · obtain rfl : s = s1 := by simpa using hs
    exact ⟨k, hk, hsb, hmin⟩

theorem lowestCommonSuperstate_closest_witness :
    ∃ r, __lowestCommonSuperstate testMem 3 (some stateD) (some stateB) = .ok r ∧
      ∀ s, r = some s →
        ∃ k, superN testMem k (some stateD) = some s ∧ IsSuperOf testMem s (some stateB) ∧
          ∀ j, j < k → ∀ t, superN testMem j (some stateD) = some t →
            ¬ IsSuperOf testMem t (some stateB) :=
  lowestCommonSuperstate_closest testMem 3 stateD stateB rfl rfl

/-- C2: on chains that end, `__lowestCommonSuperstate(a, b)` and
`__lowestCommonSuperstate(b, a)` return the same pointer (a state, or `NULL` for both); the
arguments may be `NULL`. -/
theorem lowestCommonSuperstate_symmetric (mem : Mem) (fuel : Nat) (a b : Option StateId)
    (ha : superN mem fuel a = none) (hb : superN mem fuel b = none) :
    ∃ r, __lowestCommonSuperstate mem fuel a b = .ok r ∧
      __lowestCommonSuperstate mem fuel b a = .ok r := by
  obtain ⟨r1, hr1, h1⟩ := lcs_spec mem fuel a b ha hb
  obtain ⟨r2, hr2, h2⟩ := lcs_spec mem fuel b a hb ha
  refine ⟨r1, hr1, ?_⟩
  rw [hr2, LcsAnswer_symm mem ha h1 h2]

theorem lowestCommonSuperstate_symmetric_witness :
    ∃ r, __lowestCommonSuperstate testMem 3 (some stateD) (some stateB) = .ok r ∧
      __lowestCommonSuperstate testMem 3 (some stateB) (some stateD) = .ok r :=
  lowestCommonSuperstate_symmetric testMem 3 (some stateD) (some stateB) rfl rfl

/-- C3: on chains that end, `__lowestCommonSuperstate(a, b)` returns, and it returns `NULL` if
and only if no inclusive ancestor of `a` is an inclusive ancestor of `b`. -/
theorem lowestCommonSuperstate_none_iff_disjoint (mem : Mem) (fuel : Nat) (a b : StateId)
    (ha : superN mem fuel (some a) = none) (hb : superN mem fuel (some b) = none) :
    ∃ r, __lowestCommonSuperstate mem fuel (some a) (some b) = .ok r ∧
      (r = none ↔ ∀ t, IsSuperOf mem t (some a) → ¬ IsSuperOf mem t (some b)) := by
  obtain ⟨r, hr, hans⟩ := lcs_spec mem fuel (some a) (some b) ha hb
  refine ⟨r, hr, ?_⟩
  cases r with
  | none => exact ⟨fun _ => LcsAnswer_none mem hans, fun _ => rfl⟩
  | some s =>
    obtain ⟨hsa, hsb⟩ := LcsAnswer_common mem hans
    exact ⟨fun h => Option.noConfusion h, fun h => absurd hsb (h s hsa)⟩

theorem lowestCommonSuperstate_none_iff_disjoint_witness :
    ∃ r, __lowestCommonSuperstate testMem 3 (some stateD) (some stateE) = .ok r ∧
      (r = none ↔
        ∀ t, IsSuperOf testMem t (some stateD) → ¬ IsSuperOf testMem t (some stateE)) :=
  lowestCommonSuperstate_none_iff_disjoint testMem 3 stateD stateE rfl rfl

/-- C4: for every state `s`, `__lowestCommonSuperstate(s, s)` returns `s` itself, in any graph
and as soon as the loops may run once. -/
theorem lowestCommonSuperstate_reflexive (mem : Mem) (fuel : Nat) (s : StateId) :
    __lowestCommonSuperstate mem (fuel + 1) (some s) (some s) = .ok (some s) := by
  simp [__lowestCommonSuperstate, lcsOuter, lcsInner]

/-! ## Handler calls -/

theorem SameFrame_refl (a : HTHSM_Fsm) : SameFrame a a := ⟨rfl, rfl, rfl⟩

theorem SameFrame_trans {a b c : HTHSM_Fsm} (h1 : SameFrame a b) (h2 : SameFrame b c) :
    SameFrame a c :=
  ⟨h2.1.trans h1.1, h2.2.1.trans h1.2.1, h2.2.2.trans h1.2.2⟩

theorem HTHSM_Transition_frame (me : HTHSM_Fsm) (t : Option StateId) :
    SameFrame me (HTHSM_Transition me t) := by
  unfold HTHSM_Transition
  split
  · exact SameFrame_refl me
  · split
    · exact ⟨rfl, rfl, rfl⟩
    · exact SameFrame_refl me

theorem HTHSM_Transition_gated {me : HTHSM_Fsm} (h : Gated me) (t : Option StateId) :
    HTHSM_Transition me t = me := by
  obtain ⟨p, hp, hsig⟩ := h
  unfold HTHSM_Transition
  rw [hp]
  simp only
  rw [if_neg]
  intro hc
  rcases hsig with h | h
  · exact hc.1 h
  · exact hc.2 h

theorem foldl_Transition_frame (reqs : List (Option StateId)) :
    ∀ me : HTHSM_Fsm, SameFrame me (reqs.foldl HTHSM_Transition me) := by
  induction reqs with
  | nil => exact fun me => SameFrame_refl me
  | cons t reqs ih =>
    exact fun me => SameFrame_trans (HTHSM_Transition_frame me t) (ih (HTHSM_Transition me t))

theorem foldl_Transition_gated (reqs : List (Option StateId)) {me : HTHSM_Fsm} (h : Gated me) :
    reqs.foldl HTHSM_Transition me = me := by
  induction reqs with
  | nil => rfl
  | cons t reqs ih => rw [List.foldl_cons, HTHSM_Transition_gated h, ih]

section
variable {σ : Type} (code : Code σ) (callee : Callee) (fn : FnId) (e : EventPtr) (w : Sys σ)

theorem callHandler_trace :
    (callHandler code callee fn e w).2.trace =
      w.trace ++ [{ callee := callee, e := e, me := w.me,
                    ret := (callHandler code callee fn e w).1,
                    requests := (code fn w.me w.app e.deref).requests }] := rfl

theorem callHandler_frame : SameFrame w.me (callHandler code callee fn e w).2.me :=
  foldl_Transition_frame _ w.me

theorem callHandler_gated (h : Gated w.me) : (callHandler code callee fn e w).2.me = w.me :=
  foldl_Transition_gated _ h

theorem callHandler_stateList : (callHandler code callee fn e w).2.stateList = w.stateList := rfl

end

theorem Gated_of_frame {a b : HTHSM_Fsm} (h : SameFrame a b) (ha : Gated a) : Gated b := by
  obtain ⟨p, hp, hsig⟩ := ha
  exact ⟨p, h.2.1.trans hp, hsig⟩

/-! ## The ascending walk -/

theorem dispatchLoop_ascending {σ : Type} (mem : Mem) (code : Code σ) (e : EventPtr)
    (stop : Option StateId) :
    ∀ (n : Nat) (p : Option StateId) (idx : Nat) (w : Sys σ), superN mem n p = none →
    ∃ w' l, dispatchLoop mem code e stop false n p idx w = .ok (idx, w') ∧
      w'.trace = w.trace ++ l ∧ Walk mem stop p l ∧
      (∀ i ∈ l, i.e = e ∧ SameFrame w.me i.me) ∧ SameFrame w.me w'.me ∧
      w'.stateList = w.stateList ∧ (Gated w.me → w'.me = w.me ∧ ∀ i ∈ l, i.me = w.me)
  | n, none, idx, w, _ =>
    ⟨w, [], by cases n <;> rfl, by simp, Walk.null, by simp, SameFrame_refl _, rfl,
      fun _ => ⟨rfl, by simp⟩⟩
  | 0, some s, idx, w, h => by simp [superN] at h
  | n + 1, some s, idx, w, h => by
    by_cases hs : some s = stop
    · exact ⟨w, [], by simp [dispatchLoop, hs], by simp, Walk.stop s hs, by simp,
        SameFrame_refl _, rfl, fun _ => ⟨rfl, by simp⟩⟩
    · have hsup : superN mem n (mem s).superState = none := by simpa [superN] using h
      have hcall := callHandler_trace code (.state s) (mem s).handlerFn e w
      have hfr := callHandler_frame code (.state s) (mem s).handlerFn e w
      have hgt := callHandler_gated code (.state s) (mem s).handlerFn e w
      have hsl := callHandler_stateList code (.state s) (mem s).handlerFn e w
      rcases hc : callHandler code (.state s) (mem s).handlerFn e w with ⟨ret, w1⟩
      rw [hc] at hcall hfr hgt hsl
      simp only at hcall hfr hgt hsl
      -- the walk from the next pointer `q`
      have step : ∀ q : Option StateId, superN mem n q = none →
          ∀ (mk : ∀ l, Walk mem stop q l →
            Walk mem stop (some s)
              ({ callee := .state s, e := e, me := w.me, ret := ret,
                 requests := (code (mem s).handlerFn w.me w.app e.deref).requests } :: l)),
          ∃ w' l, dispatchLoop mem code e stop false n q idx w1 = .ok (idx, w') ∧
            w'.trace = w.trace ++ l ∧ Walk mem stop (some s) l ∧
            (∀ i ∈ l, i.e = e ∧ SameFrame w.me i.me) ∧ SameFrame w.me w'.me ∧
            w'.stateList = w.stateList ∧ (Gated w.me → w'.me = w.me ∧ ∀ i ∈ l, i.me = w.me) := by
        intro q hq mk
        obtain ⟨w', l, hrun, htr, hwalk, hev, hfr', hsl', hg'⟩ :=
          dispatchLoop_ascending mem code e stop n q idx w1 hq
        refine ⟨w', _ :: l, hrun, by rw [htr, hcall]; simp, mk l hwalk, ?_, SameFrame_trans hfr hfr',
          hsl'.trans hsl, ?_⟩
        · intro i hi
          rcases List.mem_cons.mp hi with rfl | hi
          · exact ⟨rfl, SameFrame_refl _⟩
          · exact ⟨(hev i hi).1, SameFrame_trans hfr (hev i hi).2⟩
        · intro hg
          have h1 := hgt hg
          obtain ⟨h2, h3⟩ := hg' (h1 ▸ hg)
          refine ⟨h2.trans h1, ?_⟩
          intro i hi
          rcases List.mem_cons.mp hi with rfl | hi
          · rfl
          · exact (h3 i hi).trans h1
      cases ret with
      | HTHSM_CONTINUE =>
        obtain ⟨w', l, hrun, rest⟩ := step (mem s).superState hsup
          (fun l hl => Walk.next s _ l hs rfl rfl hl)
        exact ⟨w', l, by simp [dispatchLoop, hs, hc, hrun], rest⟩
      | HTHSM_SUPPRESS_SUPERSTATES =>
        refine ⟨w1, [_], by simp [dispatchLoop, hs, hc], hcall, Walk.last s _ hs rfl rfl, ?_, hfr,
          hsl, ?_⟩
        · intro i hi
          obtain rfl := List.mem_singleton.mp hi
          exact ⟨rfl, SameFrame_refl _⟩
        · intro hg
          refine ⟨hgt hg, ?_⟩
          intro i hi
          obtain rfl := List.mem_singleton.mp hi
          rfl
      | HTHSM_SUPPRESS_IMMEDIATE_SUPERSTATE =>
        have h2 : superN mem n (superN mem 2 (some s)) = none := by
          rw [← superN_add]
          exact superN_mono mem h (by omega)
        obtain ⟨w', l, hrun, rest⟩ := step (superN mem 2 (some s)) h2
          (fun l hl => Walk.skip s _ l hs rfl rfl hl)
        refine ⟨w', l, ?_, rest⟩
        cases hp : (mem s).superState with
        | none => simpa [dispatchLoop, hs, hc, hp, superN] using hrun
        | some q => simpa [dispatchLoop, hs, hc, hp, superN] using hrun

/-! ## Chains as lists -/

theorem ancestors_none (mem : Mem) (n : Nat) : ancestors mem n none = [] := by
  cases n <;> rfl

theorem ancestors_stable (mem : Mem) : ∀ (n m : Nat) (p : Option StateId),
    superN mem n p = none → n ≤ m → ancestors mem m p = ancestors mem n p
  | n, m, none, _, _ => by rw [ancestors_none, ancestors_none]
  | 0, m, some s, h, _ => by simp [superN] at h
  | n + 1, 0, some s, _, hle => absurd hle (by omega)
  | n + 1, m + 1, some s, h, hle => by
    simp only [ancestors]
    rw [ancestors_stable mem n m (mem s).superState (by simpa [superN] using h) (by omega)]

theorem chainBelow_none (mem : Mem) (stop : Option StateId) (n : Nat) :
    chainBelow mem stop n none = [] := by
  simp [chainBelow, ancestors_none]

theorem chainBelow_stop (mem : Mem) {stop : Option StateId} (n : Nat) {s : StateId}
    (h : some s = stop) : chainBelow mem stop n (some s) = [] := by
  cases n <;> simp [chainBelow, ancestors, h]

theorem chainBelow_cons (mem : Mem) {stop : Option StateId} (n : Nat) {s : StateId}
    (h : some s ≠ stop) :
    chainBelow mem stop (n + 1) (some s) = s :: chainBelow mem stop n (mem s).superState := by
  simp [chainBelow, ancestors, h]

theorem chainBelow_stable (mem : Mem) (stop : Option StateId) {n m : Nat} {p : Option StateId}
    (h : superN mem n p = none) (hle : n ≤ m) :
    chainBelow mem stop m p = chainBelow mem stop n p := by
  simp only [chainBelow, ancestors_stable mem n m p h hle]

theorem length_ancestors_le (mem : Mem) : ∀ (n : Nat) (p : Option StateId),
    (ancestors mem n p).length ≤ n
  | 0, _ => by simp [ancestors]
  | n + 1, none => by simp [ancestors]
  | n + 1, some s => by
    simpa [ancestors] using length_ancestors_le mem n (mem s).superState

theorem length_chainBelow_le (mem : Mem) (stop : Option StateId) (n : Nat)
    (p : Option StateId) : (chainBelow mem stop n p).length ≤ n :=
  (List.takeWhile_sublist _).length_le.trans (length_ancestors_le mem n p)

/-! ## The descending mode -/

theorem dispatchLoop_descending {σ : Type} (mem : Mem) (code : Code σ) (e : EventPtr)
    (stop : Option StateId) :
    ∀ (n : Nat) (p : Option StateId) (idx : Nat) (w : Sys σ), superN mem n p = none →
    idx + (chainBelow mem stop n p).length ≤ HTHSM_MAX_HIERARCHY_DEPTH →
    ∃ w', dispatchLoop mem code e stop true n p idx w =
        .ok (idx + (chainBelow mem stop n p).length, w') ∧
      w'.me = w.me ∧ w'.app = w.app ∧ w'.trace = w.trace ∧
      (∀ j, j < idx → w'.stateList j = w.stateList j) ∧
      ∀ j, j < (chainBelow mem stop n p).length →
        w'.stateList (idx + j) = (chainBelow mem stop n p)[j]?
  | n, none, idx, w, _, _ =>
    ⟨w, by cases n <;> simp [dispatchLoop, chainBelow_none], rfl, rfl, rfl, fun _ _ => rfl,
      by simp [chainBelow_none]⟩
  | 0, some s, idx, w, h, _ => by simp [superN] at h
  | n + 1, some s, idx, w, h, hlen => by
    by_cases hs : some s = stop
    · rw [chainBelow_stop mem (n + 1) hs]
      exact ⟨w, by simp [dispatchLoop, hs], rfl, rfl, rfl, fun _ _ => rfl, by simp⟩
    · rw [chainBelow_cons mem n hs] at hlen ⊢
      simp only [List.length_cons] at hlen ⊢
      have hidx : idx < HTHSM_MAX_HIERARCHY_DEPTH := by omega
      obtain ⟨w', hrun, hme, happ, htr, hlow, hhigh⟩ :=
        dispatchLoop_descending mem code e stop n (mem s).superState (idx + 1)
          { w with stateList := Function.update w.stateList idx (some s) }
          (by simpa [superN] using h) (by omega)
      refine ⟨w', ?_, hme, happ, htr, ?_, ?_⟩
      · simp only [dispatchLoop, hs, if_false, hidx, if_true, hrun]
        simp [Nat.add_assoc, Nat.add_comm 1]
      · intro j hj
        rw [hlow j (by omega)]
        simp [Function.update, Nat.ne_of_lt hj]
      · intro j hj
        cases j with
        | zero =>
          rw [Nat.add_zero, hlow idx (by omega)]
          simp [Function.update]
        | succ j =>
          have := hhigh j (by omega)
          rw [← Nat.add_assoc, Nat.add_right_comm]
          simpa using this

theorem descendLoop_spec {σ : Type} (mem : Mem) (code : Code σ) (e : EventPtr)
    (ch : List StateId) :
    ∀ (k : Nat) (w : Sys σ), k ≤ ch.length → k ≤ HTHSM_MAX_HIERARCHY_DEPTH →
    (∀ j, j < k → ch[j]? = w.stateList j) →
    ∃ w' l, descendLoop mem code e k w = .ok w' ∧ w'.trace = w.trace ++ l ∧
      l.map (fun i => i.callee) = (ch.take k).reverse.map Callee.state ∧
      (∀ i ∈ l, i.e = e ∧ SameFrame w.me i.me) ∧ SameFrame w.me w'.me ∧
      w'.stateList = w.stateList ∧ (Gated w.me → w'.me = w.me ∧ ∀ i ∈ l, i.me = w.me)
  | 0, w, _, _, _ =>
    ⟨w, [], rfl, by simp, by simp, by simp, SameFrame_refl _, rfl, fun _ => ⟨rfl, by simp⟩⟩
  | k + 1, w, hk, hmax, hbuf => by
    have hkl : k < ch.length := by omega
    have hcell : w.stateList k = some ch[k] := by
      rw [← hbuf k (by omega)]
      exact List.getElem?_eq_getElem hkl
    have hcall := callHandler_trace code (.state ch[k]) (mem ch[k]).handlerFn e w
    have hfr := callHandler_frame code (.state ch[k]) (mem ch[k]).handlerFn e w
    have hgt := callHandler_gated code (.state ch[k]) (mem ch[k]).handlerFn e w
    have hsl := callHandler_stateList code (.state ch[k]) (mem ch[k]).handlerFn e w
    obtain ⟨w', l, hrun, htr, hmap, hev, hfr', hsl', hg'⟩ :=
      descendLoop_spec mem code e ch k (callHandler code (.state ch[k]) (mem ch[k]).handlerFn e w).2
        (by omega) (by omega) (by
          intro j hj
          rw [hsl]
          exact hbuf j (by omega))
    refine ⟨w', { callee := .state ch[k], e := e, me := w.me,
                  ret := (callHandler code (.state ch[k]) (mem ch[k]).handlerFn e w).1,
                  requests := (code (mem ch[k]).handlerFn w.me w.app e.deref).requests } :: l,
      ?_, by rw [htr, hcall]; simp, ?_, ?_, SameFrame_trans hfr hfr', hsl'.trans hsl, ?_⟩
    · have hlt : k < HTHSM_MAX_HIERARCHY_DEPTH := by omega
      simp only [descendLoop, hlt, if_true, hcell, hrun]
    · have ht : ch.take (k + 1) = ch.take k ++ [ch[k]] := by
        rw [List.take_succ, List.getElem?_eq_getElem hkl]
        rfl
      rw [List.map_cons, hmap, ht, List.reverse_append]
      rfl
    · intro i hi
      rcases List.mem_cons.mp hi with rfl | hi
      · exact ⟨rfl, SameFrame_refl _⟩
      · exact ⟨(hev i hi).1, SameFrame_trans hfr (hev i hi).2⟩
    · intro hg
      have h1 := hgt hg
      obtain ⟨h2, h3⟩ := hg' (h1 ▸ hg)
      refine ⟨h2.trans h1, ?_⟩
      intro i hi
      rcases List.mem_cons.mp hi with rfl | hi
      · rfl
      · exact (h3 i hi).trans h1

/-! ## The generic handler -/

theorem callGeneric_spec {σ : Type} (code : Code σ) (e : EventPtr) (w : Sys σ) :
    ∃ g, (callGeneric code e w).trace = w.trace ++ g ∧ GenericCalls e w.me g ∧
      SameFrame w.me (callGeneric code e w).me ∧
      (callGeneric code e w).stateList = w.stateList ∧
      (Gated w.me → (callGeneric code e w).me = w.me) := by
  unfold callGeneric GenericCalls
  cases h : w.me.fnGenericEvtHandler with
  | none => exact ⟨[], by simp, rfl, SameFrame_refl _, rfl, fun _ => rfl⟩
  | some fn =>
    exact ⟨_, callHandler_trace code .generic fn e w, ⟨_, _, rfl⟩,
      callHandler_frame code .generic fn e w, rfl, callHandler_gated code .generic fn e w⟩

theorem GenericCalls_mem {e : EventPtr} {me : HTHSM_Fsm} {g : List Invocation}
    (h : GenericCalls e me g) : ∀ i ∈ g, i.callee = .generic ∧ i.e = e ∧ i.me = me := by
  unfold GenericCalls at h
  split at h
  · subst h
    simp
  · obtain ⟨r, q, rfl⟩ := h
    simp

/-! ## Dispatches of ENTRY and EXIT -/

/-- An ascending `__Dispatch` of ENTRY or EXIT with no transition pending: the generic handler
is called, then the walk runs; no transition follows and only `pLatestEvent` changes. -/
theorem Dispatch_gated_ascending {σ : Type} (mem : Mem) (code : Code σ) (fuel : Nat)
    (w : Sys σ) (e : EventPtr) (stop : Option StateId)
    (hsig : e.deref.sig = HTHSM_SIG_ENTRY ∨ e.deref.sig = HTHSM_SIG_EXIT)
    (hpend : w.me.pTransitionTarget = none)
    (hp : superN mem (fuel + 1) w.me.pState__ = none) :
    ∃ w' g l, __Dispatch mem code (fuel + 1) w e stop false = .ok w' ∧
      w'.trace = w.trace ++ (g ++ l) ∧
      GenericCalls e { w.me with pLatestEvent := some e } g ∧
      Walk mem stop w.me.pState__ l ∧
      (∀ i ∈ l, i.e = e ∧ i.me = { w.me with pLatestEvent := some e }) ∧
      w'.me = { w.me with pLatestEvent := some e } := by
  have hg0 : Gated ({ w.me with pLatestEvent := some e } : HTHSM_Fsm) := ⟨e, rfl, hsig⟩
  obtain ⟨g, hgtr, hgc, hgfr, -, hgme⟩ :=
    callGeneric_spec code e { w with me := { w.me with pLatestEvent := some e } }
  have hme1 := hgme hg0
  obtain ⟨w2, l, hrun, htr, hwalk, hev, -, -, hgt⟩ :=
    dispatchLoop_ascending mem code e stop (fuel + 1)
      (callGeneric code e { w with me := { w.me with pLatestEvent := some e } }).me.pState__ 0
      (callGeneric code e { w with me := { w.me with pLatestEvent := some e } })
      (by rw [hme1]; exact hp)
  obtain ⟨hme2, hime⟩ := hgt (by rw [hme1]; exact hg0)
  rw [hme1] at hme2 hime hwalk
  refine ⟨w2, g, l, ?_, by rw [htr, hgtr, List.append_assoc], hgc, hwalk,
    fun i hi => ⟨(hev i hi).1, hime i hi⟩, hme2⟩
  have hp2 : w2.me.pTransitionTarget = none := by rw [hme2]; exact hpend
  simp only [__Dispatch, hrun, Bool.false_eq_true, if_false, hp2]

/-- A descending `__Dispatch` of ENTRY or EXIT with no transition pending, from a chain that
fits the buffer: the generic handler is called, then the handlers of the states below the stop
state, outermost first; no transition follows and only `pLatestEvent` changes. -/
theorem Dispatch_gated_descending {σ : Type} (mem : Mem) (code : Code σ) (fuel : Nat)
    (w : Sys σ) (e : EventPtr) (stop : Option StateId)
    (hsig : e.deref.sig = HTHSM_SIG_ENTRY ∨ e.deref.sig = HTHSM_SIG_EXIT)
    (hpend : w.me.pTransitionTarget = none)
    (hp : superN mem (fuel + 1) w.me.pState__ = none)
    (hlen : (chainBelow mem stop (fuel + 1) w.me.pState__).length ≤ HTHSM_MAX_HIERARCHY_DEPTH) :
    ∃ w' g l, __Dispatch mem code (fuel + 1) w e stop true = .ok w' ∧
      w'.trace = w.trace ++ (g ++ l) ∧
      GenericCalls e { w.me with pLatestEvent := some e } g ∧
      l.map (fun i => i.callee) =
        (chainBelow mem stop (fuel + 1) w.me.pState__).reverse.map Callee.state ∧
      (∀ i ∈ l, i.e = e ∧ i.me = { w.me with pLatestEvent := some e }) ∧
      w'.me = { w.me with pLatestEvent := some e } := by
  have hg0 : Gated ({ w.me with pLatestEvent := some e } : HTHSM_Fsm) := ⟨e, rfl, hsig⟩
  obtain ⟨g, hgtr, hgc, hgfr, -, hgme⟩ :=
    callGeneric_spec code e { w with me := { w.me with pLatestEvent := some e } }
  have hme1 := hgme hg0
  obtain ⟨w2, hrun, hme2, -, htr2, -, hbuf⟩ :=
    dispatchLoop_descending mem code e stop (fuel + 1)
      (callGeneric code e { w with me := { w.me with pLatestEvent := some e } }).me.pState__ 0
      (callGeneric code e { w with me := { w.me with pLatestEvent := some e } })
      (by rw [hme1]; exact hp) (by rw [hme1, Nat.zero_add]; exact hlen)
  rw [hme1] at hme2
  simp only [hme1, Nat.zero_add] at hbuf hrun
  obtain ⟨w3, l, hrun3, htr3, hmap, hev, -, -, hgt⟩ :=
    descendLoop_spec mem code e (chainBelow mem stop (fuel + 1) w.me.pState__)
      (chainBelow mem stop (fuel + 1) w.me.pState__).length w2 (Nat.le_refl _) hlen
      (fun j hj => (hbuf j hj).symm)
  obtain ⟨hme3, hime⟩ := hgt (by rw [hme2]; exact hg0)
  rw [hme2] at hme3 hime
  rw [List.take_length] at hmap
  refine ⟨w3, g, l, ?_, by rw [htr3, htr2, hgtr, List.append_assoc], hgc, hmap,
    fun i hi => ⟨(hev i hi).1, hime i hi⟩, hme3⟩
  have hp3 : w3.me.pTransitionTarget = none := by rw [hme3]; exact hpend
  simp only [__Dispatch, hme1, hrun, if_true, hrun3, hp3]

/-! ## Transitions -/

theorem Transition_spec {σ : Type} (mem : Mem) (code : Code σ) (fuel : Nat) (w : Sys σ)
    (Y : StateId) (hpend : w.me.pTransitionTarget = none)
    (hX : superN mem (fuel + 1) w.me.pState__ = none)
    (hY : superN mem HTHSM_MAX_HIERARCHY_DEPTH (some Y) = none)
    (hfuel : HTHSM_MAX_HIERARCHY_DEPTH ≤ fuel + 1) :
    ∃ lca w' t, __lowestCommonSuperstate mem (fuel + 2) w.me.pState__ (some Y) = .ok lca ∧
      LcsAnswer mem w.me.pState__ (some Y) lca ∧
      __Transition mem code (fuel + 2) w (some Y) = .ok w' ∧
      w'.trace = w.trace ++ t ∧ TransitionCalls mem w.me Y lca t ∧
      w'.me = { w.me with pState__ := some Y, pLatestEvent := some .entry } := by
  have hY1 : superN mem (fuel + 1) (some Y) = none := superN_mono mem hY hfuel
  obtain ⟨lca, hlca, hans⟩ := lcs_spec mem (fuel + 2) w.me.pState__ (some Y)
    (superN_mono mem hX (by omega)) (superN_mono mem hY1 (by omega))
  obtain ⟨w1, gx, x, hrun1, htr1, hgx, hwalk, hxev, hme1⟩ :=
    Dispatch_gated_ascending mem code fuel w .exit lca (Or.inr rfl) hpend hX
  have hlen : (chainBelow mem lca (fuel + 1) (some Y)).length ≤ HTHSM_MAX_HIERARCHY_DEPTH := by
    rw [chainBelow_stable mem lca hY hfuel]
    exact length_chainBelow_le mem lca _ _
  obtain ⟨w2, gn, en, hrun2, htr2, hgn, hmap, henv, hme2⟩ :=
    Dispatch_gated_descending mem code fuel { w1 with me := { w1.me with pState__ := some Y } }
      .entry lca (Or.inl rfl) (by simp [hme1, hpend]) hY1 hlen
  simp only [hme1] at hgn henv hme2
  rw [chainBelow_stable mem lca hY hfuel] at hmap
  refine ⟨lca, w2, (gx ++ x) ++ (gn ++ en), hlca, hans, ?_, by rw [htr2]; simp [htr1],
    ⟨gx, x, gn, en, rfl, hgx, hwalk, hxev, hgn, hmap, henv⟩, hme2⟩
  simp only [__Transition, hlca, hrun1, hrun2]

theorem WellFormed_ends {mem : Mem} (h : WellFormed mem) (p : Option StateId) :
    superN mem HTHSM_MAX_HIERARCHY_DEPTH p = none := by
  cases p with
  | none => exact superN_none mem _
  | some s => exact h s

/-- An ascending `__Dispatch` on a well-formed graph returns.  Its calls are: the generic
handler, the walk, and then, when a target is pending after the walk, the calls of one
transition to that target, started on a machine that differs from the initial one only in
`pLatestEvent` and in having no pending target. -/
theorem Dispatch_ascending_spec {σ : Type} (mem : Mem) (code : Code σ) (fuel : Nat)
    (w : Sys σ) (e : EventPtr) (stop : Option StateId) (hwf : WellFormed mem)
    (hfuel : HTHSM_MAX_HIERARCHY_DEPTH + 2 ≤ fuel) :
    ∃ w' g l t, __Dispatch mem code fuel w e stop false = .ok w' ∧
      w'.trace = w.trace ++ (g ++ l ++ t) ∧
      GenericCalls e { w.me with pLatestEvent := some e } g ∧
      Walk mem stop w.me.pState__ l ∧
      (∀ i ∈ l, i.e = e ∧ SameFrame { w.me with pLatestEvent := some e } i.me) ∧
      w'.me.pTransitionTarget = none ∧
      w'.me.fnGenericEvtHandler = w.me.fnGenericEvtHandler ∧
      ((t = [] ∧ w'.me.pState__ = w.me.pState__ ∧ w'.me.pLatestEvent = some e) ∨
        ∃ Y lca, LcsAnswer mem w.me.pState__ (some Y) lca ∧
          TransitionCalls mem
            { w.me with pLatestEvent := some e, pTransitionTarget := none } Y lca t ∧
          w'.me.pState__ = some Y ∧ w'.me.pLatestEvent = some .entry) := by
  obtain ⟨f, rfl⟩ : ∃ f, fuel = f + 3 := ⟨fuel - 3, by
    have : 3 ≤ fuel := by unfold HTHSM_MAX_HIERARCHY_DEPTH at hfuel; omega
    omega⟩
  have hf : HTHSM_MAX_HIERARCHY_DEPTH ≤ f + 1 := by omega
  obtain ⟨g, hgtr, hgc, hgfr, -, -⟩ :=
    callGeneric_spec code e { w with me := { w.me with pLatestEvent := some e } }
  obtain ⟨w2, l, hrun, htr, hwalk, hev, hfr2, -, -⟩ :=
    dispatchLoop_ascending mem code e stop (f + 3)
      (callGeneric code e { w with me := { w.me with pLatestEvent := some e } }).me.pState__ 0
      (callGeneric code e { w with me := { w.me with pLatestEvent := some e } })
      (superN_mono mem ((WellFormed_ends hwf) _) (by omega))
  have hfr := SameFrame_trans hgfr hfr2
  have hps : (callGeneric code e
      { w with me := { w.me with pLatestEvent := some e } }).me.pState__ = w.me.pState__ :=
    hgfr.1
  rw [hps] at hwalk
  cases hpt : w2.me.pTransitionTarget with
  | none =>
    refine ⟨w2, g, l, [], ?_, by rw [htr, hgtr]; simp, hgc, hwalk,
      fun i hi => ⟨(hev i hi).1, SameFrame_trans hgfr (hev i hi).2⟩, hpt, hfr.2.2,
      Or.inl ⟨rfl, hfr.1, hfr.2.1⟩⟩
    simp only [__Dispatch, hrun, Bool.false_eq_true, if_false, hpt]
  | some Y =>
    obtain ⟨lca, w3, t, -, hans, hrun3, htr3, hcalls, hme3⟩ :=
      Transition_spec mem code f { w2 with me := { w2.me with pTransitionTarget := none } } Y rfl
        (superN_mono mem ((WellFormed_ends hwf) _) hf) (hwf Y) hf
    have h3t : w3.me.pTransitionTarget = none := congrArg HTHSM_Fsm.pTransitionTarget hme3
    have h3g : w3.me.fnGenericEvtHandler = w.me.fnGenericEvtHandler :=
      (congrArg HTHSM_Fsm.fnGenericEvtHandler hme3).trans hfr.2.2
    have h3s : w3.me.pState__ = some Y := congrArg HTHSM_Fsm.pState__ hme3
    have h3e : w3.me.pLatestEvent = some .entry := congrArg HTHSM_Fsm.pLatestEvent hme3
    have hme : ({ w2.me with pTransitionTarget := none } : HTHSM_Fsm) =
        { w.me with pLatestEvent := some e, pTransitionTarget := none } := by
      obtain ⟨h1, h2, h3⟩ := hfr
      simp only at h1 h2 h3
      simp [h1, h2, h3]
    have hans1 : LcsAnswer mem w.me.pState__ (some Y) lca := by
      have := hans
      simp only [hfr.1] at this
      exact this
    rw [hme] at hcalls
    refine ⟨w3, g, l, t, ?_, by rw [htr3]; simp [htr, hgtr], hgc, hwalk,
      fun i hi => ⟨(hev i hi).1, SameFrame_trans hgfr (hev i hi).2⟩, h3t, h3g,
      Or.inr ⟨Y, lca, hans1, hcalls, h3s, h3e⟩⟩
    simp only [__Dispatch, hrun, Bool.false_eq_true, if_false, hpt, hrun3]

/-! ## Reading a walk -/

theorem IsProperSuperOf_trans {mem : Mem} {a b d : StateId} (h1 : IsProperSuperOf mem a b)
    (h2 : IsProperSuperOf mem b d) : IsProperSuperOf mem a d := by
  obtain ⟨k, hk⟩ := h1
  obtain ⟨j, hj⟩ := h2
  refine ⟨k + (j + 1), ?_⟩
  have : k + (j + 1) + 1 = (k + 1) + (j + 1) := by omega
  rw [this, superN_add, hj, hk]

theorem IsProperSuperOf_irrefl {mem : Mem} {n : Nat} {s : StateId}
    (hn : superN mem n (some s) = none) : ¬ IsProperSuperOf mem s s := by
  rintro ⟨k, hk⟩
  exact superN_cycle_ne_none mem hk n hn

theorem IsProperSuperOf_of_parent {mem : Mem} {s t : StateId}
    (h : IsSuperOf mem t (mem s).superState) : IsProperSuperOf mem t s := by
  obtain ⟨k, hk⟩ := h
  exact ⟨k, by simpa [superN] using hk⟩

theorem IsProperSuperOf_of_grandparent {mem : Mem} {s t : StateId}
    (h : IsSuperOf mem t (superN mem 2 (some s))) : IsProperSuperOf mem t s := by
  obtain ⟨k, hk⟩ := h
  exact ⟨k + 1, by rw [← superN_add] at hk; exact hk⟩

/-- Every call of a walk from `p` is the call of an inclusive ancestor of `p`. -/
theorem Walk_callee_super {mem : Mem} {stop p : Option StateId} {l : List Invocation}
    (h : Walk mem stop p l) : ∀ j ∈ l, ∃ t, j.callee = .state t ∧ IsSuperOf mem t p := by
  induction h with
  | null => simp
  | stop s _ => simp
  | next s i l _ hc _ _ ih =>
    intro j hj
    rcases List.mem_cons.mp hj with rfl | hj
    · exact ⟨s, hc, 0, rfl⟩
    · obtain ⟨t, ht, hsup⟩ := ih j hj
      obtain ⟨k, hk⟩ := IsProperSuperOf_of_parent hsup
      exact ⟨t, ht, k + 1, hk⟩
  | last s i _ hc _ =>
    intro j hj
    obtain rfl := List.mem_singleton.mp hj
    exact ⟨s, hc, 0, rfl⟩
  | skip s i l _ hc _ _ ih =>
    intro j hj
    rcases List.mem_cons.mp hj with rfl | hj
    · exact ⟨s, hc, 0, rfl⟩
    · obtain ⟨t, ht, hsup⟩ := ih j hj
      obtain ⟨k, hk⟩ := IsProperSuperOf_of_grandparent hsup
      exact ⟨t, ht, k + 1, hk⟩

/-- Around a call `i` of a walk: the state called is a proper ancestor of every state called
before, and the return code of `i` decides where the walk goes on. -/
theorem Walk_split {mem : Mem} {stop : Option StateId} :
    ∀ (l1 : List Invocation) {p : Option StateId} {i : Invocation} {rest : List Invocation},
    Walk mem stop p (l1 ++ i :: rest) →
    ∃ s, i.callee = .state s ∧
      (∀ j ∈ l1, ∃ t, j.callee = .state t ∧ IsProperSuperOf mem s t) ∧
      (i.ret = HTHSM_CONTINUE → Walk mem stop (mem s).superState rest) ∧
      (i.ret = HTHSM_SUPPRESS_SUPERSTATES → rest = []) ∧
      (i.ret = HTHSM_SUPPRESS_IMMEDIATE_SUPERSTATE →
        Walk mem stop (superN mem 2 (some s)) rest)
  | [], p, i, rest, h => by
    cases h with
    | next s _ _ _ hc hr hw =>
      exact ⟨s, hc, by simp, fun _ => hw, fun h => by simp [hr] at h, fun h => by simp [hr] at h⟩
    | last s _ _ hc hr =>
      exact ⟨s, hc, by simp, fun h => by simp [hr] at h, fun _ => rfl, fun h => by simp [hr] at h⟩
    | skip s _ _ _ hc hr hw =>
      exact ⟨s, hc, by simp, fun h => by simp [hr] at h, fun h => by simp [hr] at h, fun _ => hw⟩
  | j0 :: l1, p, i, rest, h => by
    have key : ∀ (s0 : StateId) (q : Option StateId), j0.callee = .state s0 →
        (∀ t, IsSuperOf mem t q → IsProperSuperOf mem t s0) →
        Walk mem stop q (l1 ++ i :: rest) →
        ∃ s, i.callee = .state s ∧
          (∀ j ∈ j0 :: l1, ∃ t, j.callee = .state t ∧ IsProperSuperOf mem s t) ∧
          (i.ret = HTHSM_CONTINUE → Walk mem stop (mem s).superState rest) ∧
          (i.ret = HTHSM_SUPPRESS_SUPERSTATES → rest = []) ∧
          (i.ret = HTHSM_SUPPRESS_IMMEDIATE_SUPERSTATE →
            Walk mem stop (superN mem 2 (some s)) rest) := by
      intro s0 q hc0 hup hw
      obtain ⟨s, hc, hbefore, h1, h2, h3⟩ := Walk_split l1 hw
      obtain ⟨t, ht, hsup⟩ := Walk_callee_super hw i (by simp)
      obtain rfl : s = t := by simpa [hc] using ht
      refine ⟨s, hc, ?_, h1, h2, h3⟩
      intro j hj
      rcases List.mem_cons.mp hj with rfl | hj
      · exact ⟨s0, hc0, hup s hsup⟩
      · exact hbefore j hj
    rw [List.cons_append] at h
    generalize hl : l1 ++ i :: rest = tl at h
    cases h with
    | next s0 _ _ _ hc _ hw =>
      subst hl
      exact key s0 _ hc (fun t => IsProperSuperOf_of_parent) hw
    | last s0 _ _ hc _ => simp at hl
    | skip s0 _ _ _ hc _ hw =>
      subst hl
      exact key s0 _ hc (fun t => IsProperSuperOf_of_grandparent) hw

/-- A walk whose calls all return `HTHSM_CONTINUE` calls the states from `p` up to but
excluding the stop state, in order. -/
theorem Walk_all_continue {mem : Mem} {stop p : Option StateId} {l : List Invocation}
    (h : Walk mem stop p l) (hc : ∀ i ∈ l, i.ret = HTHSM_CONTINUE) :
    ∀ n, superN mem n p = none →
      l.map (fun i => i.callee) = (chainBelow mem stop n p).map Callee.state := by
  induction h with
  | null => intro n _; simp [chainBelow_none]
  | stop s hs => intro n _; simp [chainBelow_stop mem n hs]
  | next s i l hs hcal _ _ ih =>
    intro n hn
    cases n with
    | zero => simp [superN] at hn
    | succ n =>
      rw [chainBelow_cons mem n hs, List.map_cons, List.map_cons, hcal,
        ih (fun j hj => hc j (List.mem_cons_of_mem _ hj)) n (by simpa [superN] using hn)]
  | last s i _ _ hr => simp [hc i (by simp)] at hr
  | skip s i l _ _ hr _ _ => simp [hc i (by simp)] at hr

/-! ## Reading a trace -/

theorem newTrace_eq {σ : Type} {w w' : Sys σ} {l : List Invocation}
    (h : w'.trace = w.trace ++ l) : newTrace w w' = l := by
  simp [newTrace, h]

theorem receivers_append (ev : EventPtr) (a b : List Invocation) :
    receivers ev (a ++ b) = receivers ev a ++ receivers ev b := by
  simp [receivers, List.filterMap_append]

theorem receivers_generic (ev : EventPtr) {g : List Invocation}
    (h : ∀ i ∈ g, i.callee = .generic) : receivers ev g = [] := by
  induction g with
  | nil => rfl
  | cons a g ih =>
    have ha := h a (by simp)
    have := ih (fun i hi => h i (List.mem_cons_of_mem _ hi))
    simp only [receivers] at this ⊢
    rw [List.filterMap_cons, ha]
    exact this

theorem receivers_other (ev : EventPtr) {t : List Invocation}
    (h : ∀ i ∈ t, i.e ≠ ev) : receivers ev t = [] := by
  induction t with
  | nil => rfl
  | cons a t ih =>
    have ha := h a (by simp)
    have := ih (fun i hi => h i (List.mem_cons_of_mem _ hi))
    simp only [receivers] at this ⊢
    rw [List.filterMap_cons]
    cases hcal : a.callee with
    | generic => simpa using this
    | state s => simpa [ha] using this

theorem receivers_states (ev : EventPtr) : ∀ {l : List Invocation} {ch : List StateId},
    (∀ i ∈ l, i.e = ev) → l.map (fun i => i.callee) = ch.map Callee.state →
    receivers ev l = ch
  | [], [], _, _ => rfl
  | [], _ :: _, _, h => by simp at h
  | _ :: _, [], _, h => by simp at h
  | a :: l, s :: ch, hev, h => by
    simp only [List.map_cons, List.cons.injEq] at h
    have := receivers_states ev (fun i hi => hev i (List.mem_cons_of_mem _ hi)) h.2
    simp only [receivers] at this ⊢
    rw [List.filterMap_cons, h.1]
    simp [hev a (by simp), this]

theorem callsOf_append (ev : EventPtr) (a b : List Invocation) :
    callsOf ev (a ++ b) = callsOf ev a ++ callsOf ev b := by
  simp [callsOf]

theorem callsOf_none (ev : EventPtr) {g : List Invocation}
    (h : ∀ i ∈ g, i.callee = .generic ∨ i.e ≠ ev) : callsOf ev g = [] := by
  simp only [callsOf, List.filter_eq_nil_iff, decide_eq_true_eq, not_and, not_not]
  intro i hi he
  rcases h i hi with h | h
  · exact h
  · exact absurd he h

theorem callsOf_all (ev : EventPtr) {l : List Invocation}
    (h : ∀ i ∈ l, i.e = ev ∧ i.callee ≠ .generic) : callsOf ev l = l := by
  simp only [callsOf, List.filter_eq_self, decide_eq_true_eq]
  exact h

theorem Walk_callee_ne_generic {mem : Mem} {stop p : Option StateId} {l : List Invocation}
    (h : Walk mem stop p l) : ∀ i ∈ l, i.callee ≠ .generic := by
  intro i hi
  obtain ⟨t, ht, -⟩ := Walk_callee_super h i hi
  simp [ht]

theorem TransitionCalls_events {mem : Mem} {me : HTHSM_Fsm} {Y : StateId}
    {lca : Option StateId} {t : List Invocation} (h : TransitionCalls mem me Y lca t) :
    ∀ i ∈ t, i.e = .exit ∨ i.e = .entry := by
  obtain ⟨gx, x, gn, en, rfl, hgx, -, hx, hgn, -, hen⟩ := h
  intro i hi
  simp only [List.mem_append] at hi
  rcases hi with (hi | hi) | (hi | hi)
  · exact Or.inl (GenericCalls_mem hgx i hi).2.1
  · exact Or.inl (hx i hi).1
  · exact Or.inr (GenericCalls_mem hgn i hi).2.1
  · exact Or.inr (hen i hi).1

theorem mem_ancestors (mem : Mem) {t : StateId} : ∀ (n : Nat) (p : Option StateId),
    t ∈ ancestors mem n p → IsSuperOf mem t p
  | 0, _, h => by simp [ancestors] at h
  | n + 1, none, h => by simp [ancestors] at h
  | n + 1, some s, h => by
    simp only [ancestors, List.mem_cons] at h
    rcases h with rfl | h
    · exact ⟨0, rfl⟩
    · obtain ⟨k, hk⟩ := IsProperSuperOf_of_parent (mem_ancestors mem n _ h)
      exact ⟨k + 1, hk⟩

/-- A chain that ends visits no state twice. -/
theorem ancestors_nodup (mem : Mem) : ∀ (n : Nat) (p : Option StateId),
    superN mem n p = none → (ancestors mem n p).Nodup
  | 0, _, _ => by simp [ancestors]
  | n + 1, none, _ => by simp [ancestors]
  | n + 1, some s, h => by
    simp only [ancestors, List.nodup_cons]
    refine ⟨fun hmem => ?_, ancestors_nodup mem n _ (by simpa [superN] using h)⟩
    exact IsProperSuperOf_irrefl h (IsProperSuperOf_of_parent (mem_ancestors mem n _ hmem))

theorem chainBelow_null (mem : Mem) (n : Nat) (p : Option StateId) :
    chainBelow mem none n p = ancestors mem n p := by
  simp [chainBelow]

theorem testMem_wellFormed : WellFormed testMem := by
  intro s
  match s with
  | 0 => rfl
  | 1 => rfl
  | 2 => rfl
  | 3 => rfl
  | 4 => rfl
  | n + 5 => rfl

/-! ## Claims on `HTHSM_Dispatch` -/

/-- The calls of `HTHSM_Dispatch` on a well-formed graph: it returns, and its new calls are the
generic handler's, then the bubble walk from the active state, which holds all the state handler
calls with the dispatched event object, then calls with the static EXIT and ENTRY events. -/
theorem HTHSM_Dispatch_spec {σ : Type} (mem : Mem) (code : Code σ) (fuel : Nat) (w : Sys σ)
    (e : HTHSM_Event) (hwf : WellFormed mem) (hfuel : HTHSM_MAX_HIERARCHY_DEPTH + 2 ≤ fuel) :
    ∃ w' g l t, HTHSM_Dispatch mem code fuel w e = .ok w' ∧
      newTrace w w' = g ++ l ++ t ∧ (∀ i ∈ g, i.callee = .generic) ∧
      Walk mem none w.me.pState__ l ∧ (∀ i ∈ l, i.e = .host e) ∧
      (∀ i ∈ t, i.e = .exit ∨ i.e = .entry) ∧
      callsOf (.host e) (newTrace w w') = l ∧
      receivers (.host e) (newTrace w w') = receivers (.host e) l := by
  obtain ⟨w', g, l, t, hrun, htr, hg, hwalk, hl, -, -, ht⟩ :=
    Dispatch_ascending_spec mem code fuel w (.host e) none hwf hfuel
  have hgen : ∀ i ∈ g, i.callee = .generic := fun i hi => (GenericCalls_mem hg i hi).1
  have hev : ∀ i ∈ t, i.e = .exit ∨ i.e = .entry := by
    rcases ht with ⟨rfl, -⟩ | ⟨Y, lca, -, hcalls, -⟩
    · simp
    · exact TransitionCalls_events hcalls
  have hne : ∀ i ∈ t, i.e ≠ .host e := by
    intro i hi
    rcases hev i hi with h | h <;> simp [h]
  have hnt := newTrace_eq htr
  refine ⟨w', g, l, t, hrun, hnt, hgen, hwalk, fun i hi => (hl i hi).1, hev, ?_, ?_⟩
  · rw [hnt, callsOf_append, callsOf_append, callsOf_none _ (fun i hi => Or.inl (hgen i hi)),
      callsOf_none _ (fun i hi => Or.inr (hne i hi)),
      callsOf_all _ (fun i hi => ⟨(hl i hi).1, Walk_callee_ne_generic hwalk i hi⟩)]
    simp
  · rw [hnt, receivers_append, receivers_append, receivers_generic _ hgen,
      receivers_other _ hne]
    simp

/-- C5: `HTHSM_Dispatch` on a well-formed graph returns, and if every state handler it calls
with the dispatched event returns `HTHSM_CONTINUE`, the states whose handlers receive that event
are the active state and its ancestors up to the root, in that order, each once. -/
theorem dispatch_continue_reaches_all_superstates {σ : Type} (mem : Mem) (code : Code σ)
    (fuel : Nat) (w : Sys σ) (e : HTHSM_Event) (hwf : WellFormed mem)
    (hfuel : HTHSM_MAX_HIERARCHY_DEPTH + 2 ≤ fuel) :
    ∃ w', HTHSM_Dispatch mem code fuel w e = .ok w' ∧
      ((∀ i ∈ newTrace w w', i.e = .host e → i.callee ≠ .generic → i.ret = HTHSM_CONTINUE) →
        receivers (.host e) (newTrace w w') =
            ancestors mem HTHSM_MAX_HIERARCHY_DEPTH w.me.pState__ ∧
          (receivers (.host e) (newTrace w w')).Nodup) := by
  obtain ⟨w', g, l, t, hrun, hnt, -, hwalk, hl, -, -, hrec⟩ :=
    HTHSM_Dispatch_spec mem code fuel w e hwf hfuel
  refine ⟨w', hrun, fun hc => ?_⟩
  have hcl : ∀ i ∈ l, i.ret = HTHSM_CONTINUE := by
    intro i hi
    exact hc i (by rw [hnt]; simp [hi]) (hl i hi) (Walk_callee_ne_generic hwalk i hi)
  have hmap := Walk_all_continue hwalk hcl _ ((WellFormed_ends hwf) w.me.pState__)
  rw [chainBelow_null] at hmap
  have heq := hrec.trans (receivers_states _ hl hmap)
  exact ⟨heq, heq ▸ ancestors_nodup mem _ _ ((WellFormed_ends hwf) _)⟩

theorem dispatch_continue_reaches_all_superstates_witness :
    ∃ w', HTHSM_Dispatch testMem testCode 7 testStart sig1Evt = .ok w' ∧
      receivers (.host sig1Evt) (newTrace testStart w') = [stateD, stateC, stateA] := by
  obtain ⟨w', hrun, h⟩ := dispatch_continue_reaches_all_superstates testMem testCode 7
    testStart sig1Evt testMem_wellFormed (by decide)
  have hall : (callsOfRun testStart (HTHSM_Dispatch testMem testCode 7 testStart sig1Evt)).all
      (fun i => decide (i.ret = HTHSM_CONTINUE)) = true := rfl
  rw [hrun] at hall
  replace hall : (newTrace testStart w').all (fun i => decide (i.ret = HTHSM_CONTINUE)) = true :=
    hall
  exact ⟨w', hrun, (h fun i hi _ _ => by simpa using List.all_eq_true.mp hall i hi).1⟩

theorem mem_callsOf {ev : EventPtr} {tr : List Invocation} {i : Invocation} :
    i ∈ callsOf ev tr ↔ i ∈ tr ∧ i.e = ev ∧ i.callee ≠ .generic := by
  simp [callsOf, List.mem_filter]

/-- C6: `HTHSM_Dispatch` on a well-formed graph returns, and if the handler of a state `s`
called with the dispatched event returns `HTHSM_SUPPRESS_SUPERSTATES`, then no proper ancestor
of `s` has its handler called with that event. -/
theorem dispatch_suppress_superstates_stops_walk {σ : Type} (mem : Mem) (code : Code σ)
    (fuel : Nat) (w : Sys σ) (e : HTHSM_Event) (hwf : WellFormed mem)
    (hfuel : HTHSM_MAX_HIERARCHY_DEPTH + 2 ≤ fuel) :
    ∃ w', HTHSM_Dispatch mem code fuel w e = .ok w' ∧
      ∀ i ∈ newTrace w w', i.e = .host e → ∀ s, i.callee = .state s →
        i.ret = HTHSM_SUPPRESS_SUPERSTATES →
        ∀ j ∈ newTrace w w', j.e = .host e → ∀ t, j.callee = .state t →
          ¬ IsProperSuperOf mem t s := by
  obtain ⟨w', g, l, t, hrun, -, -, hwalk, -, -, hcalls, -⟩ :=
    HTHSM_Dispatch_spec mem code fuel w e hwf hfuel
  refine ⟨w', hrun, ?_⟩
  intro i hi hie s his hret j hj hje t hjt hts
  have hil : i ∈ l := hcalls ▸ mem_callsOf.mpr ⟨hi, hie, by simp [his]⟩
  have hjl : j ∈ l := hcalls ▸ mem_callsOf.mpr ⟨hj, hje, by simp [hjt]⟩
  obtain ⟨l1, rest, rfl⟩ := List.append_of_mem hil
  obtain ⟨s1, hs1, hbefore, -, hlast, -⟩ := Walk_split l1 hwalk
  obtain rfl : s = s1 := by simpa [his] using hs1
  obtain rfl := hlast hret
  have hirr : ¬ IsProperSuperOf mem s s := IsProperSuperOf_irrefl (hwf s)
  rcases List.mem_append.mp hjl with hj1 | hj1
  · obtain ⟨t1, ht1, hst⟩ := hbefore j hj1
    obtain rfl : t = t1 := by simpa [hjt] using ht1
    exact hirr (IsProperSuperOf_trans hst hts)
  · obtain rfl := List.mem_singleton.mp hj1
    obtain rfl : s = t := by simpa [his] using hjt
    exact hirr hts

theorem dispatch_suppress_superstates_stops_walk_witness :
    ∃ w', HTHSM_Dispatch testMem testCode 7 testStart sig2Evt = .ok w' ∧
      ∀ j ∈ newTrace testStart w', j.e = .host sig2Evt → ∀ t, j.callee = .state t →
        ¬ IsProperSuperOf testMem t stateD := by
  obtain ⟨w', hrun, h⟩ := dispatch_suppress_superstates_stops_walk testMem testCode 7
    testStart sig2Evt testMem_wellFormed (by decide)
  have hany : (callsOfRun testStart (HTHSM_Dispatch testMem testCode 7 testStart sig2Evt)).any
      (fun i => decide (i.e = .host sig2Evt ∧ i.callee = .state stateD ∧
        i.ret = HTHSM_SUPPRESS_SUPERSTATES)) = true := rfl
  rw [hrun] at hany
  replace hany : (newTrace testStart w').any (fun i => decide (i.e = .host sig2Evt ∧
      i.callee = .state stateD ∧ i.ret = HTHSM_SUPPRESS_SUPERSTATES)) = true := hany
  obtain ⟨i, hi, hp⟩ := List.any_eq_true.mp hany
  simp only [decide_eq_true_eq] at hp
  exact ⟨w', hrun, h i hi hp.1 stateD hp.2.1 hp.2.2⟩

theorem Walk_of_null {mem : Mem} {stop : Option StateId} {l : List Invocation}
    (h : Walk mem stop none l) : l = [] := by
  cases h
  rfl

theorem Walk_head {mem : Mem} {G : StateId} {l : List Invocation}
    (h : Walk mem none (some G) l) : ∃ j l', l = j :: l' ∧ j.callee = .state G := by
  cases h with
  | stop _ hs => simp at hs
  | next _ i l' _ hc _ _ => exact ⟨i, l', rfl, hc⟩
  | last _ i _ hc _ => exact ⟨i, [], rfl, hc⟩
  | skip _ i l' _ hc _ _ => exact ⟨i, l', rfl, hc⟩

/-- C7: `HTHSM_Dispatch` on a well-formed graph returns, and if the handler of a state `s`
called with the dispatched event returns `HTHSM_SUPPRESS_IMMEDIATE_SUPERSTATE`, then the handler
of the parent of `s` is not called with that event, the next state handler called with it is the
one of the grandparent of `s` when there is a grandparent, and no state handler is called with
it after `s` when `s` has no parent or no grandparent. -/
theorem dispatch_suppress_immediate_skips_one {σ : Type} (mem : Mem) (code : Code σ)
    (fuel : Nat) (w : Sys σ) (e : HTHSM_Event) (hwf : WellFormed mem)
    (hfuel : HTHSM_MAX_HIERARCHY_DEPTH + 2 ≤ fuel) :
    ∃ w', HTHSM_Dispatch mem code fuel w e = .ok w' ∧
      ∀ pre i post, callsOf (.host e) (newTrace w w') = pre ++ i :: post →
        ∀ s, i.callee = .state s → i.ret = HTHSM_SUPPRESS_IMMEDIATE_SUPERSTATE →
          (∀ P, (mem s).superState = some P →
            ∀ j ∈ callsOf (.host e) (newTrace w w'), j.callee ≠ .state P) ∧
          (superN mem 2 (some s) = none → post = []) ∧
          (∀ G, superN mem 2 (some s) = some G →
            ∃ j post', post = j :: post' ∧ j.callee = .state G) := by
  obtain ⟨w', g, l, t, hrun, -, -, hwalk, -, -, hcalls, -⟩ :=
    HTHSM_Dispatch_spec mem code fuel w e hwf hfuel
  refine ⟨w', hrun, ?_⟩
  rw [hcalls]
  rintro pre i post rfl s his hret
  obtain ⟨s1, hs1, hbefore, -, -, hskip⟩ := Walk_split pre hwalk
  obtain rfl : s = s1 := by simpa [his] using hs1
  have hpost := hskip hret
  refine ⟨?_, fun h2 => Walk_of_null (h2 ▸ hpost), fun G hG => Walk_head (hG ▸ hpost)⟩
  intro P hP j hj hjP
  have hPs : IsProperSuperOf mem P s := ⟨0, by simp [superN, hP]⟩
  have h2 : superN mem 2 (some s) = (mem P).superState := by simp [superN, hP]
  rcases List.mem_append.mp hj with hj1 | hj1
  · obtain ⟨t1, ht1, hst⟩ := hbefore j hj1
    obtain rfl : P = t1 := by simpa [hjP] using ht1
    exact IsProperSuperOf_irrefl (hwf s) (IsProperSuperOf_trans hst hPs)
  · rcases List.mem_cons.mp hj1 with rfl | hj2
    · obtain rfl : P = s := by simpa [hjP] using his
      exact IsProperSuperOf_irrefl (hwf P) hPs
    · obtain ⟨t1, ht1, hsup⟩ := Walk_callee_super hpost j hj2
      obtain rfl : P = t1 := by simpa [hjP] using ht1
      rw [h2] at hsup
      exact IsProperSuperOf_irrefl (hwf P) (IsProperSuperOf_of_parent hsup)

theorem dispatch_suppress_immediate_skips_one_witness :
    ∃ w', HTHSM_Dispatch testMem testCode 7 testStart sig3Evt = .ok w' ∧
      ∀ pre i post, callsOf (.host sig3Evt) (newTrace testStart w') = pre ++ i :: post →
        i.callee = .state stateD → i.ret = HTHSM_SUPPRESS_IMMEDIATE_SUPERSTATE →
          (∀ j ∈ callsOf (.host sig3Evt) (newTrace testStart w'), j.callee ≠ .state stateC) ∧
          ∃ j post', post = j :: post' ∧ j.callee = .state stateA := by
  obtain ⟨w', hrun, h⟩ := dispatch_suppress_immediate_skips_one testMem testCode 7
    testStart sig3Evt testMem_wellFormed (by decide)
  refine ⟨w', hrun, fun pre i post hsplit hcal hret => ?_⟩
  obtain ⟨h1, -, h3⟩ := h pre i post hsplit stateD hcal hret
  exact ⟨h1 stateC rfl, h3 stateA rfl⟩

/-! ## Claims on `__Transition` -/

theorem mem_chainBelow (mem : Mem) {a t : StateId} : ∀ (n : Nat) (p : Option StateId),
    t ∈ chainBelow mem (some a) n p → IsSuperOf mem a p → IsProperSuperOf mem a t
  | 0, _, h, _ => by simp [chainBelow, ancestors] at h
  | n + 1, none, h, _ => by simp [chainBelow_none] at h
  | n + 1, some s, h, hsup => by
    by_cases hs : some s = some a
    · simp [chainBelow_stop mem (n + 1) hs] at h
    · rw [chainBelow_cons mem n hs] at h
      have hpar : IsSuperOf mem a (mem s).superState := by
        obtain ⟨k, hk⟩ := hsup
        cases k with
        | zero => exact absurd hk (by simpa [superN] using hs)
        | succ k => exact ⟨k, by simpa [superN] using hk⟩
      rcases List.mem_cons.mp h with rfl | h
      · exact IsProperSuperOf_of_parent hpar
      · exact mem_chainBelow mem n _ h hpar

/-- The receivers of the static events in the calls of one transition. -/
theorem TransitionCalls_receivers {mem : Mem} {me : HTHSM_Fsm} {Y : StateId}
    {lca : Option StateId} {t : List Invocation} (h : TransitionCalls mem me Y lca t) :
    ∃ x, Walk mem lca me.pState__ x ∧ (∀ i ∈ x, i.e = .exit) ∧ (∀ i ∈ x, i ∈ t) ∧
      receivers .exit t = receivers .exit x ∧
      receivers .entry t = (chainBelow mem lca HTHSM_MAX_HIERARCHY_DEPTH (some Y)).reverse := by
  obtain ⟨gx, x, gn, en, rfl, hgx, hwalk, hx, hgn, hmap, hen⟩ := h
  have h1 : ∀ i ∈ gx, i.callee = .generic := fun i hi => (GenericCalls_mem hgx i hi).1
  have h2 : ∀ i ∈ gn, i.callee = .generic := fun i hi => (GenericCalls_mem hgn i hi).1
  have h3 : ∀ i ∈ en, i.e ≠ .exit := fun i hi => by simp [(hen i hi).1]
  have h4 : ∀ i ∈ x, i.e ≠ .entry := fun i hi => by simp [(hx i hi).1]
  refine ⟨x, hwalk, fun i hi => (hx i hi).1, fun i hi => by simp [hi], ?_, ?_⟩
  · simp [receivers_append, receivers_generic _ h1, receivers_generic _ h2,
      receivers_other _ h3]
  · simp [receivers_append, receivers_generic _ h1, receivers_generic _ h2,
      receivers_other _ h4, receivers_states _ (fun i hi => (hen i hi).1) hmap]

/-- One `__Transition` with enough fuel, in the form used by the claims. -/
theorem Transition_run {σ : Type} (mem : Mem) (code : Code σ) (fuel : Nat) (w : Sys σ)
    (Y : StateId) (n : Nat) (hpend : w.me.pTransitionTarget = none)
    (hX : superN mem n w.me.pState__ = none)
    (hY : superN mem HTHSM_MAX_HIERARCHY_DEPTH (some Y) = none)
    (hn : n + 1 ≤ fuel) (hm : HTHSM_MAX_HIERARCHY_DEPTH + 1 ≤ fuel) :
    ∃ lca w', __lowestCommonSuperstate mem fuel w.me.pState__ (some Y) = .ok lca ∧
      LcsAnswer mem w.me.pState__ (some Y) lca ∧
      __Transition mem code fuel w (some Y) = .ok w' ∧
      TransitionCalls mem w.me Y lca (newTrace w w') ∧
      w'.me = { w.me with pState__ := some Y, pLatestEvent := some .entry } := by
  obtain ⟨f, rfl⟩ : ∃ f, fuel = f + 2 := ⟨fuel - 2, by
    have : 2 ≤ fuel := by unfold HTHSM_MAX_HIERARCHY_DEPTH at hm; omega
    omega⟩
  obtain ⟨lca, w', t, hlca, hans, hrun, htr, hcalls, hme⟩ :=
    Transition_spec mem code f w Y hpend (superN_mono mem hX (by omega)) hY (by omega)
  exact ⟨lca, w', hlca, hans, hrun, (newTrace_eq htr).symm ▸ hcalls, hme⟩

/-- C8, as amended: one `__Transition` from active state `X` to `Y` (entered with no target
pending, as `__Dispatch` does) returns, and if every state handler called with EXIT returns
`HTHSM_CONTINUE`, the states whose handlers receive EXIT are `X` and its ancestors up to but
excluding `lca(X, Y)` (the whole chain of `X` when the resolver answers `NULL`), innermost
first, each once; `lca(X, Y)` and its ancestors are then not among them. -/
theorem transition_exit_receivers_when_continue {σ : Type} (mem : Mem) (code : Code σ)
    (fuel : Nat) (w : Sys σ) (Y : StateId) (n : Nat) (hpend : w.me.pTransitionTarget = none)
    (hX : superN mem n w.me.pState__ = none)
    (hY : superN mem HTHSM_MAX_HIERARCHY_DEPTH (some Y) = none)
    (hn : n + 1 ≤ fuel) (hm : HTHSM_MAX_HIERARCHY_DEPTH + 1 ≤ fuel) :
    ∃ lca w', __lowestCommonSuperstate mem fuel w.me.pState__ (some Y) = .ok lca ∧
      __Transition mem code fuel w (some Y) = .ok w' ∧
      ((∀ i ∈ newTrace w w', i.e = .exit → i.callee ≠ .generic → i.ret = HTHSM_CONTINUE) →
        receivers .exit (newTrace w w') = chainBelow mem lca n w.me.pState__ ∧
        (receivers .exit (newTrace w w')).Nodup ∧
        ∀ s ∈ receivers .exit (newTrace w w'), ∀ a, lca = some a →
          ¬ IsSuperOf mem s (some a)) := by
  obtain ⟨lca, w', hlca, hans, hrun, hcalls, -⟩ :=
    Transition_run mem code fuel w Y n hpend hX hY hn hm
  refine ⟨lca, w', hlca, hrun, fun hc => ?_⟩
  obtain ⟨x, hwalk, hxe, hxt, hrx, -⟩ := TransitionCalls_receivers hcalls
  have hcx : ∀ i ∈ x, i.ret = HTHSM_CONTINUE := fun i hi =>
    hc i (hxt i hi) (hxe i hi) (Walk_callee_ne_generic hwalk i hi)
  have heq : receivers .exit (newTrace w w') = chainBelow mem lca n w.me.pState__ :=
    hrx.trans (receivers_states _ hxe (Walk_all_continue hwalk hcx n hX))
  refine ⟨heq, ?_, ?_⟩
  · rw [heq]
    exact ((List.takeWhile_sublist _).nodup (ancestors_nodup mem n _ hX))
  · rintro s hs a rfl hsa
    rw [heq] at hs
    have ha := (LcsAnswer_common mem hans).1
    have hprop := mem_chainBelow mem n _ hs ha
    obtain ⟨k, hk⟩ := hsa
    obtain ⟨j, hj⟩ := hprop
    have hcyc : superN mem (k + j + 1) (some s) = some s := by
      rw [Nat.add_assoc, superN_add, hj, hk]
    have hs' : IsSuperOf mem s w.me.pState__ := mem_ancestors mem n _
      ((List.takeWhile_sublist _).subset hs)
    exact superN_cycle_ne_none mem hcyc n (IsSuperOf_chain_ends mem hX hs')

theorem transition_exit_receivers_when_continue_witness :
    ∃ lca w', __lowestCommonSuperstate testMem 6 (some stateD) (some stateB) = .ok lca ∧
      __Transition testMem testCode 6 testStart (some stateB) = .ok w' ∧
      receivers .exit (newTrace testStart w') = [stateD, stateC] := by
  obtain ⟨lca, w', hlca, hrun, h⟩ := transition_exit_receivers_when_continue testMem testCode 6
    testStart stateB 3 rfl rfl (testMem_wellFormed stateB) (by decide) (by decide)
  have hall : (callsOfRun testStart (__Transition testMem testCode 6 testStart (some stateB))).all
      (fun i => decide (i.ret = HTHSM_CONTINUE)) = true := rfl
  rw [hrun] at hall
  replace hall : (newTrace testStart w').all (fun i => decide (i.ret = HTHSM_CONTINUE)) = true :=
    hall
  have hl : lca = some stateA := by
    have : __lowestCommonSuperstate testMem 6 (some stateD) (some stateB) = .ok (some stateA) :=
      rfl
    exact (Except.ok.inj (hlca.symm.trans this))
  refine ⟨lca, w', hlca, hrun, ?_⟩
  rw [(h fun i hi _ _ => by simpa using List.all_eq_true.mp hall i hi).1, hl]
  rfl

/-- C8, as stated, fails: in the transition from `stateD` to `stateB`, with lowest common
superstate `stateA`, the handler of `stateD` answers EXIT with `HTHSM_SUPPRESS_SUPERSTATES`, and
`stateC`, which lies between `stateD` and `stateA`, does not receive EXIT. -/
theorem transition_exit_suppressed_counterexample :
    __lowestCommonSuperstate testMem 6 (some stateD) (some stateB) = .ok (some stateA) ∧
    chainBelow testMem (some stateA) 6 (some stateD) = [stateD, stateC] ∧
    receivers .exit
      (callsOfRun testStart (__Transition testMem exitSuppressCode 6 testStart (some stateB))) =
        [stateD] ∧
    receivers .exit
      (callsOfRun testStart (__Transition testMem exitSuppressCode 6 testStart (some stateB))) ≠
        chainBelow testMem (some stateA) 6 (some stateD) :=
  ⟨rfl, rfl, rfl, fun h =>
    absurd ((rfl : [stateD] = receivers .exit (callsOfRun testStart
      (__Transition testMem exitSuppressCode 6 testStart (some stateB)))).trans h) (by decide)⟩

/-- With `HTHSM_SUPPRESS_IMMEDIATE_SUPERSTATE` the EXIT walk steps over the stop state: in the
transition from `stateD` to its parent `stateC`, which is the lowest common superstate, the
handler of `stateD` answers EXIT with that code and `stateA`, above `stateC`, receives EXIT. -/
theorem transition_exit_steps_over_lca :
    __lowestCommonSuperstate testMem 6 (some stateD) (some stateC) = .ok (some stateC) ∧
    receivers .exit
      (callsOfRun testStart (__Transition testMem exitSkipCode 6 testStart (some stateC))) =
        [stateD, stateA] :=
  ⟨rfl, rfl⟩

/-- C9: one `__Transition` from active state `X` to a target `Y` whose chain holds at most
`HTHSM_MAX_HIERARCHY_DEPTH` states (entered with no target pending, as `__Dispatch` does)
returns, and whatever the handlers return, the states whose handlers receive ENTRY are `Y` and
its ancestors up to but excluding `lca(X, Y)` (the whole chain of `Y` when the resolver answers
`NULL`), outermost first with `Y` last, each once; none when `Y` is `lca(X, Y)`. -/
theorem transition_entry_receivers {σ : Type} (mem : Mem) (code : Code σ)
    (fuel : Nat) (w : Sys σ) (Y : StateId) (n : Nat) (hpend : w.me.pTransitionTarget = none)
    (hX : superN mem n w.me.pState__ = none)
    (hY : superN mem HTHSM_MAX_HIERARCHY_DEPTH (some Y) = none)
    (hn : n + 1 ≤ fuel) (hm : HTHSM_MAX_HIERARCHY_DEPTH + 1 ≤ fuel) :
    ∃ lca w', __lowestCommonSuperstate mem fuel w.me.pState__ (some Y) = .ok lca ∧
      __Transition mem code fuel w (some Y) = .ok w' ∧
      receivers .entry (newTrace w w') =
        (chainBelow mem lca HTHSM_MAX_HIERARCHY_DEPTH (some Y)).reverse ∧
      (receivers .entry (newTrace w w')).Nodup ∧
      (lca = some Y → receivers .entry (newTrace w w') = []) := by
  obtain ⟨lca, w', hlca, -, hrun, hcalls, -⟩ :=
    Transition_run mem code fuel w Y n hpend hX hY hn hm
  obtain ⟨x, -, -, -, -, hre⟩ := TransitionCalls_receivers hcalls
  refine ⟨lca, w', hlca, hrun, hre, ?_, ?_⟩
  · rw [hre, List.nodup_reverse]
    exact ((List.takeWhile_sublist _).nodup (ancestors_nodup mem _ _ hY))
  · intro h
    rw [hre, chainBelow_stop mem _ h.symm]
    rfl

theorem transition_entry_receivers_witness :
    ∃ lca w', __lowestCommonSuperstate testMem 6 (some stateA) (some stateD) = .ok lca ∧
      __Transition testMem testCode 6 (Sys.start (HTHSM_FsmCtor (some stateA) none) ())
        (some stateD) = .ok w' ∧
      receivers .entry (newTrace (Sys.start (HTHSM_FsmCtor (some stateA) none) ()) w') =
        (chainBelow testMem lca HTHSM_MAX_HIERARCHY_DEPTH (some stateD)).reverse ∧
      (receivers .entry (newTrace (Sys.start (HTHSM_FsmCtor (some stateA) none) ()) w')).Nodup ∧
      (lca = some stateD →
        receivers .entry (newTrace (Sys.start (HTHSM_FsmCtor (some stateA) none) ()) w') = []) :=
  transition_entry_receivers testMem testCode 6 (Sys.start (HTHSM_FsmCtor (some stateA) none) ())
    stateD 1 rfl rfl (testMem_wellFormed stateD) (by decide) (by decide)

/-- The run of C9's witness, evaluated: entering `stateD` from `stateA` delivers ENTRY to
`stateC`, then to `stateD`. -/
theorem transition_entry_receivers_example :
    receivers .entry
      (callsOfRun (Sys.start (HTHSM_FsmCtor (some stateA) none) ())
        (__Transition testMem testCode 6 (Sys.start (HTHSM_FsmCtor (some stateA) none) ())
          (some stateD))) = [stateC, stateD] :=
  rfl

/-! ## Deferred transitions -/

theorem stateHandlerCalls_append (a b : List Invocation) :
    stateHandlerCalls (a ++ b) = stateHandlerCalls a ++ stateHandlerCalls b := by
  simp [stateHandlerCalls]

theorem stateHandlerCalls_generic {g : List Invocation} (h : ∀ i ∈ g, i.callee = .generic) :
    stateHandlerCalls g = [] := by
  simp only [stateHandlerCalls, List.filter_eq_nil_iff, decide_eq_true_eq, not_not]
  exact h

theorem stateHandlerCalls_self {l : List Invocation} (h : ∀ i ∈ l, i.callee ≠ .generic) :
    stateHandlerCalls l = l := by
  simp only [stateHandlerCalls, List.filter_eq_self, decide_eq_true_eq]
  exact h

theorem callee_ne_generic_of_map : ∀ {l : List Invocation} {ch : List StateId},
    l.map (fun i => i.callee) = ch.map Callee.state → ∀ i ∈ l, i.callee ≠ .generic
  | [], _, _ => by simp
  | a :: l, [], h => by simp at h
  | a :: l, s :: ch, h => by
    simp only [List.map_cons, List.cons.injEq] at h
    intro i hi
    rcases List.mem_cons.mp hi with rfl | hi
    · simp [h.1]
    · exact callee_ne_generic_of_map h.2 i hi

/-- C10: `HTHSM_Dispatch` on a well-formed graph returns, and its state handler calls are, in
this order: the complete bubble walk `b` of the dispatched event, the calls `x` with EXIT, the
calls `n` with ENTRY.  During `b` and `x` the active state is the one at the start of the
dispatch; during `n` it is the final one.  This holds for every event, in particular for one
whose signal is neither ENTRY nor EXIT, where handlers can request a transition. -/
theorem dispatch_defers_transition {σ : Type} (mem : Mem) (code : Code σ)
    (fuel : Nat) (w : Sys σ) (e : HTHSM_Event) (hwf : WellFormed mem)
    (hfuel : HTHSM_MAX_HIERARCHY_DEPTH + 2 ≤ fuel) :
    ∃ w' b x n, HTHSM_Dispatch mem code fuel w e = .ok w' ∧
      stateHandlerCalls (newTrace w w') = b ++ x ++ n ∧
      Walk mem none w.me.pState__ b ∧
      (∀ i ∈ b, i.e = .host e ∧ i.me.pState__ = w.me.pState__) ∧
      (∀ i ∈ x, i.e = .exit ∧ i.me.pState__ = w.me.pState__) ∧
      (∀ i ∈ n, i.e = .entry ∧ i.me.pState__ = w'.me.pState__) := by
  obtain ⟨w', g, l, t, hrun, htr, hg, hwalk, hl, -, -, ht⟩ :=
    Dispatch_ascending_spec mem code fuel w (.host e) none hwf hfuel
  have hgen : ∀ i ∈ g, i.callee = .generic := fun i hi => (GenericCalls_mem hg i hi).1
  have hb : ∀ i ∈ l, i.e = .host e ∧ i.me.pState__ = w.me.pState__ :=
    fun i hi => ⟨(hl i hi).1, (hl i hi).2.1⟩
  have hnt : stateHandlerCalls (newTrace w w') = l ++ stateHandlerCalls t := by
    rw [newTrace_eq htr, stateHandlerCalls_append, stateHandlerCalls_append,
      stateHandlerCalls_generic hgen, stateHandlerCalls_self (Walk_callee_ne_generic hwalk)]
    rfl
  rcases ht with ⟨rfl, -⟩ | ⟨Y, lca, -, hcalls, hY, -⟩
  · exact ⟨w', l, [], [], hrun, by rw [hnt]; simp [stateHandlerCalls], hwalk, hb, by simp,
      by simp⟩
  · obtain ⟨gx, x, gn, en, rfl, hgx, hxwalk, hx, hgn, hmap, hen⟩ := hcalls
    refine ⟨w', l, x, en, hrun, ?_, hwalk, hb, ?_, ?_⟩
    · rw [hnt, stateHandlerCalls_append, stateHandlerCalls_append, stateHandlerCalls_append,
        stateHandlerCalls_generic (fun i hi => (GenericCalls_mem hgx i hi).1),
        stateHandlerCalls_generic (fun i hi => (GenericCalls_mem hgn i hi).1),
        stateHandlerCalls_self (Walk_callee_ne_generic hxwalk),
        stateHandlerCalls_self (callee_ne_generic_of_map hmap)]
      simp
    · intro i hi
      refine ⟨(hx i hi).1, ?_⟩
      rw [(hx i hi).2]
    · intro i hi
      refine ⟨(hen i hi).1, ?_⟩
      rw [(hen i hi).2, hY]

theorem dispatch_defers_transition_witness :
    ∃ w' b x n, HTHSM_Dispatch testMem testCode 7 testStart sig4Evt = .ok w' ∧
      stateHandlerCalls (newTrace testStart w') = b ++ x ++ n ∧
      Walk testMem none testStart.me.pState__ b ∧
      (∀ i ∈ b, i.e = .host sig4Evt ∧ i.me.pState__ = testStart.me.pState__) ∧
      (∀ i ∈ x, i.e = .exit ∧ i.me.pState__ = testStart.me.pState__) ∧
      (∀ i ∈ n, i.e = .entry ∧ i.me.pState__ = w'.me.pState__) :=
  dispatch_defers_transition testMem testCode 7 testStart sig4Evt testMem_wellFormed (by decide)

/-- The run of C10's witness, evaluated (`test_hierarchyWithDepth3_transition_withLSA`): the
walk through `stateD`, `stateC`, `stateA`, then EXIT for `stateD` and `stateC`, then ENTRY for
`stateB`; the active state is `stateD` up to the last EXIT. -/
theorem dispatch_defers_transition_example :
    (callsOfRun testStart (HTHSM_Dispatch testMem testCode 7 testStart sig4Evt)).map
        (fun i => (i.callee, i.e, i.me.pState__)) =
      [(.state stateD, .host sig4Evt, some stateD), (.state stateC, .host sig4Evt, some stateD),
       (.state stateA, .host sig4Evt, some stateD), (.state stateD, .exit, some stateD),
       (.state stateC, .exit, some stateD), (.state stateB, .entry, some stateB)] := by
  decide!

/-! ## Claims on `HTHSM_Transition`, self-transitions and `HTHSM_FsmInit` -/

/-- C12: `HTHSM_Transition(me, target)` only records a request.  When the machine has a latest
event whose signal is neither ENTRY nor EXIT, the result is the machine with `target` as pending
target and the three other fields as they were; when the latest event is ENTRY or EXIT, or there
is none, the machine is unchanged.  No handler is called: the calls a handler makes to
`HTHSM_Transition` add nothing to the trace beyond the call of the handler itself. -/
theorem HTHSM_Transition_only_records (me : HTHSM_Fsm) (target : Option StateId) :
    (∀ p, me.pLatestEvent = some p → p.deref.sig ≠ HTHSM_SIG_ENTRY →
      p.deref.sig ≠ HTHSM_SIG_EXIT →
      HTHSM_Transition me target =
        { pState__ := me.pState__, pTransitionTarget := target,
          pLatestEvent := me.pLatestEvent, fnGenericEvtHandler := me.fnGenericEvtHandler }) ∧
    (∀ p, me.pLatestEvent = some p →
      p.deref.sig = HTHSM_SIG_ENTRY ∨ p.deref.sig = HTHSM_SIG_EXIT →
      HTHSM_Transition me target = me) ∧
    (me.pLatestEvent = none → HTHSM_Transition me target = me) ∧
    ∀ {σ : Type} (code : Code σ) (callee : Callee) (fn : FnId) (e : EventPtr) (w : Sys σ),
      (callHandler code callee fn e w).2.trace.length = w.trace.length + 1 := by
  refine ⟨?_, ?_, ?_, ?_⟩
  · intro p hp h1 h2
    simp [HTHSM_Transition, hp, h1, h2]
  · intro p hp h
    exact HTHSM_Transition_gated ⟨p, hp, h⟩ target
  · intro h
    simp [HTHSM_Transition, h]
  · intro σ code callee fn e w
    simp [callHandler]

/-- C13, the failing input: on a machine constructed on `stateD`, whose handler answers INIT
with `HTHSM_SUPPRESS_IMMEDIATE_SUPERSTATE`, `HTHSM_FsmInit` delivers INIT to `stateD` and then
to `stateA`, the grandparent of `stateD`: the skip steps over the stop state `stateC`. -/
theorem fsmInit_init_reaches_grandparent :
    receivers .init (callsOfRun testStart (HTHSM_FsmInit testMem initSkipCode 7 testStart)) =
      [stateD, stateA] := by
  decide!

/-! ## What a dispatch does to the machine -/

theorem requestsOf_append (a b : List Invocation) :
    requestsOf (a ++ b) = requestsOf a ++ requestsOf b := by
  induction a with
  | nil => rfl
  | cons i a ih => simp [requestsOf, ih]

theorem Effect_nil (e : EventPtr) (me : HTHSM_Fsm) : Effect e me me [] :=
  ⟨rfl, by simp, by simp⟩

theorem Effect_frame {e : EventPtr} {me0 me1 : HTHSM_Fsm} {l : List Invocation}
    (h : Effect e me0 me1 l) : SameFrame me0 me1 :=
  h.1 ▸ foldl_Transition_frame _ me0

theorem Effect_gated {e : EventPtr} {me0 me1 : HTHSM_Fsm} {l : List Invocation}
    (h : Effect e me0 me1 l) (hg : Gated me0) : me1 = me0 :=
  h.1.trans (foldl_Transition_gated _ hg)

theorem Effect_append {e : EventPtr} {a b d : HTHSM_Fsm} {l1 l2 : List Invocation}
    (h1 : Effect e a b l1) (h2 : Effect e b d l2) : Effect e a d (l1 ++ l2) := by
  refine ⟨?_, ?_, ?_⟩
  · rw [requestsOf_append, List.foldl_append, ← h1.1]
    exact h2.1
  · intro i hi
    rcases List.mem_append.mp hi with hi | hi
    · exact h1.2.1 i hi
    · exact ⟨(h2.2.1 i hi).1, SameFrame_trans (Effect_frame h1) (h2.2.1 i hi).2⟩
  · intro hg i hi
    have hb : b = a := Effect_gated h1 hg
    rcases List.mem_append.mp hi with hi | hi
    · exact h1.2.2 hg i hi
    · exact (h2.2.2 (hb ▸ hg) i hi).trans hb

theorem callHandler_effect {σ : Type} (code : Code σ) (callee : Callee) (fn : FnId)
    (e : EventPtr) (w : Sys σ) :
    ∃ i, (callHandler code callee fn e w).2.trace = w.trace ++ [i] ∧ i.callee = callee ∧
      i.ret = (callHandler code callee fn e w).1 ∧
      Effect e w.me (callHandler code callee fn e w).2.me [i] := by
  refine ⟨_, callHandler_trace code callee fn e w, rfl, rfl, ?_, ?_, ?_⟩
  · simp [requestsOf, callHandler]
  · intro i hi
    obtain rfl := List.mem_singleton.mp hi
    exact ⟨rfl, SameFrame_refl _⟩
  · intro _ i hi
    obtain rfl := List.mem_singleton.mp hi
    rfl

theorem callGeneric_effect {σ : Type} (code : Code σ) (e : EventPtr) (w : Sys σ) :
    ∃ g, (callGeneric code e w).trace = w.trace ++ g ∧ GenericCalls e w.me g ∧
      Effect e w.me (callGeneric code e w).me g := by
  unfold callGeneric GenericCalls
  cases h : w.me.fnGenericEvtHandler with
  | none => exact ⟨[], by simp, rfl, Effect_nil e _⟩
  | some fn =>
    obtain ⟨i, htr, -, -, heff⟩ := callHandler_effect code .generic fn e w
    exact ⟨_, callHandler_trace code .generic fn e w, ⟨_, _, rfl⟩,
      (List.append_cancel_left ((callHandler_trace code .generic fn e w).symm.trans htr)) ▸ heff⟩

/-- Whatever the fuel and the graph, a first loop of `__Dispatch` that returns has called state
handlers with `e` only, and has changed the machine through their `HTHSM_Transition` calls
only. -/
theorem dispatchLoop_effect {σ : Type} (mem : Mem) (code : Code σ) (e : EventPtr)
    (stop : Option StateId) (descending : Bool) :
    ∀ (fuel : Nat) (p : Option StateId) (idx : Nat) (w : Sys σ) (r : Nat × Sys σ),
    dispatchLoop mem code e stop descending fuel p idx w = .ok r →
    ∃ l, r.2.trace = w.trace ++ l ∧ (∀ i ∈ l, i.callee ≠ .generic) ∧ Effect e w.me r.2.me l
  | fuel, none, idx, w, r, h => by
    have : r = (idx, w) := by cases fuel <;> simpa [dispatchLoop] using h.symm
    subst this
    exact ⟨[], by simp, by simp, Effect_nil e _⟩
  | 0, some s, idx, w, r, h => by
    by_cases hs : some s = stop
    · have : r = (idx, w) := by simpa [dispatchLoop, hs] using h.symm
      subst this
      exact ⟨[], by simp, by simp, Effect_nil e _⟩
    · simp [dispatchLoop, hs] at h
  | fuel + 1, some s, idx, w, r, h => by
    by_cases hs : some s = stop
    · have : r = (idx, w) := by simpa [dispatchLoop, hs] using h.symm
      subst this
      exact ⟨[], by simp, by simp, Effect_nil e _⟩
    · cases descending with
      | true =>
        by_cases hidx : idx < HTHSM_MAX_HIERARCHY_DEPTH
        · simp only [dispatchLoop, hs, if_false, if_true, hidx] at h
          have := dispatchLoop_effect mem code e stop true fuel _ _ _ r h
          exact this
        · simp [dispatchLoop, hs, hidx] at h
      | false =>
        obtain ⟨i, htr, hcal, hret, heff⟩ :=
          callHandler_effect code (.state s) (mem s).handlerFn e w
        have hne : ∀ j ∈ [i], j.callee ≠ .generic := by
          intro j hj
          obtain rfl := List.mem_singleton.mp hj
          simp [hcal]
        have step : ∀ q, dispatchLoop mem code e stop false fuel q idx
            (callHandler code (.state s) (mem s).handlerFn e w).2 = .ok r →
            ∃ l, r.2.trace = w.trace ++ l ∧ (∀ i ∈ l, i.callee ≠ .generic) ∧
              Effect e w.me r.2.me l := by
          intro q hq
          obtain ⟨l, hl, hgen, heff2⟩ := dispatchLoop_effect mem code e stop false fuel q idx _ r hq
          refine ⟨[i] ++ l, by rw [hl, htr, List.append_assoc], ?_, Effect_append heff heff2⟩
          intro j hj
          rcases List.mem_append.mp hj with hj | hj
          · exact hne j hj
          · exact hgen j hj
        rcases hc : callHandler code (.state s) (mem s).handlerFn e w with ⟨ret, w1⟩
        rw [hc] at step htr heff
        simp only at step htr heff
        cases ret with
        | HTHSM_CONTINUE =>
          exact step (mem s).superState (by simpa [dispatchLoop, hs, hc] using h)
        | HTHSM_SUPPRESS_SUPERSTATES =>
          have : r = (idx, w1) := by simpa [dispatchLoop, hs, hc] using h.symm
          subst this
          exact ⟨[i], htr, hne, heff⟩
        | HTHSM_SUPPRESS_IMMEDIATE_SUPERSTATE =>
          cases hp : (mem s).superState with
          | none => exact step none (by simpa [dispatchLoop, hs, hc, hp] using h)
          | some q => exact step (mem q).superState (by simpa [dispatchLoop, hs, hc, hp] using h)

theorem descendLoop_effect {σ : Type} (mem : Mem) (code : Code σ) (e : EventPtr) :
    ∀ (k : Nat) (w w' : Sys σ), descendLoop mem code e k w = .ok w' →
    ∃ l, w'.trace = w.trace ++ l ∧ (∀ i ∈ l, i.callee ≠ .generic) ∧ Effect e w.me w'.me l
  | 0, w, w', h => by
    have : w' = w := by simpa [descendLoop] using h.symm
    subst this
    exact ⟨[], by simp, by simp, Effect_nil e _⟩
  | k + 1, w, w', h => by
    by_cases hk : k < HTHSM_MAX_HIERARCHY_DEPTH
    · cases hcell : w.stateList k with
      | none => simp [descendLoop, hk, hcell] at h
      | some s =>
        simp only [descendLoop, hk, if_true, hcell] at h
        obtain ⟨i, htr, hcal, -, heff⟩ :=
          callHandler_effect code (.state s) (mem s).handlerFn e w
        obtain ⟨l, hl, hgen, heff2⟩ := descendLoop_effect mem code e k _ w' h
        refine ⟨[i] ++ l, by rw [hl, htr, List.append_assoc], ?_, Effect_append heff heff2⟩
        intro j hj
        rcases List.mem_append.mp hj with hj | hj
        · obtain rfl := List.mem_singleton.mp hj
          simp [hcal]
        · exact hgen j hj
    · simp [descendLoop, hk] at h

/-- A `dispatchWalk` that returns has called the generic handler, when there is one, then state
handlers, all with `e`, and has changed the machine by setting the latest event and through the
`HTHSM_Transition` calls of the handlers. -/
theorem dispatchWalk_effect {σ : Type} (mem : Mem) (code : Code σ) (fuel : Nat) (w w' : Sys σ)
    (e : EventPtr) (stop : Option StateId) (descending : Bool)
    (h : dispatchWalk mem code fuel w e stop descending = .ok w') :
    ∃ g l, w'.trace = w.trace ++ (g ++ l) ∧
      GenericCalls e { w.me with pLatestEvent := some e } g ∧
      (∀ i ∈ l, i.callee ≠ .generic) ∧
      Effect e { w.me with pLatestEvent := some e } w'.me (g ++ l) := by
  cases fuel with
  | zero => simp [dispatchWalk] at h
  | succ fuel =>
    obtain ⟨g, hgtr, hgc, hgeff⟩ :=
      callGeneric_effect code e { w with me := { w.me with pLatestEvent := some e } }
    simp only [dispatchWalk] at h
    cases hloop : dispatchLoop mem code e stop descending (fuel + 1)
        (callGeneric code e { w with me := { w.me with pLatestEvent := some e } }).me.pState__ 0
        (callGeneric code e { w with me := { w.me with pLatestEvent := some e } }) with
    | error f => simp [hloop] at h
    | ok r =>
      obtain ⟨l1, hl1, hgen1, heff1⟩ := dispatchLoop_effect mem code e stop descending _ _ _ _ r hloop
      rw [hloop] at h
      cases descending with
      | false =>
        have : w' = r.2 := by simpa using h.symm
        subst this
        exact ⟨g, l1, by rw [hl1, hgtr, List.append_assoc], hgc, hgen1, Effect_append hgeff heff1⟩
      | true =>
        simp only [if_true] at h
        obtain ⟨l2, hl2, hgen2, heff2⟩ := descendLoop_effect mem code e _ _ w' h
        refine ⟨g, l1 ++ l2, by rw [hl2, hl1, hgtr]; simp, hgc, ?_,
          List.append_assoc g l1 l2 ▸ Effect_append (Effect_append hgeff heff1) heff2⟩
        intro j hj
        rcases List.mem_append.mp hj with hj | hj
        · exact hgen1 j hj
        · exact hgen2 j hj

/-- `__Dispatch` is `dispatchWalk` followed by the check for a pending transition. -/
theorem Dispatch_unfold {σ : Type} (mem : Mem) (code : Code σ) (fuel : Nat) (w : Sys σ)
    (e : EventPtr) (stop : Option StateId) (descending : Bool) :
    __Dispatch mem code (fuel + 1) w e stop descending =
      match dispatchWalk mem code (fuel + 1) w e stop descending with
      | .error f => .error f
      | .ok w3 =>
        match w3.me.pTransitionTarget with
        | none => .ok w3
        | some t =>
          __Transition mem code fuel { w3 with me := { w3.me with pTransitionTarget := none } }
            (some t) := by
  simp only [__Dispatch, dispatchWalk]
  cases dispatchLoop mem code e stop descending (fuel + 1)
      (callGeneric code e { w with me := { w.me with pLatestEvent := some e } }).me.pState__ 0
      (callGeneric code e { w with me := { w.me with pLatestEvent := some e } }) with
  | error f => rfl
  | ok r =>
    cases descending with
    | false => rfl
    | true =>
      cases descendLoop mem code e r.1 r.2 <;> rfl

/-- A dispatch of ENTRY or EXIT entered with no target pending starts no transition. -/
theorem Dispatch_gated_eq {σ : Type} (mem : Mem) (code : Code σ) (fuel : Nat) (w : Sys σ)
    (e : EventPtr) (stop : Option StateId) (descending : Bool)
    (hsig : e.deref.sig = HTHSM_SIG_ENTRY ∨ e.deref.sig = HTHSM_SIG_EXIT)
    (hpend : w.me.pTransitionTarget = none) :
    __Dispatch mem code fuel w e stop descending =
      dispatchWalk mem code fuel w e stop descending := by
  cases fuel with
  | zero => rfl
  | succ fuel =>
    rw [Dispatch_unfold]
    cases h : dispatchWalk mem code (fuel + 1) w e stop descending with
    | error f => rfl
    | ok w3 =>
      obtain ⟨g, l, -, -, -, heff⟩ := dispatchWalk_effect mem code _ w w3 e stop descending h
      have hme := Effect_gated heff ⟨e, rfl, hsig⟩
      have hp : w3.me.pTransitionTarget = none := by rw [hme]; exact hpend
      simp only [hp]

/-- A `dispatchWalk` of ENTRY or EXIT changes nothing in the machine but the latest event. -/
theorem dispatchWalk_gated_me {σ : Type} (mem : Mem) (code : Code σ) (fuel : Nat)
    (w w' : Sys σ) (e : EventPtr) (stop : Option StateId) (descending : Bool)
    (hsig : e.deref.sig = HTHSM_SIG_ENTRY ∨ e.deref.sig = HTHSM_SIG_EXIT)
    (h : dispatchWalk mem code fuel w e stop descending = .ok w') :
    w'.me = { w.me with pLatestEvent := some e } := by
  obtain ⟨g, l, -, -, -, heff⟩ := dispatchWalk_effect mem code _ w w' e stop descending h
  exact Effect_gated heff ⟨e, rfl, hsig⟩

/-- A transition entered with no target pending is a `transitionOnce`. -/
theorem Transition_eq_once {σ : Type} (mem : Mem) (code : Code σ) (fuel : Nat) (w : Sys σ)
    (target : Option StateId) (hpend : w.me.pTransitionTarget = none) :
    __Transition mem code fuel w target = transitionOnce mem code fuel w target := by
  cases fuel with
  | zero => rfl
  | succ fuel =>
    simp only [__Transition, transitionOnce]
    cases __lowestCommonSuperstate mem (fuel + 1) w.me.pState__ target with
    | error f => rfl
    | ok lca =>
      simp only [Dispatch_gated_eq mem code fuel w .exit lca false (Or.inr rfl) hpend]
      cases h : dispatchWalk mem code fuel w .exit lca false with
      | error f => rfl
      | ok w1 =>
        have hme := dispatchWalk_gated_me mem code fuel w w1 .exit lca false (Or.inr rfl) h
        simp only
        exact Dispatch_gated_eq mem code fuel _ .entry lca true (Or.inl rfl)
          (by simp [hme, hpend])

/-- A walk that starts on the stop state calls no state handler. -/
theorem dispatchWalk_at_stop {σ : Type} (mem : Mem) (code : Code σ) (fuel : Nat) (w : Sys σ)
    (e : EventPtr) (X : StateId) (descending : Bool) (hX : w.me.pState__ = some X) :
    dispatchWalk mem code (fuel + 1) w e (some X) descending =
      .ok (callGeneric code e { w with me := { w.me with pLatestEvent := some e } }) := by
  obtain ⟨g, -, -, hfr, -, -⟩ :=
    callGeneric_spec code e { w with me := { w.me with pLatestEvent := some e } }
  have hps : (callGeneric code e
      { w with me := { w.me with pLatestEvent := some e } }).me.pState__ = some X :=
    hfr.1.trans hX
  simp only [dispatchWalk, hps, dispatchLoop, if_true]
  cases descending <;> simp [descendLoop]

/-- C20: a transition of a machine with active state `X` to `X` itself (entered with no target
pending, as `__Dispatch` does) returns in any graph, calls no state handler at all, whatever the
handlers would return, and leaves the active state equal to `X`. -/
theorem self_transition_calls_no_state_handler {σ : Type} (mem : Mem) (code : Code σ)
    (fuel : Nat) (w : Sys σ) (X : StateId) (hX : w.me.pState__ = some X)
    (hpend : w.me.pTransitionTarget = none) :
    ∃ w', __Transition mem code (fuel + 2) w (some X) = .ok w' ∧
      stateHandlerCalls (newTrace w w') = [] ∧ w'.me.pState__ = some X := by
  have hlca : __lowestCommonSuperstate mem (fuel + 2) w.me.pState__ (some X) = .ok (some X) := by
    simp [hX, __lowestCommonSuperstate, lcsOuter, lcsInner]
  obtain ⟨gx, hgxtr, hgx, -, -, -⟩ :=
    callGeneric_spec code .exit { w with me := { w.me with pLatestEvent := some .exit } }
  obtain ⟨gn, hgntr, hgn, hgnfr, -, -⟩ :=
    callGeneric_spec code .entry
      { callGeneric code .exit { w with me := { w.me with pLatestEvent := some .exit } } with
        me := { (callGeneric code .exit
            { w with me := { w.me with pLatestEvent := some .exit } }).me with
          pState__ := some X, pLatestEvent := some .entry } }
  refine ⟨_, ?_, ?_, hgnfr.1⟩
  · rw [Transition_eq_once mem code _ w _ hpend]
    simp only [transitionOnce, hlca, dispatchWalk_at_stop mem code fuel w .exit X false hX]
    exact dispatchWalk_at_stop mem code fuel _ .entry X true rfl
  · rw [newTrace_eq (l := gx ++ gn) (by rw [hgntr]; simp [hgxtr]), stateHandlerCalls_append,
      stateHandlerCalls_generic (fun i hi => (GenericCalls_mem hgx i hi).1),
      stateHandlerCalls_generic (fun i hi => (GenericCalls_mem hgn i hi).1)]
    rfl

theorem self_transition_calls_no_state_handler_witness :
    ∃ w', __Transition testMem testCode 2 testStart (some stateD) = .ok w' ∧
      stateHandlerCalls (newTrace testStart w') = [] ∧ w'.me.pState__ = some stateD :=
  self_transition_calls_no_state_handler testMem testCode 0 testStart stateD rfl rfl

/-! ## The `stateList` buffer -/

/-- The collecting loop writes no cell at or beyond the index it ends with. -/
theorem dispatchLoop_descending_above {σ : Type} (mem : Mem) (code : Code σ) (e : EventPtr)
    (stop : Option StateId) :
    ∀ (fuel : Nat) (p : Option StateId) (idx : Nat) (w : Sys σ) (r : Nat × Sys σ),
    dispatchLoop mem code e stop true fuel p idx w = .ok r →
    idx ≤ r.1 ∧ ∀ j, r.1 ≤ j → r.2.stateList j = w.stateList j
  | fuel, none, idx, w, r, h => by
    have : r = (idx, w) := by cases fuel <;> simpa [dispatchLoop] using h.symm
    subst this
    exact ⟨Nat.le_refl _, fun _ _ => rfl⟩
  | 0, some s, idx, w, r, h => by
    by_cases hs : some s = stop
    · have : r = (idx, w) := by simpa [dispatchLoop, hs] using h.symm
      subst this
      exact ⟨Nat.le_refl _, fun _ _ => rfl⟩
    · simp [dispatchLoop, hs] at h
  | fuel + 1, some s, idx, w, r, h => by
    by_cases hs : some s = stop
    · have : r = (idx, w) := by simpa [dispatchLoop, hs] using h.symm
      subst this
      exact ⟨Nat.le_refl _, fun _ _ => rfl⟩
    · by_cases hidx : idx < HTHSM_MAX_HIERARCHY_DEPTH
      · simp only [dispatchLoop, hs, if_false, if_true, hidx] at h
        obtain ⟨hle, habove⟩ := dispatchLoop_descending_above mem code e stop fuel _ _ _ r h
        refine ⟨by omega, fun j hj => ?_⟩
        rw [habove j hj]
        have : j ≠ idx := by omega
        simp [Function.update, this]
      · simp [dispatchLoop, hs, hidx] at h

/-- C17, as amended: a descending dispatch with no stop state (as done by `HTHSM_FsmInit`, and
entered with no target pending) from a state whose chain holds at most
`HTHSM_MAX_HIERARCHY_DEPTH` states returns, so that every access to `stateList` passes the bound
check of indices `0 .. HTHSM_MAX_HIERARCHY_DEPTH - 1`; the cells written are those below the
number of states of the chain, and they hold the chain. -/
theorem descending_dispatch_stays_in_buffer {σ : Type} (mem : Mem) (code : Code σ)
    (fuel : Nat) (w : Sys σ) (hpend : w.me.pTransitionTarget = none)
    (hchain : superN mem HTHSM_MAX_HIERARCHY_DEPTH w.me.pState__ = none)
    (hfuel : HTHSM_MAX_HIERARCHY_DEPTH + 1 ≤ fuel) :
    ∃ w', __Dispatch mem code fuel w .entry none true = .ok w' ∧
      (ancestors mem HTHSM_MAX_HIERARCHY_DEPTH w.me.pState__).length ≤
        HTHSM_MAX_HIERARCHY_DEPTH ∧
      (∀ j, j < (ancestors mem HTHSM_MAX_HIERARCHY_DEPTH w.me.pState__).length →
        w'.stateList j = (ancestors mem HTHSM_MAX_HIERARCHY_DEPTH w.me.pState__)[j]?) ∧
      ∀ j, (ancestors mem HTHSM_MAX_HIERARCHY_DEPTH w.me.pState__).length ≤ j →
        w'.stateList j = w.stateList j := by
  obtain ⟨f, rfl⟩ : ∃ f, fuel = f + 1 := ⟨fuel - 1, by omega⟩
  have hf : HTHSM_MAX_HIERARCHY_DEPTH ≤ f + 1 := by omega
  have hg0 : Gated ({ w.me with pLatestEvent := some .entry } : HTHSM_Fsm) :=
    ⟨.entry, rfl, Or.inl rfl⟩
  obtain ⟨g, -, -, -, hgsl, hgme⟩ :=
    callGeneric_spec code .entry { w with me := { w.me with pLatestEvent := some .entry } }
  have hme1 := hgme hg0
  have hch : chainBelow mem none (f + 1) w.me.pState__ =
      ancestors mem HTHSM_MAX_HIERARCHY_DEPTH w.me.pState__ := by
    rw [chainBelow_null, ancestors_stable mem _ _ _ hchain hf]
  have hlen := length_ancestors_le mem HTHSM_MAX_HIERARCHY_DEPTH w.me.pState__
  obtain ⟨w2, hrun, hme2, -, -, -, hbuf⟩ :=
    dispatchLoop_descending mem code .entry none (f + 1)
      (callGeneric code .entry
        { w with me := { w.me with pLatestEvent := some .entry } }).me.pState__ 0
      (callGeneric code .entry { w with me := { w.me with pLatestEvent := some .entry } })
      (by rw [hme1]; exact superN_mono mem hchain hf)
      (by rw [hme1, Nat.zero_add]; exact hch ▸ hlen)
  have habove := (dispatchLoop_descending_above mem code .entry none _ _ _ _ _ hrun).2
  rw [hme1] at hme2
  simp only [hme1, Nat.zero_add, hch] at hbuf hrun habove
  obtain ⟨w3, l, hrun3, -, -, -, -, hsl3, hgt⟩ :=
    descendLoop_spec mem code .entry (ancestors mem HTHSM_MAX_HIERARCHY_DEPTH w.me.pState__)
      (ancestors mem HTHSM_MAX_HIERARCHY_DEPTH w.me.pState__).length w2 (Nat.le_refl _) hlen
      (fun j hj => (hbuf j hj).symm)
  have hme3 : w3.me = { w.me with pLatestEvent := some .entry } :=
    ((hgt (by rw [hme2]; exact hg0)).1).trans hme2
  refine ⟨w3, ?_, hlen, fun j hj => by rw [hsl3]; exact hbuf j hj,
    fun j hj => by rw [hsl3, habove j hj, hgsl]⟩
  rw [Dispatch_gated_eq mem code _ w .entry none true (Or.inl rfl) hpend]
  simp only [dispatchWalk, hme1, hrun, if_true, hrun3]

theorem descending_dispatch_stays_in_buffer_witness :
    ∃ w', __Dispatch lineMem idleCode 6 (Sys.start (HTHSM_FsmCtor (some 4) none) ()) .entry none
        true = .ok w' ∧
      (ancestors lineMem HTHSM_MAX_HIERARCHY_DEPTH (some 4)).length ≤
        HTHSM_MAX_HIERARCHY_DEPTH ∧
      (∀ j, j < (ancestors lineMem HTHSM_MAX_HIERARCHY_DEPTH (some 4)).length →
        w'.stateList j = (ancestors lineMem HTHSM_MAX_HIERARCHY_DEPTH (some 4))[j]?) ∧
      ∀ j, (ancestors lineMem HTHSM_MAX_HIERARCHY_DEPTH (some 4)).length ≤ j →
        w'.stateList j = none :=
  descending_dispatch_stays_in_buffer lineMem idleCode 6
    (Sys.start (HTHSM_FsmCtor (some 4) none) ()) rfl rfl (by decide)

/-- C17, as stated, fails: state `5` of `lineMem` has five proper ancestors, which does not
exceed `HTHSM_MAX_HIERARCHY_DEPTH`, and the descending dispatch from it, alone or inside
`HTHSM_FsmInit`, accesses `stateList` at index `5`, outside the buffer. -/
theorem descending_dispatch_overflow_counterexample :
    (ancestors lineMem 9 (some 5)).length = 5 + 1 ∧
    5 ≤ HTHSM_MAX_HIERARCHY_DEPTH ∧
    __Dispatch lineMem idleCode 9 (Sys.start (HTHSM_FsmCtor (some 5) none) ()) .entry none true =
      .error (.outOfBounds 5) ∧
    HTHSM_FsmInit lineMem idleCode 9 (Sys.start (HTHSM_FsmCtor (some 5) none) ()) =
      .error (.outOfBounds 5) :=
  ⟨rfl, by decide, rfl, rfl⟩

/-! ## The active-state query -/

theorem stateIsActiveFrom_spec (mem : Mem) (state : StateId) : ∀ (n : Nat) (p : Option StateId),
    superN mem n p = none →
    ∃ b, stateIsActiveFrom mem state n p = .ok b ∧ (b = true ↔ IsSuperOf mem state p)
  | n, none, _ => ⟨false, by cases n <;> rfl, by simp [IsSuperOf_none]⟩
  | 0, some s, h => by simp [superN] at h
  | n + 1, some s, h => by
    by_cases hp : s = state
    · exact ⟨true, by simp [stateIsActiveFrom, hp], by simpa using ⟨0, by simp [superN, hp]⟩⟩
    · obtain ⟨b, hb, hiff⟩ :=
        stateIsActiveFrom_spec mem state n (mem s).superState (by simpa [superN] using h)
      refine ⟨b, by simp [stateIsActiveFrom, hp, hb], hiff.trans ?_⟩
      constructor
      · rintro ⟨k, hk⟩
        exact ⟨k + 1, by simpa [superN] using hk⟩
      · rintro ⟨k, hk⟩
        cases k with
        | zero => exact absurd (by simpa [superN] using hk) hp
        | succ k => exact ⟨k, by simpa [superN] using hk⟩

/-- C15: on a chain that ends, `HTHSM_StateIsActive` returns true if and only if the candidate
is the active state of the machine or one of its ancestors.  After a transition to a state `A`
(from `D` to its ancestor `A`, say), the query is true for `A` and false for every state of
which `A` is a proper ancestor (`D` and `C`). -/
theorem stateIsActive_iff_active_or_ancestor {σ : Type} (mem : Mem) (code : Code σ)
    (fuel : Nat) (w : Sys σ) (A : StateId) (n : Nat) (hpend : w.me.pTransitionTarget = none)
    (hX : superN mem n w.me.pState__ = none)
    (hA : superN mem HTHSM_MAX_HIERARCHY_DEPTH (some A) = none)
    (hn : n + 1 ≤ fuel) (hm : HTHSM_MAX_HIERARCHY_DEPTH + 1 ≤ fuel) :
    (∀ candidate, ∃ b, HTHSM_StateIsActive mem fuel w.me candidate = .ok b ∧
      (b = true ↔ IsSuperOf mem candidate w.me.pState__)) ∧
    ∃ w', __Transition mem code fuel w (some A) = .ok w' ∧
      HTHSM_StateIsActive mem fuel w'.me A = .ok true ∧
      ∀ s, IsProperSuperOf mem A s → HTHSM_StateIsActive mem fuel w'.me s = .ok false := by
  refine ⟨fun candidate =>
    stateIsActiveFrom_spec mem candidate fuel _ (superN_mono mem hX (by omega)), ?_⟩
  obtain ⟨lca, w', -, -, hrun, -, hme⟩ := Transition_run mem code fuel w A n hpend hX hA hn hm
  have hps : w'.me.pState__ = some A := congrArg HTHSM_Fsm.pState__ hme
  have hAf : superN mem fuel (some A) = none := superN_mono mem hA (by omega)
  have key : ∀ s, ∃ b, HTHSM_StateIsActive mem fuel w'.me s = .ok b ∧
      (b = true ↔ IsSuperOf mem s (some A)) := by
    intro s
    have := stateIsActiveFrom_spec mem s fuel (some A) hAf
    unfold HTHSM_StateIsActive
    rwa [hps]
  refine ⟨w', hrun, ?_, ?_⟩
  · obtain ⟨b, hb, hiff⟩ := key A
    rw [hb, hiff.mpr ⟨0, rfl⟩]
  · intro s hs
    obtain ⟨b, hb, hiff⟩ := key s
    cases b with
    | false => exact hb
    | true =>
      obtain ⟨k, hk⟩ := hiff.mp rfl
      obtain ⟨j, hj⟩ := hs
      have hcyc : superN mem (k + j + 1) (some s) = some s := by
        rw [Nat.add_assoc, superN_add, hj, hk]
      have hsA : superN mem (fuel + k) (some A) = none :=
        superN_mono mem hAf (Nat.le_add_right _ _)
      rw [superN_add, hk] at hsA
      exact absurd hsA (superN_cycle_ne_none mem hcyc fuel)

theorem stateIsActive_iff_active_or_ancestor_witness :
    ∃ w', __Transition testMem testCode 6 testStart (some stateA) = .ok w' ∧
      HTHSM_StateIsActive testMem 6 w'.me stateA = .ok true ∧
      HTHSM_StateIsActive testMem 6 w'.me stateD = .ok false ∧
      HTHSM_StateIsActive testMem 6 w'.me stateC = .ok false := by
  obtain ⟨-, w', hrun, hA, hrest⟩ := stateIsActive_iff_active_or_ancestor testMem testCode 6
    testStart stateA 3 rfl rfl (testMem_wellFormed stateA) (by decide) (by decide)
  exact ⟨w', hrun, hA, hrest stateD ⟨1, rfl⟩, hrest stateC ⟨0, rfl⟩⟩

/-! ## What a top-level dispatch does -/

theorem transitionOnce_effect {σ : Type} (mem : Mem) (code : Code σ) (fuel : Nat)
    (w w' : Sys σ) (target : Option StateId)
    (h : transitionOnce mem code fuel w target = .ok w') :
    ∃ t, w'.trace = w.trace ++ t ∧ OnceCalls w.me target t ∧
      w'.me = { w.me with pState__ := target, pLatestEvent := some .entry } := by
  cases fuel with
  | zero => simp [transitionOnce] at h
  | succ fuel =>
    simp only [transitionOnce] at h
    cases hl : __lowestCommonSuperstate mem (fuel + 1) w.me.pState__ target with
    | error f => simp [hl] at h
    | ok lca =>
      rw [hl] at h
      simp only at h
      cases h1 : dispatchWalk mem code fuel w .exit lca false with
      | error f => simp [h1] at h
      | ok w1 =>
        rw [h1] at h
        simp only at h
        obtain ⟨g1, l1, htr1, -, -, heff1⟩ := dispatchWalk_effect mem code _ w w1 _ _ _ h1
        obtain ⟨g2, l2, htr2, -, -, heff2⟩ := dispatchWalk_effect mem code _ _ w' _ _ _ h
        have hme1 : w1.me = { w.me with pLatestEvent := some .exit } :=
          Effect_gated heff1 ⟨.exit, rfl, Or.inr rfl⟩
        have hme2 := Effect_gated heff2 ⟨.entry, rfl, Or.inl rfl⟩
        simp only [hme1] at hme2 heff2
        refine ⟨(g1 ++ l1) ++ (g2 ++ l2), by rw [htr2]; simp [htr1],
          ⟨g1 ++ l1, g2 ++ l2, rfl, ?_, ?_⟩, hme2⟩
        · exact fun i hi => ⟨(heff1.2.1 i hi).1, heff1.2.2 ⟨.exit, rfl, Or.inr rfl⟩ i hi⟩
        · exact fun i hi => ⟨(heff2.2.1 i hi).1, heff2.2.2 ⟨.entry, rfl, Or.inl rfl⟩ i hi⟩

/-- Whatever the fuel and the graph, a `__Dispatch` that returns has made the calls `l` of its
walk, which leave the machine `mid`, and then, when `mid` has a pending target, the calls of one
transition to it that starts no further transition. -/
theorem Dispatch_effect {σ : Type} (mem : Mem) (code : Code σ) (fuel : Nat) (w w' : Sys σ)
    (e : EventPtr) (stop : Option StateId) (descending : Bool)
    (h : __Dispatch mem code fuel w e stop descending = .ok w') :
    ∃ l t mid, w'.trace = w.trace ++ (l ++ t) ∧
      Effect e { w.me with pLatestEvent := some e } mid l ∧
      ((mid.pTransitionTarget = none ∧ t = [] ∧ w'.me = mid) ∨
        ∃ Y, mid.pTransitionTarget = some Y ∧
          OnceCalls { mid with pTransitionTarget := none } (some Y) t ∧
          w'.me = { mid with pTransitionTarget := none, pState__ := some Y,
                             pLatestEvent := some .entry }) := by
  cases fuel with
  | zero => simp [__Dispatch] at h
  | succ fuel =>
    rw [Dispatch_unfold] at h
    cases h1 : dispatchWalk mem code (fuel + 1) w e stop descending with
    | error f => simp [h1] at h
    | ok w3 =>
      rw [h1] at h
      simp only at h
      obtain ⟨g, l, htr, -, -, heff⟩ := dispatchWalk_effect mem code _ w w3 _ _ _ h1
      cases hp : w3.me.pTransitionTarget with
      | none =>
        rw [hp] at h
        have : w' = w3 := by simpa using h.symm
        subst this
        exact ⟨g ++ l, [], w'.me, by simp [htr], heff, Or.inl ⟨hp, rfl, rfl⟩⟩
      | some Y =>
        rw [hp] at h
        simp only at h
        rw [Transition_eq_once mem code _ _ _ rfl] at h
        obtain ⟨t, htr2, hcalls, hme⟩ := transitionOnce_effect mem code _ _ w' _ h
        exact ⟨g ++ l, t, w3.me, by rw [htr2]; simp [htr], heff, Or.inr ⟨Y, hp, hcalls, hme⟩⟩

theorem Dispatch_pending_none {σ : Type} (mem : Mem) (code : Code σ) (fuel : Nat)
    (w w' : Sys σ) (e : EventPtr) (stop : Option StateId) (descending : Bool)
    (h : __Dispatch mem code fuel w e stop descending = .ok w') :
    w'.me.pTransitionTarget = none := by
  obtain ⟨l, t, mid, -, -, hcase⟩ := Dispatch_effect mem code fuel w w' e stop descending h
  rcases hcase with ⟨hp, -, hme⟩ | ⟨Y, -, -, hme⟩
  · rw [hme]; exact hp
  · rw [hme]

theorem GateOpen_Transition {me : HTHSM_Fsm} (h : GateOpen me) (t : Option StateId) :
    HTHSM_Transition me t = { me with pTransitionTarget := t } := by
  obtain ⟨p, hp, h1, h2⟩ := h
  simp [HTHSM_Transition, hp, h1, h2]

/-- While the gate is open, the pending target after a run of `HTHSM_Transition` calls is the
target of the last call, or the former pending target when there was no call. -/
theorem foldl_Transition_open (reqs : List (Option StateId)) :
    ∀ {me : HTHSM_Fsm}, GateOpen me →
      (reqs.foldl HTHSM_Transition me).pTransitionTarget =
        reqs.getLast?.getD me.pTransitionTarget := by
  induction reqs with
  | nil => intro me _; rfl
  | cons t reqs ih =>
    intro me h
    have hopen : GateOpen (HTHSM_Transition me t) := by
      obtain ⟨p, hp, h1, h2⟩ := h
      exact ⟨p, (HTHSM_Transition_frame me t).2.1.trans hp, h1, h2⟩
    rw [List.foldl_cons, ih hopen, GateOpen_Transition h, List.getLast?_cons]
    rfl

theorem callsWith_append (ev : EventPtr) (a b : List Invocation) :
    callsWith ev (a ++ b) = callsWith ev a ++ callsWith ev b := by
  simp [callsWith]

theorem callsWith_self {ev : EventPtr} {l : List Invocation} (h : ∀ i ∈ l, i.e = ev) :
    callsWith ev l = l := by
  simp only [callsWith, List.filter_eq_self, decide_eq_true_eq]
  exact h

theorem callsWith_other {ev : EventPtr} {l : List Invocation} (h : ∀ i ∈ l, i.e ≠ ev) :
    callsWith ev l = [] := by
  simp only [callsWith, List.filter_eq_nil_iff, decide_eq_true_eq]
  exact h

theorem OnceCalls_events {me : HTHSM_Fsm} {target : Option StateId} {t : List Invocation}
    (h : OnceCalls me target t) : ∀ i ∈ t, i.e = .exit ∨ i.e = .entry := by
  obtain ⟨tx, tn, rfl, hx, hn⟩ := h
  intro i hi
  rcases List.mem_append.mp hi with hi | hi
  · exact Or.inl (hx i hi).1
  · exact Or.inr (hn i hi).1

/-! ## Last request wins -/

/-- C11, as amended: `HTHSM_Dispatch` of an event whose signal is neither ENTRY nor EXIT returns
on a well-formed graph, and if, among the `HTHSM_Transition` calls made by the handlers called
with the dispatched event (the generic handler and the state handlers of the bubble walk), the
last one has a non-null target `T`, then the active state after the dispatch is `T` and no
target is pending. -/
theorem dispatch_last_request_wins {σ : Type} (mem : Mem) (code : Code σ)
    (fuel : Nat) (w : Sys σ) (e : HTHSM_Event) (T : StateId) (hwf : WellFormed mem)
    (hfuel : HTHSM_MAX_HIERARCHY_DEPTH + 2 ≤ fuel)
    (hentry : e.sig ≠ HTHSM_SIG_ENTRY) (hexit : e.sig ≠ HTHSM_SIG_EXIT) :
    ∃ w', HTHSM_Dispatch mem code fuel w e = .ok w' ∧
      ((requestsOf (callsWith (.host e) (newTrace w w'))).getLast? = some (some T) →
        w'.me.pState__ = some T ∧ w'.me.pTransitionTarget = none) := by
  obtain ⟨w', -, -, -, hrun, -⟩ :=
    Dispatch_ascending_spec mem code fuel w (.host e) none hwf hfuel
  refine ⟨w', hrun, fun hlast => ?_⟩
  obtain ⟨l, t, mid, htr, heff, hcase⟩ := Dispatch_effect mem code fuel w w' _ _ _ hrun
  have hopen : GateOpen ({ w.me with pLatestEvent := some (.host e) } : HTHSM_Fsm) :=
    ⟨.host e, rfl, hentry, hexit⟩
  have hmid : mid.pTransitionTarget = (requestsOf l).getLast?.getD w.me.pTransitionTarget := by
    rw [heff.1, foldl_Transition_open _ hopen]
  have hl : callsWith (.host e) l = l := callsWith_self fun i hi => (heff.2.1 i hi).1
  rcases hcase with ⟨hp, rfl, -⟩ | ⟨Y, hp, hcalls, hme⟩
  · rw [newTrace_eq htr, List.append_nil, hl] at hlast
    rw [hmid, hlast] at hp
    exact Option.noConfusion hp
  · have ht : callsWith (.host e) t = [] := callsWith_other fun i hi => by
      rcases OnceCalls_events hcalls i hi with h | h <;> simp [h]
    rw [newTrace_eq htr, callsWith_append, hl, ht, List.append_nil] at hlast
    rw [hmid, hlast] at hp
    obtain rfl : T = Y := by simpa using hp
    rw [hme]
    exact ⟨rfl, rfl⟩

theorem dispatch_last_request_wins_witness :
    ∃ w', HTHSM_Dispatch testMem testCode 7 testStart sig4Evt = .ok w' ∧
      w'.me.pState__ = some stateB ∧ w'.me.pTransitionTarget = none := by
  obtain ⟨w', hrun, h⟩ := dispatch_last_request_wins testMem testCode 7 testStart sig4Evt
    stateB testMem_wellFormed (by decide) (by decide) (by decide)
  have hlast : (requestsOf (callsWith (.host sig4Evt) (callsOfRun testStart
      (HTHSM_Dispatch testMem testCode 7 testStart sig4Evt)))).getLast? = some (some stateB) := by
    decide!
  rw [hrun] at hlast
  exact ⟨w', hrun, h hlast⟩

/-- C11, as stated, fails: on `SIG_4` the handler of `stateD` requests `stateB`, and during the
ENTRY of that transition the handler of `stateB` requests `stateE`.  The last
`HTHSM_Transition` call of the dispatch has the non-null target `stateE`, and the active state
after the dispatch is `stateB`. -/
theorem dispatch_last_request_ignored_counterexample :
    requestsOf (callsOfRun testStart
        (HTHSM_Dispatch testMem entryRequestCode 7 testStart sig4Evt)) =
      [some stateB, some stateE] ∧
    (machineOfRun (HTHSM_Dispatch testMem entryRequestCode 7 testStart sig4Evt)).map
        (fun me => me.pState__) = some (some stateB) := by
  decide!

/-! ## `HTHSM_FsmInit` -/

/-- `HTHSM_FsmInit` on a well-formed graph returns; its calls are those of the INIT dispatch
followed by those of the ENTRY dispatch, which holds the generic call and the calls of the chain
of the state that is active after the INIT dispatch, outermost first. -/
theorem FsmInit_spec {σ : Type} (mem : Mem) (code : Code σ) (fuel : Nat) (w : Sys σ)
    (S : StateId) (hS : w.me.pState__ = some S) (hwf : WellFormed mem)
    (hfuel : HTHSM_MAX_HIERARCHY_DEPTH + 2 ≤ fuel) :
    ∃ w1 w' g l, __Dispatch mem code fuel w .init (mem S).superState false = .ok w1 ∧
      __Dispatch mem code fuel w1 .entry none true = .ok w' ∧
      HTHSM_FsmInit mem code fuel w = .ok w' ∧
      w'.trace = w1.trace ++ (g ++ l) ∧
      GenericCalls .entry { w1.me with pLatestEvent := some .entry } g ∧
      l.map (fun i => i.callee) =
        (ancestors mem HTHSM_MAX_HIERARCHY_DEPTH w1.me.pState__).reverse.map Callee.state ∧
      (∀ i ∈ l, i.e = .entry ∧ i.me = { w1.me with pLatestEvent := some .entry }) ∧
      w'.me = { w1.me with pLatestEvent := some .entry } := by
  obtain ⟨w1, -, -, -, hrun1, -⟩ :=
    Dispatch_ascending_spec mem code fuel w .init (mem S).superState hwf hfuel
  have hp1 := Dispatch_pending_none mem code fuel w w1 _ _ _ hrun1
  obtain ⟨f, rfl⟩ : ∃ f, fuel = f + 1 := ⟨fuel - 1, by omega⟩
  have hf : HTHSM_MAX_HIERARCHY_DEPTH ≤ f + 1 := by omega
  have hch : chainBelow mem none (f + 1) w1.me.pState__ =
      ancestors mem HTHSM_MAX_HIERARCHY_DEPTH w1.me.pState__ := by
    rw [chainBelow_null, ancestors_stable mem _ _ _ (WellFormed_ends hwf _) hf]
  obtain ⟨w', g, l, hrun2, htr, hg, hmap, hl, hme⟩ :=
    Dispatch_gated_descending mem code f w1 .entry none (Or.inl rfl) hp1
      (superN_mono mem (WellFormed_ends hwf _) hf)
      (hch ▸ length_ancestors_le mem _ _)
  rw [hch] at hmap
  refine ⟨w1, w', g, l, hrun1, hrun2, ?_, htr, hg, hmap, hl, hme⟩
  simp only [HTHSM_FsmInit, hS, hrun1, hrun2]

/-- C14, as amended: `HTHSM_FsmInit` on a machine constructed on `S`, on a well-formed graph,
returns, and if the handlers that receive INIT leave no transition pending (they make no
`HTHSM_Transition` call, or the last one has a null target), then whatever else the handlers do
the states whose handlers receive ENTRY are the states of the chain of `S`, root first and
ending with `S`, each once. -/
theorem fsmInit_entry_receivers {σ : Type} (mem : Mem) (code : Code σ) (fuel : Nat)
    (w : Sys σ) (S : StateId) (gen : Option FnId) (hctor : w.me = HTHSM_FsmCtor (some S) gen)
    (hwf : WellFormed mem) (hfuel : HTHSM_MAX_HIERARCHY_DEPTH + 2 ≤ fuel) :
    ∃ w', HTHSM_FsmInit mem code fuel w = .ok w' ∧
      ((∀ T, (requestsOf (callsWith .init (newTrace w w'))).getLast? ≠ some (some T)) →
        receivers .entry (newTrace w w') =
            (ancestors mem HTHSM_MAX_HIERARCHY_DEPTH (some S)).reverse ∧
          (receivers .entry (newTrace w w')).Nodup) := by
  have hS : w.me.pState__ = some S := by rw [hctor]; rfl
  have hp0 : w.me.pTransitionTarget = none := by rw [hctor]; rfl
  obtain ⟨w1, w', g, l2, hrun1, -, hrun, htr2, hg, hmap, hl2, -⟩ :=
    FsmInit_spec mem code fuel w S hS hwf hfuel
  refine ⟨w', hrun, fun hquiet => ?_⟩
  obtain ⟨l, t, mid, htr1, heff, hcase⟩ := Dispatch_effect mem code fuel w w1 _ _ _ hrun1
  have hopen : GateOpen ({ w.me with pLatestEvent := some .init } : HTHSM_Fsm) :=
    ⟨.init, rfl, by decide, by decide⟩
  have hmid : mid.pTransitionTarget = (requestsOf l).getLast?.getD none := by
    rw [heff.1, foldl_Transition_open _ hopen]
    exact congrArg _ hp0
  have hgen : ∀ i ∈ g, i.callee = .generic := fun i hi => (GenericCalls_mem hg i hi).1
  have hge : ∀ i ∈ g, i.e ≠ .init := fun i hi => by simp [(GenericCalls_mem hg i hi).2.1]
  have hl2e : ∀ i ∈ l2, i.e ≠ .init := fun i hi => by simp [(hl2 i hi).1]
  have hle : ∀ i ∈ l, i.e ≠ .entry := fun i hi => by simp [(heff.2.1 i hi).1]
  have hl : callsWith .init l = l := callsWith_self fun i hi => (heff.2.1 i hi).1
  rcases hcase with ⟨hp, rfl, hme1⟩ | ⟨Y, hp, hcalls, -⟩
  · have hps : w1.me.pState__ = some S := by
      rw [hme1]
      exact (Effect_frame heff).1.trans hS
    have hnt : newTrace w w' = l ++ (g ++ l2) := newTrace_eq (by rw [htr2, htr1]; simp)
    rw [hps] at hmap
    have heq : receivers .entry (newTrace w w') =
        (ancestors mem HTHSM_MAX_HIERARCHY_DEPTH (some S)).reverse := by
      rw [hnt, receivers_append, receivers_append, receivers_other _ hle,
        receivers_generic _ hgen, receivers_states _ (fun i hi => (hl2 i hi).1) hmap]
      rfl
    refine ⟨heq, ?_⟩
    rw [heq, List.nodup_reverse]
    exact ancestors_nodup mem _ _ (hwf S)
  · exfalso
    have ht : callsWith .init t = [] := callsWith_other fun i hi => by
      rcases OnceCalls_events hcalls i hi with h | h <;> simp [h]
    have hnt : newTrace w w' = l ++ t ++ (g ++ l2) := newTrace_eq (by rw [htr2, htr1]; simp)
    have hq := hquiet Y
    rw [hnt, callsWith_append, callsWith_append, callsWith_append, hl, ht,
      callsWith_other hge, callsWith_other hl2e] at hq
    simp only [List.append_nil] at hq
    rw [hmid] at hp
    cases hlast : (requestsOf l).getLast? with
    | none => simp [hlast] at hp
    | some x =>
      rw [hlast] at hp
      exact hq (by rw [hlast]; exact congrArg some hp)

theorem fsmInit_entry_receivers_witness :
    ∃ w', HTHSM_FsmInit testMem testCode 7 testStart = .ok w' ∧
      receivers .entry (newTrace testStart w') = [stateA, stateC, stateD] := by
  obtain ⟨w', hrun, h⟩ := fsmInit_entry_receivers testMem testCode 7 testStart stateD none rfl
    testMem_wellFormed (by decide)
  have hreq : requestsOf (callsWith .init (callsOfRun testStart
      (HTHSM_FsmInit testMem testCode 7 testStart))) = [] := by
    decide!
  rw [hrun] at hreq
  replace hreq : requestsOf (callsWith .init (newTrace testStart w')) = [] := hreq
  exact ⟨w', hrun, (h fun T => by simp [hreq]).1⟩

/-- C14, as stated, fails: the handler of the initial state `stateD` requests a transition to
`stateB` when it receives INIT.  The transition runs at the end of the INIT dispatch, and the
ENTRY dispatch of `HTHSM_FsmInit` then starts from `stateB`: ENTRY goes to `stateB`, `stateA`,
`stateB`, and not to the chain `stateA`, `stateC`, `stateD` of the initial state. -/
theorem fsmInit_entry_after_init_request_counterexample :
    receivers .entry (callsOfRun testStart (HTHSM_FsmInit testMem initRequestCode 7 testStart)) =
      [stateB, stateA, stateB] ∧
    (ancestors testMem HTHSM_MAX_HIERARCHY_DEPTH (some stateD)).reverse =
      [stateA, stateC, stateD] := by
  decide!

/-! ## At most one transition per top-level dispatch -/

/-- Every `__Dispatch` is a `dispatchOnce`: the dispatches run by its transition start no further
transition. -/
theorem Dispatch_eq_once {σ : Type} (mem : Mem) (code : Code σ) (fuel : Nat) (w : Sys σ)
    (e : EventPtr) (stop : Option StateId) (descending : Bool) :
    __Dispatch mem code fuel w e stop descending =
      dispatchOnce mem code fuel w e stop descending := by
  cases fuel with
  | zero => rfl
  | succ fuel =>
    rw [Dispatch_unfold]
    simp only [dispatchOnce]
    cases dispatchWalk mem code (fuel + 1) w e stop descending with
    | error f => rfl
    | ok w3 =>
      simp only
      cases w3.me.pTransitionTarget with
      | none => rfl
      | some t =>
        exact Transition_eq_once mem code fuel
          { w3 with me := { w3.me with pTransitionTarget := none } } _ rfl

theorem FsmInit_eq_once {σ : Type} (mem : Mem) (code : Code σ) (fuel : Nat) (w : Sys σ) :
    HTHSM_FsmInit mem code fuel w = fsmInitOnce mem code fuel w := by
  unfold HTHSM_FsmInit fsmInitOnce
  cases w.me.pState__ with
  | none => rfl
  | some s =>
    simp only
    cases h : __Dispatch mem code fuel w .init (mem s).superState false with
    | error f => rw [← Dispatch_eq_once, h]
    | ok w1 =>
      rw [← Dispatch_eq_once, h]
      exact Dispatch_gated_eq mem code fuel w1 .entry none true (Or.inl rfl)
        (Dispatch_pending_none mem code fuel w w1 _ _ _ h)

/-- In the calls of a `__Dispatch` that returns, every handler called with the static EXIT or
ENTRY event finds no pending target, provided none is pending at the start when the dispatched
event is itself one of these two. -/
theorem Dispatch_nested_pending {σ : Type} (mem : Mem) (code : Code σ) (fuel : Nat)
    (w w' : Sys σ) (e : EventPtr) (stop : Option StateId) (descending : Bool)
    (h : __Dispatch mem code fuel w e stop descending = .ok w')
    (hstart : e = .exit ∨ e = .entry → w.me.pTransitionTarget = none) :
    ∃ l, w'.trace = w.trace ++ l ∧
      ∀ i ∈ l, i.e = .exit ∨ i.e = .entry → i.me.pTransitionTarget = none := by
  obtain ⟨l, t, mid, htr, heff, hcase⟩ := Dispatch_effect mem code fuel w w' _ _ _ h
  refine ⟨l ++ t, htr, fun i hi hie => ?_⟩
  rcases List.mem_append.mp hi with hi | hi
  · have he : e = .exit ∨ e = .entry := (heff.2.1 i hi).1 ▸ hie
    have hg : Gated ({ w.me with pLatestEvent := some e } : HTHSM_Fsm) := by
      rcases he with rfl | rfl
      · exact ⟨.exit, rfl, Or.inr rfl⟩
      · exact ⟨.entry, rfl, Or.inl rfl⟩
    rw [heff.2.2 hg i hi]
    exact hstart he
  · rcases hcase with ⟨-, rfl, -⟩ | ⟨Y, -, ⟨tx, tn, rfl, hx, hn⟩, -⟩
    · simp at hi
    · rcases List.mem_append.mp hi with hi | hi
      · rw [(hx i hi).2]
      · rw [(hn i hi).2]

/-- C18: on a well-formed graph `HTHSM_Dispatch` and, on a machine with an active state,
`HTHSM_FsmInit` return with no target pending, and every handler they call with the EXIT or
ENTRY event finds no target pending.  Whatever the graph and the fuel, `HTHSM_Dispatch` is a
`dispatchOnce` and `HTHSM_FsmInit` is a `fsmInitOnce`: each top-level dispatch runs at most one
transition, whose own dispatches start none. -/
theorem nested_dispatches_start_no_transition {σ : Type} (mem : Mem) (code : Code σ)
    (fuel : Nat) (w : Sys σ) (e : HTHSM_Event) (hwf : WellFormed mem)
    (hfuel : HTHSM_MAX_HIERARCHY_DEPTH + 2 ≤ fuel) :
    (∃ w', HTHSM_Dispatch mem code fuel w e = .ok w' ∧ w'.me.pTransitionTarget = none ∧
      ∀ i ∈ newTrace w w', i.e = .exit ∨ i.e = .entry → i.me.pTransitionTarget = none) ∧
    HTHSM_Dispatch mem code fuel w e = dispatchOnce mem code fuel w (.host e) none false ∧
    (w.me.pState__ ≠ none →
      ∃ w', HTHSM_FsmInit mem code fuel w = .ok w' ∧ w'.me.pTransitionTarget = none ∧
        ∀ i ∈ newTrace w w', i.e = .exit ∨ i.e = .entry → i.me.pTransitionTarget = none) ∧
    HTHSM_FsmInit mem code fuel w = fsmInitOnce mem code fuel w := by
  refine ⟨?_, Dispatch_eq_once mem code fuel w _ _ _, ?_, FsmInit_eq_once mem code fuel w⟩
  · obtain ⟨w', -, -, -, hrun, -⟩ :=
      Dispatch_ascending_spec mem code fuel w (.host e) none hwf hfuel
    obtain ⟨l, htr, hl⟩ := Dispatch_nested_pending mem code fuel w w' _ _ _ hrun
      (fun h => by rcases h with h | h <;> simp at h)
    exact ⟨w', hrun, Dispatch_pending_none mem code fuel w w' _ _ _ hrun,
      (newTrace_eq htr).symm ▸ hl⟩
  · intro hne
    obtain ⟨S, hS⟩ := Option.ne_none_iff_exists'.mp hne
    obtain ⟨w1, w', -, -, hrun1, hrun2, hrun, -⟩ := FsmInit_spec mem code fuel w S hS hwf hfuel
    have hp1 := Dispatch_pending_none mem code fuel w w1 _ _ _ hrun1
    obtain ⟨l1, htr1, hl1⟩ := Dispatch_nested_pending mem code fuel w w1 _ _ _ hrun1
      (fun h => by rcases h with h | h <;> simp at h)
    obtain ⟨l2, htr2, hl2⟩ := Dispatch_nested_pending mem code fuel w1 w' _ _ _ hrun2
      (fun _ => hp1)
    refine ⟨w', hrun, Dispatch_pending_none mem code fuel w1 w' _ _ _ hrun2, ?_⟩
    rw [newTrace_eq (l := l1 ++ l2) (by rw [htr2, htr1, List.append_assoc])]
    intro i hi
    rcases List.mem_append.mp hi with hi | hi
    · exact hl1 i hi
    · exact hl2 i hi

theorem nested_dispatches_start_no_transition_witness :
    (∃ w', HTHSM_Dispatch testMem entryRequestCode 7 testStart sig4Evt = .ok w' ∧
      w'.me.pTransitionTarget = none ∧
      ∀ i ∈ newTrace testStart w', i.e = .exit ∨ i.e = .entry →
        i.me.pTransitionTarget = none) ∧
    HTHSM_Dispatch testMem entryRequestCode 7 testStart sig4Evt =
      dispatchOnce testMem entryRequestCode 7 testStart (.host sig4Evt) none false ∧
    (testStart.me.pState__ ≠ none →
      ∃ w', HTHSM_FsmInit testMem entryRequestCode 7 testStart = .ok w' ∧
        w'.me.pTransitionTarget = none ∧
        ∀ i ∈ newTrace testStart w', i.e = .exit ∨ i.e = .entry →
          i.me.pTransitionTarget = none) ∧
    HTHSM_FsmInit testMem entryRequestCode 7 testStart =
      fsmInitOnce testMem entryRequestCode 7 testStart :=
  nested_dispatches_start_no_transition testMem entryRequestCode 7 testStart sig4Evt
    testMem_wellFormed (by decide)

/-! ## The active state over sequences of host calls -/

theorem mem_requestsOf {x : Option StateId} : ∀ {l : List Invocation},
    x ∈ requestsOf l → ∃ i ∈ l, x ∈ i.requests
  | [], h => by simp [requestsOf] at h
  | i :: l, h => by
    simp only [requestsOf, List.mem_append] at h
    rcases h with h | h
    · exact ⟨i, by simp, h⟩
    · obtain ⟨j, hj, hx⟩ := mem_requestsOf h
      exact ⟨j, List.mem_cons_of_mem _ hj, hx⟩

theorem gate_cases {me : HTHSM_Fsm} {e : EventPtr} (h : me.pLatestEvent = some e) :
    Gated me ∨ GateOpen me := by
  by_cases h1 : e.deref.sig = HTHSM_SIG_ENTRY
  · exact Or.inl ⟨e, h, Or.inl h1⟩
  · by_cases h2 : e.deref.sig = HTHSM_SIG_EXIT
    · exact Or.inl ⟨e, h, Or.inr h2⟩
    · exact Or.inr ⟨e, h, h1, h2⟩

theorem GateOpen_of_frame {a b : HTHSM_Fsm} (h : SameFrame a b) (ha : GateOpen a) :
    GateOpen b := by
  obtain ⟨p, hp, h1, h2⟩ := ha
  exact ⟨p, h.2.1.trans hp, h1, h2⟩

/-- The pending target after a run of handler calls is the former one, or the target of an
honoured call of the run. -/
theorem Effect_pending {e : EventPtr} {me0 mid : HTHSM_Fsm} {l : List Invocation}
    (hlatest : me0.pLatestEvent = some e) (h : Effect e me0 mid l) :
    mid.pTransitionTarget = me0.pTransitionTarget ∨ HandlerHonoured l mid.pTransitionTarget := by
  rcases gate_cases hlatest with hg | ho
  · exact Or.inl (by rw [Effect_gated h hg])
  · have hp : mid.pTransitionTarget = (requestsOf l).getLast?.getD me0.pTransitionTarget := by
      rw [h.1, foldl_Transition_open _ ho]
    cases hlast : (requestsOf l).getLast? with
    | none => exact Or.inl (by rw [hp, hlast]; rfl)
    | some x =>
      right
      obtain ⟨ys, hys⟩ := List.getLast?_eq_some_iff.mp hlast
      obtain ⟨i, hi, hx⟩ := mem_requestsOf (l := l) (x := x) (by rw [hys]; simp)
      rw [hp, hlast]
      exact ⟨i, hi, GateOpen_of_frame (h.2.1 i hi).2 ho, hx⟩

theorem Reached_mono {S : StateId} {H K : List (Option StateId)} {tr l : List Invocation}
    {x : Option StateId} (h : Reached S H tr x) : Reached S (H ++ K) (tr ++ l) x := by
  rcases h with h | h | ⟨i, hi, hr⟩
  · exact Or.inl h
  · exact Or.inr (Or.inl (List.mem_append_left _ h))
  · exact Or.inr (Or.inr ⟨i, List.mem_append_left _ hi, hr⟩)

theorem HandlerHonoured_mid {a l b : List Invocation} {x : Option StateId}
    (h : HandlerHonoured l x) : HandlerHonoured (a ++ (l ++ b)) x := by
  obtain ⟨i, hi, hr⟩ := h
  exact ⟨i, by simp [hi], hr⟩

/-- A `__Dispatch` that returns keeps the invariant. -/
theorem Dispatch_ActiveOk {σ : Type} (mem : Mem) (code : Code σ) (fuel : Nat) (w w' : Sys σ)
    (e : EventPtr) (stop : Option StateId) (descending : Bool) (S : StateId)
    (H : List (Option StateId)) (hinv : ActiveOk S H w)
    (h : __Dispatch mem code fuel w e stop descending = .ok w') : ActiveOk S H w' := by
  obtain ⟨l, t, mid, htr, heff, hcase⟩ := Dispatch_effect mem code fuel w w' _ _ _ h
  obtain ⟨⟨X, hX, hXr⟩, hpend, hsnap⟩ := hinv
  have hmono : ∀ x, Reached S H w.trace x → Reached S H w'.trace x := by
    intro x hx
    have := Reached_mono (K := []) (l := l ++ t) hx
    rwa [List.append_nil, ← htr] at this
  have hfr := Effect_frame heff
  have hmidX : mid.pState__ = some X := hfr.1.trans hX
  -- the pending target after the walk
  have hmidp : mid.pTransitionTarget = none ∨ Reached S H w'.trace mid.pTransitionTarget := by
    rcases Effect_pending rfl heff with hp | hp
    · rcases hpend with h0 | h0
      · exact Or.inl (hp.trans h0)
      · exact Or.inr (hmono _ (hp ▸ h0))
    · exact Or.inr (Or.inr (Or.inr (htr ▸ HandlerHonoured_mid hp)))
  have hl : ∀ i ∈ l, ∃ X, i.me.pState__ = some X ∧ Reached S H w'.trace (some X) :=
    fun i hi => ⟨X, (heff.2.1 i hi).2.1.trans hX, hmono _ hXr⟩
  rcases hcase with ⟨hp, rfl, hme⟩ | ⟨Y, hp, ⟨tx, tn, rfl, hx, hn⟩, hme⟩
  · refine ⟨⟨X, by rw [hme]; exact hmidX, hmono _ hXr⟩, Or.inl (by rw [hme]; exact hp), ?_⟩
    intro i hi
    rw [htr] at hi
    simp only [List.append_nil, List.mem_append] at hi
    rcases hi with hi | hi
    · obtain ⟨X1, h1, h2⟩ := hsnap i hi
      exact ⟨X1, h1, hmono _ h2⟩
    · exact hl i hi
  · have hY : Reached S H w'.trace (some Y) := by
      rcases hmidp with h0 | h0
      · rw [hp] at h0
        exact Option.noConfusion h0
      · exact hp ▸ h0
    refine ⟨⟨Y, by rw [hme], hY⟩, Or.inl (by rw [hme]), ?_⟩
    intro i hi
    rw [htr] at hi
    simp only [List.mem_append] at hi
    rcases hi with hi | hi | hi | hi
    · obtain ⟨X1, h1, h2⟩ := hsnap i hi
      exact ⟨X1, h1, hmono _ h2⟩
    · exact hl i hi
    · exact ⟨X, by rw [(hx i hi).2]; exact hmidX, hmono _ hXr⟩
    · exact ⟨Y, by rw [(hn i hi).2], hY⟩

theorem gateIsOpen_false {me : HTHSM_Fsm} (h : gateIsOpen me = false) (t : Option StateId) :
    HTHSM_Transition me t = me := by
  unfold gateIsOpen at h
  unfold HTHSM_Transition
  cases hp : me.pLatestEvent with
  | none => rfl
  | some p =>
    rw [hp] at h
    simp only [decide_eq_false_iff_not] at h
    simp only [h, if_false]

theorem gateIsOpen_true {me : HTHSM_Fsm} (h : gateIsOpen me = true) (t : Option StateId) :
    HTHSM_Transition me t = { me with pTransitionTarget := t } := by
  unfold gateIsOpen at h
  cases hp : me.pLatestEvent with
  | none => simp [hp] at h
  | some p =>
    rw [hp] at h
    simp only [decide_eq_true_eq] at h
    have := GateOpen_Transition ⟨p, hp, h.1, h.2⟩ t
    rw [hp] at this
    exact this

/-- On a well-formed graph a sequence of host calls started in the invariant returns, and ends
in the invariant, the targets honoured for the host added. -/
theorem hostCalls_ActiveOk {σ : Type} (mem : Mem) (code : Code σ) (fuel : Nat) (S : StateId)
    (hwf : WellFormed mem) (hfuel : HTHSM_MAX_HIERARCHY_DEPTH + 2 ≤ fuel) :
    ∀ (calls : List HostCall) (w : Sys σ) (H : List (Option StateId)), ActiveOk S H w →
    ∃ w', hostCalls mem code fuel calls w = .ok w' ∧
      ActiveOk S (H ++ hostHonoured mem code fuel calls w) w'
  | [], w, H, hinv => ⟨w, rfl, by simpa [hostHonoured] using hinv⟩
  | c :: cs, w, H, hinv => by
    have step : ∀ w1 H1, hostCall mem code fuel w c = .ok w1 → ActiveOk S (H ++ H1) w1 →
        hostHonoured mem code fuel (c :: cs) w = H1 ++ hostHonoured mem code fuel cs w1 →
        ∃ w', hostCalls mem code fuel (c :: cs) w = .ok w' ∧
          ActiveOk S (H ++ hostHonoured mem code fuel (c :: cs) w) w' := by
      intro w1 H1 hrun hinv1 hH
      obtain ⟨w', hrest, hinv'⟩ := hostCalls_ActiveOk mem code fuel S hwf hfuel cs w1 _ hinv1
      refine ⟨w', by simp only [hostCalls, hrun, hrest], ?_⟩
      rw [hH, ← List.append_assoc]
      exact hinv'
    cases c with
    | init =>
      obtain ⟨⟨X, hX, -⟩, -, -⟩ := id hinv
      obtain ⟨w1, w', -, -, hrun1, hrun2, hrun, -⟩ := FsmInit_spec mem code fuel w X hX hwf hfuel
      have hinv' := Dispatch_ActiveOk mem code fuel w1 w' _ _ _ S H
        (Dispatch_ActiveOk mem code fuel w w1 _ _ _ S H hinv hrun1) hrun2
      exact step w' [] hrun (by simpa using hinv') (by simp [hostHonoured, hostCall, hrun])
    | dispatch e =>
      obtain ⟨w', -, -, -, hrun, -⟩ :=
        Dispatch_ascending_spec mem code fuel w (.host e) none hwf hfuel
      have hinv' := Dispatch_ActiveOk mem code fuel w w' _ _ _ S H hinv hrun
      exact step w' [] hrun (by simpa using hinv') (by
        have hrun' : HTHSM_Dispatch mem code fuel w e = .ok w' := hrun
        simp [hostHonoured, hostCall, hrun'])
    | transition target =>
      obtain ⟨⟨X, hX, hXr⟩, hpend, hsnap⟩ := hinv
      cases hgate : gateIsOpen w.me with
      | false =>
        refine step { w with me := HTHSM_Transition w.me target } [] rfl ?_
          (by simp [hostHonoured, hostCall, hgate])
        rw [gateIsOpen_false hgate, List.append_nil]
        exact ⟨⟨X, hX, hXr⟩, hpend, hsnap⟩
      | true =>
        refine step { w with me := HTHSM_Transition w.me target } [target] rfl ?_
          (by simp [hostHonoured, hostCall, hgate])
        rw [gateIsOpen_true hgate]
        refine ⟨⟨X, hX, ?_⟩, Or.inr (Or.inr (Or.inl (by simp))), ?_⟩
        · have := Reached_mono (K := [target]) (l := []) hXr
          rwa [List.append_nil] at this
        · intro i hi
          obtain ⟨X1, h1, h2⟩ := hsnap i hi
          have := Reached_mono (K := [target]) (l := []) h2
          rw [List.append_nil] at this
          exact ⟨X1, h1, this⟩

/-- C19: on a well-formed graph, every sequence of `HTHSM_FsmInit`, `HTHSM_Dispatch` and
`HTHSM_Transition` calls (null targets included) on a machine constructed on a non-null initial
state `S` returns, and at its end the active state is non-null and is `S` or the target of an
honoured `HTHSM_Transition` call, made by the host or by a handler; so is the active state found
by every handler called on the way. -/
theorem active_state_never_null {σ : Type} (mem : Mem) (code : Code σ) (fuel : Nat)
    (S : StateId) (gen : Option FnId) (app : σ) (calls : List HostCall) (hwf : WellFormed mem)
    (hfuel : HTHSM_MAX_HIERARCHY_DEPTH + 2 ≤ fuel) :
    ∃ w', hostCalls mem code fuel calls (Sys.start (HTHSM_FsmCtor (some S) gen) app) = .ok w' ∧
      (∃ X, w'.me.pState__ = some X ∧
        Reached S (hostHonoured mem code fuel calls (Sys.start (HTHSM_FsmCtor (some S) gen) app))
          w'.trace (some X)) ∧
      ∀ i ∈ w'.trace, ∃ X, i.me.pState__ = some X ∧
        Reached S (hostHonoured mem code fuel calls (Sys.start (HTHSM_FsmCtor (some S) gen) app))
          w'.trace (some X) := by
  have h0 : ActiveOk S [] (Sys.start (HTHSM_FsmCtor (some S) gen) app) :=
    ⟨⟨S, rfl, Or.inl rfl⟩, Or.inl rfl, fun i hi => by simp [Sys.start] at hi⟩
  obtain ⟨w', hrun, hinv⟩ := hostCalls_ActiveOk mem code fuel S hwf hfuel calls _ [] h0
  rw [List.nil_append] at hinv
  exact ⟨w', hrun, hinv.1, hinv.2.2⟩

theorem active_state_never_null_witness :
    ∃ w', hostCalls testMem testCode 7
        [.init, .dispatch sig4Evt, .transition none, .transition (some stateE)]
        (Sys.start (HTHSM_FsmCtor (some stateD) none) ()) = .ok w' ∧
      (∃ X, w'.me.pState__ = some X ∧
        Reached stateD (hostHonoured testMem testCode 7
            [.init, .dispatch sig4Evt, .transition none, .transition (some stateE)]
            (Sys.start (HTHSM_FsmCtor (some stateD) none) ()))
          w'.trace (some X)) ∧
      ∀ i ∈ w'.trace, ∃ X, i.me.pState__ = some X ∧
        Reached stateD (hostHonoured testMem testCode 7
            [.init, .dispatch sig4Evt, .transition none, .transition (some stateE)]
            (Sys.start (HTHSM_FsmCtor (some stateD) none) ()))
          w'.trace (some X) :=
  active_state_never_null testMem testCode 7 stateD none ()
    [.init, .dispatch sig4Evt, .transition none, .transition (some stateE)]
    testMem_wellFormed (by decide)

/-! ## The generic handler -/

theorem SameRun_refl {σ : Type} (w : Sys σ) : SameRun w w := ⟨rfl, rfl, rfl, rfl⟩

theorem SameResult_cases {σ : Type} {r r2 : Except Fault (Sys σ)} (h : SameResult r r2) :
    (∃ f, r = .error f ∧ r2 = .error f) ∨
      ∃ w w2, r = .ok w ∧ r2 = .ok w2 ∧ SameRun w w2 := by
  cases r with
  | error f =>
    cases r2 with
    | error f2 =>
      have hf : f = f2 := h
      exact Or.inl ⟨f, rfl, by rw [hf]⟩
    | ok w2 => exact h.elim
  | ok w =>
    cases r2 with
    | error f2 => exact h.elim
    | ok w2 => exact Or.inr ⟨w, w2, rfl, rfl, h⟩

theorem SameLoop_cases {σ : Type} {r r2 : Except Fault (Nat × Sys σ)} (h : SameLoop r r2) :
    (∃ f, r = .error f ∧ r2 = .error f) ∨
      ∃ k w w2, r = .ok (k, w) ∧ r2 = .ok (k, w2) ∧ SameRun w w2 := by
  cases r with
  | error f =>
    cases r2 with
    | error f2 =>
      have hf : f = f2 := h
      exact Or.inl ⟨f, rfl, by rw [hf]⟩
    | ok w2 => exact h.elim
  | ok x =>
    cases r2 with
    | error f2 => exact h.elim
    | ok x2 =>
      obtain ⟨k, w⟩ := x
      obtain ⟨k2, w2⟩ := x2
      obtain ⟨hk, hw⟩ : k2 = k ∧ SameRun w w2 := h
      exact Or.inr ⟨k, w, w2, rfl, by rw [hk], hw⟩

section
variable {σ : Type} {m : Mem} {code code2 : Code σ} {gen : FnId}

theorem callHandler_same (hagree : Agree gen code code2) {w w2 : Sys σ} (h : SameRun w w2)
    (s : StateId) (fn : FnId) (hfn : fn ≠ gen) (e : EventPtr) :
    (callHandler code2 (.state s) fn e w2).1 = (callHandler code (.state s) fn e w).1 ∧
      SameRun (callHandler code (.state s) fn e w).2 (callHandler code2 (.state s) fn e w2).2 := by
  obtain ⟨hme, happ, hsl, htr⟩ := h
  obtain ⟨h1, h2, h3⟩ := hagree fn w.me w.app e.deref
  refine ⟨?_, ?_, ?_, hsl, ?_⟩
  · simp only [callHandler, hme, happ, h3 hfn]
  · simp only [callHandler, hme, happ, h1]
  · simp only [callHandler, hme, happ, h2]
  · simp only [callHandler, hme, happ, h1, h3 hfn, stateHandlerCalls, List.filter_append]
    simp only [stateHandlerCalls] at htr
    rw [htr]

theorem callGeneric_same (hagree : Agree gen code code2) {w w2 : Sys σ} (h : SameRun w w2)
    (e : EventPtr) : SameRun (callGeneric code e w) (callGeneric code2 e w2) := by
  obtain ⟨hme, happ, hsl, htr⟩ := h
  unfold callGeneric
  rw [hme]
  cases w.me.fnGenericEvtHandler with
  | none => exact ⟨hme, happ, hsl, htr⟩
  | some fn =>
    obtain ⟨h1, h2, -⟩ := hagree fn w.me w.app e.deref
    refine ⟨?_, ?_, hsl, ?_⟩
    · simp only [callHandler, hme, happ, h1]
    · simp only [callHandler, hme, happ, h2]
    · simp only [callHandler, stateHandlerCalls, List.filter_append]
      simp only [stateHandlerCalls] at htr
      rw [htr]
      simp

theorem dispatchLoop_same (hagree : Agree gen code code2) (hstate : ∀ s, (m s).handlerFn ≠ gen)
    (e : EventPtr) (stop : Option StateId) (descending : Bool) :
    ∀ (fuel : Nat) (p : Option StateId) (idx : Nat) (w w2 : Sys σ), SameRun w w2 →
    SameLoop (dispatchLoop m code e stop descending fuel p idx w)
      (dispatchLoop m code2 e stop descending fuel p idx w2)
  | fuel, none, idx, w, w2, h => by
    cases fuel <;> exact ⟨rfl, h⟩
  | 0, some s, idx, w, w2, h => by
    by_cases hs : some s = stop
    · simp only [dispatchLoop, hs, if_true]
      exact ⟨rfl, h⟩
    · simp only [dispatchLoop, hs, if_false]
      exact rfl
  | fuel + 1, some s, idx, w, w2, h => by
    by_cases hs : some s = stop
    · simp only [dispatchLoop, hs, if_true]
      exact ⟨rfl, h⟩
    · cases descending with
      | true =>
        by_cases hidx : idx < HTHSM_MAX_HIERARCHY_DEPTH
        · simp only [dispatchLoop, hs, if_false, if_true, hidx]
          exact dispatchLoop_same hagree hstate e stop true fuel _ _ _ _
            ⟨h.1, h.2.1, by simp [h.2.2.1], h.2.2.2⟩
        · simp only [dispatchLoop, hs, if_false, if_true, hidx]
          exact rfl
      | false =>
        obtain ⟨hret, hsame⟩ := callHandler_same hagree h s (m s).handlerFn (hstate s) e
        rcases hc : callHandler code (.state s) (m s).handlerFn e w with ⟨ret, w1⟩
        rcases hc2 : callHandler code2 (.state s) (m s).handlerFn e w2 with ⟨ret2, w3⟩
        rw [hc, hc2] at hret hsame
        simp only at hret hsame
        subst hret
        cases ret2 with
        | HTHSM_CONTINUE =>
          simp only [dispatchLoop, hs, if_false, Bool.false_eq_true, hc, hc2]
          exact dispatchLoop_same hagree hstate e stop false fuel _ _ _ _ hsame
        | HTHSM_SUPPRESS_SUPERSTATES =>
          simp only [dispatchLoop, hs, if_false, Bool.false_eq_true, hc, hc2]
          exact ⟨rfl, hsame⟩
        | HTHSM_SUPPRESS_IMMEDIATE_SUPERSTATE =>
          cases hp : (m s).superState with
          | none =>
            simp only [dispatchLoop, hs, if_false, Bool.false_eq_true, hc, hc2, hp]
            exact ⟨rfl, hsame⟩
          | some q =>
            simp only [dispatchLoop, hs, if_false, Bool.false_eq_true, hc, hc2, hp]
            exact dispatchLoop_same hagree hstate e stop false fuel _ _ _ _ hsame

theorem descendLoop_same (hagree : Agree gen code code2) (hstate : ∀ s, (m s).handlerFn ≠ gen)
    (e : EventPtr) : ∀ (k : Nat) (w w2 : Sys σ), SameRun w w2 →
    SameResult (descendLoop m code e k w) (descendLoop m code2 e k w2)
  | 0, w, w2, h => h
  | k + 1, w, w2, h => by
    by_cases hk : k < HTHSM_MAX_HIERARCHY_DEPTH
    · simp only [descendLoop, hk, if_true, h.2.2.1]
      cases w.stateList k with
      | none => exact rfl
      | some s =>
        exact descendLoop_same hagree hstate e k _ _
          (callHandler_same hagree h s (m s).handlerFn (hstate s) e).2
    · simp only [descendLoop, hk, if_false]
      exact rfl

theorem dispatchWalk_same (hagree : Agree gen code code2) (hstate : ∀ s, (m s).handlerFn ≠ gen)
    (fuel : Nat) {w w2 : Sys σ} (h : SameRun w w2) (e : EventPtr) (stop : Option StateId)
    (descending : Bool) :
    SameResult (dispatchWalk m code fuel w e stop descending)
      (dispatchWalk m code2 fuel w2 e stop descending) := by
  cases fuel with
  | zero => exact rfl
  | succ fuel =>
    have h0 : SameRun ({ w with me := { w.me with pLatestEvent := some e } } : Sys σ)
        { w2 with me := { w2.me with pLatestEvent := some e } } := by
      obtain ⟨hme, happ, hsl, htr⟩ := h
      exact ⟨by simp [hme], happ, hsl, htr⟩
    have h1 := callGeneric_same hagree h0 e
    have hloop := dispatchLoop_same (m := m) hagree hstate e stop descending (fuel + 1)
      (callGeneric code e { w with me := { w.me with pLatestEvent := some e } }).me.pState__ 0
      _ _ h1
    simp only [dispatchWalk, h1.1]
    rcases SameLoop_cases hloop with ⟨f, hr, hr2⟩ | ⟨k, w3, w4, hr, hr2, h34⟩
    · simp only [hr, hr2]
      exact rfl
    · simp only [hr, hr2]
      cases descending with
      | false => exact h34
      | true => exact descendLoop_same hagree hstate e _ _ _ h34

theorem transitionOnce_same (hagree : Agree gen code code2)
    (hstate : ∀ s, (m s).handlerFn ≠ gen) (fuel : Nat) {w w2 : Sys σ} (h : SameRun w w2)
    (target : Option StateId) :
    SameResult (transitionOnce m code fuel w target)
      (transitionOnce m code2 fuel w2 target) := by
  cases fuel with
  | zero => exact rfl
  | succ fuel =>
    simp only [transitionOnce, h.1]
    cases __lowestCommonSuperstate m (fuel + 1) w.me.pState__ target with
    | error f => exact rfl
    | ok lca =>
      simp only
      rcases SameResult_cases (dispatchWalk_same (m := m) hagree hstate fuel h .exit lca false)
        with ⟨f, hr, hr2⟩ | ⟨w1, w3, hr, hr2, h13⟩
      · simp only [hr, hr2]
        exact rfl
      · simp only [hr, hr2]
        refine dispatchWalk_same hagree hstate fuel ?_ .entry lca true
        exact ⟨by simp [h13.1], h13.2.1, h13.2.2.1, h13.2.2.2⟩

theorem dispatchOnce_same (hagree : Agree gen code code2)
    (hstate : ∀ s, (m s).handlerFn ≠ gen) (fuel : Nat) {w w2 : Sys σ} (h : SameRun w w2)
    (e : EventPtr) (stop : Option StateId) (descending : Bool) :
    SameResult (dispatchOnce m code fuel w e stop descending)
      (dispatchOnce m code2 fuel w2 e stop descending) := by
  cases fuel with
  | zero => exact rfl
  | succ fuel =>
    simp only [dispatchOnce]
    rcases SameResult_cases
      (dispatchWalk_same (m := m) hagree hstate (fuel + 1) h e stop descending)
      with ⟨f, hr, hr2⟩ | ⟨w3, w4, hr, hr2, h34⟩
    · simp only [hr, hr2]
      exact rfl
    · simp only [hr, hr2, h34.1]
      cases w3.me.pTransitionTarget with
      | none => exact h34
      | some t =>
        simp only
        refine transitionOnce_same hagree hstate fuel ?_ (some t)
        exact ⟨rfl, h34.2.1, h34.2.2.1, h34.2.2.2⟩

theorem fsmInitOnce_same (hagree : Agree gen code code2)
    (hstate : ∀ s, (m s).handlerFn ≠ gen) (fuel : Nat) (w : Sys σ) :
    SameResult (fsmInitOnce m code fuel w) (fsmInitOnce m code2 fuel w) := by
  unfold fsmInitOnce
  cases w.me.pState__ with
  | none => exact rfl
  | some s =>
    simp only
    rcases SameResult_cases (dispatchOnce_same (m := m) hagree hstate fuel (SameRun_refl w)
      .init (m s).superState false) with ⟨f, hr, hr2⟩ | ⟨w1, w2, hr, hr2, h12⟩
    · simp only [hr, hr2]
      exact rfl
    · simp only [hr, hr2]
      exact dispatchWalk_same hagree hstate fuel h12 .entry none true

end

theorem GenericCalls_block {e : EventPtr} {me : HTHSM_Fsm} {g l : List Invocation}
    {gen : FnId} (hg : GenericCalls e me g) (hgen : me.fnGenericEvtHandler = some gen)
    (hl : ∀ i ∈ l, i.callee ≠ .generic ∧ i.e = e) : Block e (g ++ l) := by
  unfold GenericCalls at hg
  rw [hgen] at hg
  obtain ⟨r, q, rfl⟩ := hg
  exact ⟨_, l, rfl, rfl, rfl, hl⟩

theorem TransitionCalls_blocks {mem : Mem} {me : HTHSM_Fsm} {Y : StateId}
    {lca : Option StateId} {t : List Invocation} {gen : FnId}
    (h : TransitionCalls mem me Y lca t) (hgen : me.fnGenericEvtHandler = some gen) :
    TransitionBlocks t := by
  obtain ⟨gx, x, gn, en, rfl, hgx, hwalk, hx, hgn, hmap, hen⟩ := h
  exact Or.inr ⟨gx ++ x, gn ++ en, rfl,
    GenericCalls_block hgx hgen
      (fun i hi => ⟨Walk_callee_ne_generic hwalk i hi, (hx i hi).1⟩),
    GenericCalls_block hgn hgen
      (fun i hi => ⟨callee_ne_generic_of_map hmap i hi, (hen i hi).1⟩)⟩

/-- The blocks of calls of one ascending top-level dispatch when a generic handler is
configured. -/
theorem Dispatch_blocks {σ : Type} (mem : Mem) (code : Code σ) (fuel : Nat) (w : Sys σ)
    (e : EventPtr) (stop : Option StateId) (gen : FnId)
    (hgen : w.me.fnGenericEvtHandler = some gen) (hwf : WellFormed mem)
    (hfuel : HTHSM_MAX_HIERARCHY_DEPTH + 2 ≤ fuel) :
    ∃ w' b t, __Dispatch mem code fuel w e stop false = .ok w' ∧
      w'.trace = w.trace ++ (b ++ t) ∧ Block e b ∧ TransitionBlocks t ∧
      w'.me.fnGenericEvtHandler = some gen := by
  obtain ⟨w', g, l, t, hrun, htr, hg, hwalk, hl, -, hfn, hcase⟩ :=
    Dispatch_ascending_spec mem code fuel w e stop hwf hfuel
  refine ⟨w', g ++ l, t, hrun, htr,
    GenericCalls_block hg hgen (fun i hi => ⟨Walk_callee_ne_generic hwalk i hi, (hl i hi).1⟩),
    ?_, hfn.trans hgen⟩
  rcases hcase with ⟨rfl, -⟩ | ⟨Y, lca, -, hcalls, -⟩
  · exact Or.inl rfl
  · exact TransitionCalls_blocks hcalls hgen

theorem SameRun_newTrace {σ : Type} {w w' w2 : Sys σ} {l l2 : List Invocation}
    (h : SameRun w' w2) (htr : w'.trace = w.trace ++ l) (htr2 : w2.trace = w.trace ++ l2) :
    stateHandlerCalls (newTrace w w2) = stateHandlerCalls (newTrace w w') := by
  have := h.2.2.2
  rw [htr, htr2, stateHandlerCalls_append, stateHandlerCalls_append] at this
  rw [newTrace_eq htr, newTrace_eq htr2]
  exact List.append_cancel_left this

/-- C16: with a generic handler `gen` configured, which is the handler of no state, on a
well-formed graph: the calls of `HTHSM_Dispatch` are the block of the dispatched event, then
nothing or the blocks of EXIT and of ENTRY of the transition; the calls of `HTHSM_FsmInit` are
the block of INIT, nothing or the blocks of a transition, then the block of ENTRY.  Each block
holds one call of the generic handler, followed by the calls of state handlers with that event.
With handler functions that differ only in the return values of `gen`, both runs make the same
calls of state handlers and end with the same machine. -/
theorem generic_handler_once_before_state_handlers {σ : Type} (mem : Mem)
    (code code2 : Code σ) (fuel : Nat) (w : Sys σ) (e : HTHSM_Event) (gen : FnId)
    (hgen : w.me.fnGenericEvtHandler = some gen) (hwf : WellFormed mem)
    (hfuel : HTHSM_MAX_HIERARCHY_DEPTH + 2 ≤ fuel) (hagree : Agree gen code code2)
    (hstate : ∀ s, (mem s).handlerFn ≠ gen) :
    (∃ w' w2 b t, HTHSM_Dispatch mem code fuel w e = .ok w' ∧
      HTHSM_Dispatch mem code2 fuel w e = .ok w2 ∧
      newTrace w w' = b ++ t ∧ Block (.host e) b ∧ TransitionBlocks t ∧
      stateHandlerCalls (newTrace w w2) = stateHandlerCalls (newTrace w w') ∧ w2.me = w'.me) ∧
    (w.me.pState__ ≠ none →
      ∃ w' w2 b t bn, HTHSM_FsmInit mem code fuel w = .ok w' ∧
        HTHSM_FsmInit mem code2 fuel w = .ok w2 ∧
        newTrace w w' = b ++ t ++ bn ∧ Block .init b ∧ TransitionBlocks t ∧ Block .entry bn ∧
        stateHandlerCalls (newTrace w w2) = stateHandlerCalls (newTrace w w') ∧
        w2.me = w'.me) := by
  constructor
  · obtain ⟨w', b, t, hrun, htr, hb, ht, -⟩ :=
      Dispatch_blocks mem code fuel w (.host e) none gen hgen hwf hfuel
    have hsim := dispatchOnce_same (m := mem) hagree hstate fuel (SameRun_refl w) (.host e)
      none false
    rw [← Dispatch_eq_once, ← Dispatch_eq_once, hrun] at hsim
    rcases SameResult_cases hsim with ⟨f, hr, -⟩ | ⟨w1, w2, hr, hr2, h12⟩
    · exact Except.noConfusion hr
    · obtain rfl : w' = w1 := Except.ok.inj hr
      obtain ⟨l2, t2, -, htr2, -⟩ := Dispatch_effect mem code2 fuel w w2 _ _ _ hr2
      exact ⟨w', w2, b, t, hrun, hr2, newTrace_eq htr, hb, ht,
        SameRun_newTrace h12 htr htr2, h12.1⟩
  · intro hne
    obtain ⟨S, hS⟩ := Option.ne_none_iff_exists'.mp hne
    obtain ⟨w1, w', g, l, hrun1, hrun2, hrun, htr2, hg, hmap, hl, -⟩ :=
      FsmInit_spec mem code fuel w S hS hwf hfuel
    obtain ⟨w1', b, t, hrun1', htr1, hb, ht, hfn⟩ :=
      Dispatch_blocks mem code fuel w .init (mem S).superState gen hgen hwf hfuel
    obtain rfl : w1 = w1' := Except.ok.inj (hrun1.symm.trans hrun1')
    have hbn : Block .entry (g ++ l) :=
      GenericCalls_block hg hfn
        (fun i hi => ⟨callee_ne_generic_of_map hmap i hi, (hl i hi).1⟩)
    have htr : w'.trace = w.trace ++ (b ++ t ++ (g ++ l)) := by
      rw [htr2, htr1]
      simp
    have hsim := fsmInitOnce_same (m := mem) hagree hstate fuel w
    rw [← FsmInit_eq_once, ← FsmInit_eq_once, hrun] at hsim
    rcases SameResult_cases hsim with ⟨f, hr, -⟩ | ⟨w3, w2, hr, hr2, h32⟩
    · exact Except.noConfusion hr
    · obtain rfl : w' = w3 := Except.ok.inj hr
      have hr2' := hr2
      simp only [HTHSM_FsmInit, hS] at hr2'
      cases hd : __Dispatch mem code2 fuel w .init (mem S).superState false with
      | error f => simp [hd] at hr2'
      | ok w4 =>
        rw [hd] at hr2'
        simp only at hr2'
        obtain ⟨la, ta, -, htra, -⟩ := Dispatch_effect mem code2 fuel w w4 _ _ _ hd
        obtain ⟨lb, tb, -, htrb, -⟩ := Dispatch_effect mem code2 fuel w4 w2 _ _ _ hr2'
        have htr2' : w2.trace = w.trace ++ ((la ++ ta) ++ (lb ++ tb)) := by
          rw [htrb, htra]
          simp
        exact ⟨w', w2, b, t, g ++ l, hrun, hr2, newTrace_eq htr, hb, ht, hbn,
          SameRun_newTrace h32 htr htr2', h32.1⟩

theorem generic_handler_once_before_state_handlers_witness :
    ∃ w' w2 b t, HTHSM_Dispatch tracedMem tracedCode 7 tracedStart sig4Evt = .ok w' ∧
      HTHSM_Dispatch tracedMem tracedCode2 7 tracedStart sig4Evt = .ok w2 ∧
      newTrace tracedStart w' = b ++ t ∧ Block (.host sig4Evt) b ∧ TransitionBlocks t ∧
      stateHandlerCalls (newTrace tracedStart w2) = stateHandlerCalls (newTrace tracedStart w') ∧
      w2.me = w'.me :=
  (generic_handler_once_before_state_handlers tracedMem tracedCode tracedCode2 7 tracedStart
    sig4Evt 9 rfl
    (fun s => by
      match s with
      | 0 => rfl
      | 1 => rfl
      | 2 => rfl
      | 3 => rfl
      | 4 => rfl
      | n + 5 => rfl)
    (by decide)
    (fun fn me app e => by
      by_cases h : fn = 9 <;> simp [tracedCode, tracedCode2, h])
    (fun s => by
      match s with
      | 0 => decide
      | 1 => decide
      | 2 => decide
      | 3 => decide
      | 4 => decide
      | n + 5 => exact fun h => absurd (show (0 : Nat) = 9 from h) (by decide))).1

/-- The run of C16's witness, evaluated: who is called with which event when the machine of
the tests, with a generic handler, gets `SIG_4`. -/
theorem generic_handler_once_before_state_handlers_example :
    (callsOfRun tracedStart (HTHSM_Dispatch tracedMem tracedCode 7 tracedStart sig4Evt)).map
        (fun i => (i.callee, i.e)) =
      [(.generic, .host sig4Evt), (.state stateD, .host sig4Evt), (.state stateC, .host sig4Evt),
       (.state stateA, .host sig4Evt), (.generic, .exit), (.state stateD, .exit),
       (.state stateC, .exit), (.generic, .entry), (.state stateB, .entry)] := by
  decide!

/-- The run of C19's witness, evaluated: after `HTHSM_FsmInit` and `SIG_4` the active state is
`stateB`; the two calls of `HTHSM_Transition` by the host come while ENTRY is the latest event
and are not honoured. -/
theorem active_state_never_null_example :
    (machineOfRun (hostCalls testMem testCode 7
        [.init, .dispatch sig4Evt, .transition none, .transition (some stateE)]
        (Sys.start (HTHSM_FsmCtor (some stateD) none) ()))).map (fun me => me.pState__) =
      some (some stateB) ∧
    hostHonoured testMem testCode 7
        [.init, .dispatch sig4Evt, .transition none, .transition (some stateE)]
        (Sys.start (HTHSM_FsmCtor (some stateD) none) ()) = [] := by
  decide!

end HTHSM
